import Mathlib

/-!
# Currency consensus core of monetaverde

A shallow embedding of `src/CryptoNoteCore/Currency.cpp` (with the constants of
`src/CryptoNoteConfig.h`) and theorems about it.

Conventions of the embedding:

* `uint64_t`, `size_t` and `Difficulty` values are natural numbers below `2 ^ 64`;
  every operation that can wrap is written with an explicit reduction `u64`.
* `int64_t` values are integers; every operation that can wrap is written with the
  explicit two's complement reduction `toInt64`.
* `std::vector<uint64_t>` is `List Nat`.
* `assert`s are preconditions: they do not occur in the definitions and are hypotheses of
  the theorems that need them.
* a function that returns `bool` and writes its results through references returns an
  `Option` of the results.
-/

set_option linter.unusedVariables false

namespace CryptoNote

/-! ## Machine integers -/

/-- Truncation to an unsigned 64-bit word. -/
def u64 (x : Nat) : Nat := x % 2 ^ 64

/-- Unsigned 64-bit subtraction `a - b` of two words. -/
def subU64 (a b : Nat) : Nat := (a + (2 ^ 64 - b % 2 ^ 64)) % 2 ^ 64

/-- Two's complement reading of an integer as a signed 64-bit value. -/
def toInt64 (x : Int) : Int := (x + 2 ^ 63) % 2 ^ 64 - 2 ^ 63

/-- Reading of a signed 64-bit value as an unsigned 64-bit word. -/
def toU64 (x : Int) : Nat := (x % 2 ^ 64).toNat

/-- The static function `mul` of Currency.cpp: widening multiply, returning `(low, high)`. -/
def mul (a b : Nat) : Nat × Nat := ((a * b) % 2 ^ 64, (a * b) / 2 ^ 64 % 2 ^ 64)

/-- Modelled from the spec: `mul128` is declared in Common/int-util.h, which is not among the
sources. The spec gives it as the widening multiply `mul128(a, b) -> (low, high)`; it is the
same function as `mul` above. -/
def mul128 (a b : Nat) : Nat × Nat := ((a * b) % 2 ^ 64, (a * b) / 2 ^ 64 % 2 ^ 64)

/-- `std::vector<uint64_t>::resize(n)`: keep the first `n` entries, pad with zeros. -/
def resize (v : List Nat) (n : Nat) : List Nat := v.take n ++ List.replicate (n - v.length) 0

/-! ## Constants of CryptoNoteConfig.h -/

namespace parameters

def CRYPTONOTE_BLOCK_FUTURE_TIME_LIMIT : Nat := 60 * 60 * 2
def CRYPTONOTE_COIN_VERSION : Nat := 0
def CRYPTONOTE_BLOCK_GRANTED_FULL_REWARD_ZONE : Nat := 20000
def CRYPTONOTE_BLOCK_GRANTED_FULL_REWARD_ZONE_V1 : Nat := 20000
def CRYPTONOTE_BLOCK_GRANTED_FULL_REWARD_ZONE_CURRENT : Nat :=
  CRYPTONOTE_BLOCK_GRANTED_FULL_REWARD_ZONE
def DIFFICULTY_TARGET : Nat := 60
def DIFFICULTY_WINDOW : Nat := 720
def DIFFICULTY_WINDOW_V2 : Nat := 720
def DIFFICULTY_WINDOW_V4 : Nat := 720
def DIFFICULTY_CUT : Nat := 60
def DIFFICULTY_LAG : Nat := 15
def DIFFICULTY_LAG_V2 : Nat := 15
def UPGRADE_HEIGHT_V2 : Nat := 0
def UPGRADE_HEIGHT_V3 : Nat := 2 ^ 32 - 1
def UPGRADE_HEIGHT_V4 : Nat := 2 ^ 32 - 1
def TESTNET_UPGRADE_HEIGHT_V2 : Nat := 2
def TESTNET_UPGRADE_HEIGHT_V3 : Nat := 5
def TESTNET_UPGRADE_HEIGHT_V4 : Nat := 10
def TESTNET_DIFFICULTY_TARGET : Nat := 15
def CRYPTONOTE_MINED_MONEY_UNLOCK_WINDOW : Nat := 60
def CRYPTONOTE_DISPLAY_DECIMAL_POINT : Nat := 12
def MINIMUM_FEE : Nat := 1000000
def DEFAULT_DUST_THRESHOLD : Nat := 1000000
def FUSION_TX_MAX_SIZE : Nat := CRYPTONOTE_BLOCK_GRANTED_FULL_REWARD_ZONE_CURRENT * 15 / 100
def FUSION_TX_MIN_INPUT_COUNT : Nat := 12
def FUSION_TX_MIN_IN_OUT_COUNT_RATIO : Nat := 4
def CRYPTONOTE_PUBLIC_ADDRESS_BASE58_PREFIX : Nat := 6699
def EMISSION_SPEED_FACTOR : Nat := 23
def EXPECTED_NUMBER_OF_BLOCKS_PER_DAY : Nat := 24 * 60 * 60 / DIFFICULTY_TARGET
def UPGRADE_VOTING_THRESHOLD : Nat := 90
def UPGRADE_WINDOW : Nat := EXPECTED_NUMBER_OF_BLOCKS_PER_DAY

end parameters

def CURRENT_TRANSACTION_VERSION : Nat := 1

def BLOCK_MAJOR_VERSION_1 : Nat := 1
def BLOCK_MAJOR_VERSION_2 : Nat := 2
def BLOCK_MAJOR_VERSION_3 : Nat := 3
def BLOCK_MAJOR_VERSION_4 : Nat := 4

/-! ## log2_fix -/

def log_fix_precision : Nat := 20

/-- The `while` loop of `log2_fix`: halve `x` until it is below `2 << log_fix_precision`,
adding `1 << log_fix_precision` to `y` at every step. The first argument bounds the number
of iterations; a 64-bit `x` needs fewer than 64. -/
def log2_fix_while : Nat → Nat → Nat → Nat × Nat
  | 0, x, y => (x, y)
  | fuel + 1, x, y =>
    if x ≥ u64 (2 <<< log_fix_precision) then
      log2_fix_while fuel (x >>> 1) (u64 (y + u64 (1 <<< log_fix_precision)))
    else (x, y)

/-- The `for` loop of `log2_fix`, with `n` iterations left. -/
def log2_fix_for : Nat → Nat → Nat → Nat → Nat
  | 0, _, y, _ => y
  | n + 1, z, y, b =>
    let z1 := u64 (z * z) >>> log_fix_precision
    if z1 ≥ u64 (2 <<< log_fix_precision) then
      log2_fix_for n (z1 >>> 1) (u64 (y + b)) (b >>> 1)
    else
      log2_fix_for n z1 y (b >>> 1)

/-- `uint64_t log2_fix(uint64_t x)`. -/
def log2_fix (x : Nat) : Nat :=
  let b := u64 (1 <<< (log_fix_precision - 1))
  let xy := log2_fix_while 64 x 0
  log2_fix_for log_fix_precision xy.1 xy.2 b

/-- The `for` loop of `log2_fix` with a record of its squarings: next to the result `y`, the
list of the values of `z` at the statement `z = (z * z) >> log_fix_precision`, in the order
of the iterations. -/
def log2_fix_for_traced : Nat → Nat → Nat → Nat → Nat × List Nat
  | 0, _, y, _ => (y, [])
  | n + 1, z, y, b =>
    let z1 := u64 (z * z) >>> log_fix_precision
    let r :=
      if z1 ≥ u64 (2 <<< log_fix_precision) then
        log2_fix_for_traced n (z1 >>> 1) (u64 (y + b)) (b >>> 1)
      else
        log2_fix_for_traced n z1 y (b >>> 1)
    (r.1, z :: r.2)

/-- `log2_fix` with the record of the values that its `for` loop squares. -/
def log2_fix_traced (x : Nat) : Nat × List Nat :=
  let b := u64 (1 <<< (log_fix_precision - 1))
  let xy := log2_fix_while 64 x 0
  log2_fix_for_traced log_fix_precision xy.1 xy.2 b

/-! ## Block reward -/

/-- `Currency::blockGrantedFullRewardZoneByBlockVersion`. -/
def blockGrantedFullRewardZoneByBlockVersion (blockMajorVersion : Nat) : Nat :=
  if blockMajorVersion ≥ BLOCK_MAJOR_VERSION_2 then
    parameters.CRYPTONOTE_BLOCK_GRANTED_FULL_REWARD_ZONE_CURRENT
  else
    parameters.CRYPTONOTE_BLOCK_GRANTED_FULL_REWARD_ZONE_V1

/-- Modelled from the spec: `getPenalizedAmount` is defined in CryptoNoteBasicImpl.cpp, which
is not among the sources; Currency.cpp only calls it. The spec gives it as `penalize`:
if `current ≤ median` return `amount`, otherwise return
`amount · (2·median − current) · current / median²`, the intermediate products not being
truncated. (`2·median − current` is the truncated subtraction; the callers only reach the
quotient with `current ≤ 2·median`.) -/
def getPenalizedAmount (amount medianSize currentBlockSize : Nat) : Nat :=
  if currentBlockSize ≤ medianSize then amount
  else amount * (2 * medianSize - currentBlockSize) * currentBlockSize / (medianSize * medianSize)

/-- `Currency::getBlockReward`. The result is `none` when the function returns `false`
and `some (reward, emissionChange)` when it returns `true`. -/
def getBlockReward (blockMajorVersion medianSize currentBlockSize alreadyGeneratedCoins fee
    diff : Nat) : Option (Nat × Int) :=
  let baseReward := u64 (log2_fix (u64 (diff <<< log_fix_precision)) <<< 20)
  let blockGrantedFullRewardZone := blockGrantedFullRewardZoneByBlockVersion blockMajorVersion
  let medianSize := max medianSize blockGrantedFullRewardZone
  if currentBlockSize > u64 (2 * medianSize) then
    none
  else
    let penalizedBaseReward := getPenalizedAmount baseReward medianSize currentBlockSize
    let penalizedFee :=
      if blockMajorVersion ≥ BLOCK_MAJOR_VERSION_3 then
        getPenalizedAmount fee medianSize currentBlockSize
      else fee
    let penalizedFee :=
      if parameters.CRYPTONOTE_COIN_VERSION = 1 then
        getPenalizedAmount fee medianSize currentBlockSize
      else penalizedFee
    let emissionChange := toInt64 (subU64 penalizedBaseReward (subU64 fee penalizedFee))
    let reward := u64 (penalizedBaseReward + penalizedFee)
    some (reward, emissionChange)

/-! ## Data model

The headers that declare these types (CryptoNote.h, CachedBlock.h, TransactionExtra.h,
Currency.h) are not among the sources; the structures below follow section 3 of the spec and
keep the fields that Currency.cpp reads or writes, under the names it uses. -/

/-- Modelled from the spec: `Crypto::Hash` (CryptoTypes.h is not among the sources), a
32-byte hash. -/
structure Hash where
  data : List Nat
deriving DecidableEq, Repr

/-- Modelled from the spec: `sizeof(Crypto::Hash)`, the hash being 256 bits long. -/
def sizeofHash : Nat := 32

/-- Modelled from the spec: `TransactionExtraMergeMiningTag` (TransactionExtra.h is not among
the sources), the merge-mining tag with its Merkle root. -/
structure TransactionExtraMergeMiningTag where
  depth : Nat
  merkleRoot : Hash
deriving DecidableEq, Repr

/-- Modelled from the spec: `TransactionInput` (CryptoNote.h is not among the sources), a
`BaseInput` carrying a block index or a `KeyInput`, of which the amount is kept. -/
inductive TransactionInput where
  | BaseInput (blockIndex : Nat)
  | KeyInput (amount : Nat)
deriving DecidableEq, Repr

/-- Modelled from the spec: `TransactionOutput` (CryptoNote.h is not among the sources), an
amount and a target that is a key output containing a public key. -/
structure TransactionOutput where
  amount : Nat
  key : List Nat
deriving DecidableEq, Repr

/-- Modelled from the spec: `Transaction` (CryptoNote.h is not among the sources): version,
unlockTime, inputs, outputs and the extra byte vector. -/
structure Transaction where
  version : Nat := 0
  unlockTime : Nat := 0
  inputs : List TransactionInput := []
  outputs : List TransactionOutput := []
  extra : List Nat := []
deriving DecidableEq, Repr

/-- Modelled from the spec: `ParentBlock` (CryptoNote.h is not among the sources), the
parent-block data for merge mining: its coinbase transaction and the blockchain branch. -/
structure ParentBlock where
  baseTransaction : Transaction := {}
  blockchainBranch : List Hash := []
deriving DecidableEq, Repr

/-- Modelled from the spec: `BlockTemplate` (CryptoNote.h is not among the sources): major and
minor version, timestamp, nonce, parent-block data and base transaction. -/
structure BlockTemplate where
  majorVersion : Nat := 0
  minorVersion : Nat := 0
  timestamp : Nat := 0
  nonce : Nat := 0
  parentBlock : ParentBlock := {}
  baseTransaction : Transaction := {}
deriving DecidableEq, Repr

/-- Modelled from the spec: `CachedBlock` (CachedBlock.h is not among the sources), a block
paired with its computed hashes: block hash, long hash and auxiliary-header hash. -/
structure CachedBlock where
  block : BlockTemplate := {}
  blockHash : Hash := ⟨[]⟩
  blockLongHash : Hash := ⟨[]⟩
  auxiliaryBlockHeaderHash : Hash := ⟨[]⟩
deriving DecidableEq, Repr

/-- The external collaborators that Currency.cpp calls: hex and binary decoding, the block
hasher behind `CachedBlock`, `check_hash`, `getMergeMiningTagFromExtra` and
`tree_hash_from_branch`. They are parameters of the embedding. -/
structure Collaborators where
  fromHex : String → Option (List Nat)
  fromBinaryArray : List Nat → Option Transaction
  cachedBlock : BlockTemplate → CachedBlock
  check_hash : Hash → Nat → Bool
  getMergeMiningTagFromExtra : List Nat → Option TransactionExtraMergeMiningTag
  tree_hash_from_branch : List Hash → Nat → Hash → Hash → Hash

def GENESIS_COINBASE_TX_HEX : String :=
  "013c01ff00002101274a48ea82cb5d54547e6dd7ed87af943761d82c9050f60f56da4a7e71baa2f5"

/-- Modelled from the spec: the class `Currency` (Currency.h is not among the sources), with
the members that the functions below read or write, under the names Currency.cpp uses. The
default values are those that the constructor of `CurrencyBuilder` sets. -/
structure Currency where
  m_blockFutureTimeLimit : Nat := parameters.CRYPTONOTE_BLOCK_FUTURE_TIME_LIMIT
  m_difficultyTarget : Nat := parameters.DIFFICULTY_TARGET
  m_testnet_DifficultyTarget : Nat := parameters.TESTNET_DIFFICULTY_TARGET
  m_upgradeHeightV2 : Nat := parameters.UPGRADE_HEIGHT_V2
  m_upgradeHeightV3 : Nat := parameters.UPGRADE_HEIGHT_V3
  m_upgradeHeightV4 : Nat := parameters.UPGRADE_HEIGHT_V4
  m_testnetUpgradeHeightV2 : Nat := parameters.TESTNET_UPGRADE_HEIGHT_V2
  m_testnetUpgradeHeightV3 : Nat := parameters.TESTNET_UPGRADE_HEIGHT_V3
  m_testnetUpgradeHeightV4 : Nat := parameters.TESTNET_UPGRADE_HEIGHT_V4
  m_blocksFileName : String := "blocks.dat"
  m_blockIndexesFileName : String := "blockindexes.dat"
  m_txPoolFileName : String := "poolstate.dat"
  m_testnet : Bool := false
  m_minedMoneyUnlockWindow : Nat := parameters.CRYPTONOTE_MINED_MONEY_UNLOCK_WINDOW
  m_numberOfDecimalPlaces : Nat := parameters.CRYPTONOTE_DISPLAY_DECIMAL_POINT
  m_defaultDustThreshold : Nat := parameters.DEFAULT_DUST_THRESHOLD
  m_fusionTxMaxSize : Nat := parameters.FUSION_TX_MAX_SIZE
  m_fusionTxMinInputCount : Nat := parameters.FUSION_TX_MIN_INPUT_COUNT
  m_fusionTxMinInOutCountRatio : Nat := parameters.FUSION_TX_MIN_IN_OUT_COUNT_RATIO
  m_publicAddressBase58Prefix : Nat := parameters.CRYPTONOTE_PUBLIC_ADDRESS_BASE58_PREFIX
  m_emissionSpeedFactor : Nat := parameters.EMISSION_SPEED_FACTOR
  m_difficultyWindow : Nat := parameters.DIFFICULTY_WINDOW
  m_upgradeVotingThreshold : Nat := parameters.UPGRADE_VOTING_THRESHOLD
  m_upgradeWindow : Nat := parameters.UPGRADE_WINDOW
  genesisBlockTemplate : BlockTemplate := {}
  cachedGenesisBlock : CachedBlock := {}
deriving DecidableEq, Repr

/-- `Currency::generateGenesisBlock`; `none` when it returns `false`. -/
def Currency.generateGenesisBlock (ext : Collaborators) (c : Currency) : Option Currency :=
  let genesisBlockTemplate : BlockTemplate := {}
  let genesisCoinbaseTxHex := GENESIS_COINBASE_TX_HEX
  match (ext.fromHex genesisCoinbaseTxHex).bind ext.fromBinaryArray with
  | none => none
  | some tx =>
    let genesisBlockTemplate := { genesisBlockTemplate with baseTransaction := tx }
    let genesisBlockTemplate := { genesisBlockTemplate with majorVersion := BLOCK_MAJOR_VERSION_1 }
    let genesisBlockTemplate := { genesisBlockTemplate with minorVersion := 0 }
    let genesisBlockTemplate := { genesisBlockTemplate with timestamp := 0 }
    let genesisBlockTemplate := { genesisBlockTemplate with nonce := 10000 }
    let genesisBlockTemplate :=
      if c.m_testnet then
        { genesisBlockTemplate with nonce := (genesisBlockTemplate.nonce + 1) % 2 ^ 32 }
      else genesisBlockTemplate
    some { c with
      genesisBlockTemplate := genesisBlockTemplate
      cachedGenesisBlock := ext.cachedBlock genesisBlockTemplate }

/-- `Currency::init`; `none` when it returns `false`. (The hasher of the embedding is total,
so the `catch` branch around `getBlockHash` is not taken.) -/
def Currency.init (ext : Collaborators) (c : Currency) : Option Currency :=
  match c.generateGenesisBlock ext with
  | none => none
  | some c =>
    if c.m_testnet then
      some { c with
        m_upgradeHeightV2 := c.m_testnetUpgradeHeightV2
        m_upgradeHeightV3 := c.m_testnetUpgradeHeightV3
        m_upgradeHeightV4 := c.m_testnetUpgradeHeightV4
        m_difficultyTarget := c.m_testnet_DifficultyTarget
        m_blocksFileName := "testnet_" ++ c.m_blocksFileName
        m_blockIndexesFileName := "testnet_" ++ c.m_blockIndexesFileName
        m_txPoolFileName := "testnet_" ++ c.m_txPoolFileName }
    else some c

/-! ## IEEE-754 double precision, as far as the retargets use it

A finite non-negative double is `m * 2 ^ e` with `m < 2 ^ 53`, or `m = 2 ^ 53` after a round
up. The retargets multiply `0.9909`, a half-integer below `2 ^ 63` and a target below
`2 ^ 63`, so neither infinities nor subnormal numbers occur. -/

/-- A finite non-negative double `m * 2 ^ e`. -/
structure F64 where
  m : Nat
  e : Int
deriving DecidableEq, Repr

/-- Number of binary digits of `n`, counted in at most `fuel` halvings. -/
def bitLengthAux : Nat → Nat → Nat
  | 0, _ => 0
  | fuel + 1, n => if n = 0 then 0 else bitLengthAux fuel (n / 2) + 1

/-- Number of binary digits of `n` (`n` halvings are always enough). -/
def bitLength (n : Nat) : Nat := bitLengthAux n n

/-- Rounding of `n * 2 ^ e` to a 53-bit significand, to nearest, ties to even. -/
def F64.round (n : Nat) (e : Int) : F64 :=
  if n < 2 ^ 53 then ⟨n, e⟩
  else
    let s := bitLength n - 53
    let q := n >>> s
    let r := n % 2 ^ s
    let half := 2 ^ (s - 1)
    let q := if r > half ∨ (r = half ∧ q % 2 = 1) then q + 1 else q
    ⟨q, e + s⟩

/-- Conversion of an integer to double. -/
def F64.ofNat (n : Nat) : F64 := F64.round n 0

/-- Product of two doubles. -/
def F64.mul (a b : F64) : F64 := F64.round (a.m * b.m) (a.e + b.e)

/-- Division of a double by `2.0`. -/
def F64.half (a : F64) : F64 := ⟨a.m, a.e - 1⟩

/-- Conversion of a double to `uint64_t`: truncation; undefined (`none`) above the range. -/
def F64.toUInt64 (a : F64) : Option Nat :=
  let v := if 0 ≤ a.e then a.m * 2 ^ a.e.toNat else a.m / 2 ^ (-a.e).toNat
  if v < 2 ^ 64 then some v else none

/-- The double literal `0.9909`, that is `0x1.fb573eab367a1p-1`. -/
def adjust : F64 := ⟨8925233741522849, -53⟩

/-- The expression `adjust * (n / 2.0) * c_difficultyTarget` converted to `uint64_t`, where
`n` is a `size_t` and `c_difficultyTarget` an `int64_t`. The conversion of a negative
double to `uint64_t` is undefined (`none`). -/
def aimedTarget (n : Nat) (c_difficultyTarget : Int) : Option Nat :=
  if c_difficultyTarget < 0 then none
  else
    F64.toUInt64 (F64.mul (F64.mul adjust (F64.half (F64.ofNat n)))
      (F64.ofNat c_difficultyTarget.toNat))

/-! ## Difficulty -/

/-- `Currency::difficultyWindowByBlockVersion`. -/
def difficultyWindowByBlockVersion (blockMajorVersion : Nat) : Nat :=
  if blockMajorVersion ≥ BLOCK_MAJOR_VERSION_4 then
    parameters.DIFFICULTY_WINDOW_V4
  else if blockMajorVersion = BLOCK_MAJOR_VERSION_2 ∨ blockMajorVersion = BLOCK_MAJOR_VERSION_3 then
    parameters.DIFFICULTY_WINDOW_V2
  else
    parameters.DIFFICULTY_WINDOW

/-- `Currency::difficultyCutByBlockVersion`. -/
def difficultyCutByBlockVersion (blockMajorVersion : Nat) : Nat :=
  parameters.DIFFICULTY_CUT

/-- The loop of `nextDifficultyV4`: the sum over `i = 1 .. length - 1` of
`max(-blockFutureTimeLimit, timestamps[i] - timestamps[i-1]) * i` in `int64_t`. -/
def lwmaV4 (blockFutureTimeLimit : Nat) (timestamps : List Nat) (length : Nat) : Int :=
  (List.range (length - 1)).foldl
    (fun (LWMA : Int) (k : Nat) =>
      let i : Int := (k : Int) + 1
      let solveTime :=
        toInt64 (toInt64 (timestamps.getD (k + 1) 0 : Nat) - toInt64 (timestamps.getD k 0 : Nat))
      let solveTime := max (toInt64 (-(blockFutureTimeLimit : Int))) solveTime
      toInt64 (LWMA + toInt64 (solveTime * i)))
    0

/-- `Currency::nextDifficultyV4`. The result is `none` where the C++ code has undefined
behaviour: conversion of an out-of-range double, or division by zero. -/
def nextDifficultyV4 (c : Currency) (version : Nat) (timestamps cumulativeDifficulties : List Nat) :
    Option Nat :=
  let c_difficultyWindow := difficultyWindowByBlockVersion version
  let c_difficultyTarget : Int := toInt64 c.m_difficultyTarget
  let trim := decide (timestamps.length > c_difficultyWindow)
  let timestamps := if trim then resize timestamps c_difficultyWindow else timestamps
  let cumulativeDifficulties :=
    if trim then resize cumulativeDifficulties c_difficultyWindow else cumulativeDifficulties
  let length := timestamps.length
  if length ≤ 1 then some 1
  else
    let LWMA := lwmaV4 c.m_blockFutureTimeLimit timestamps length
    let minWST : Int :=
      toInt64 ((u64 (u64 (toU64 c_difficultyTarget * length) * (length - 1)) / 8 : Nat) : Int)
    let LWMA := if LWMA < minWST then minWST else LWMA
    let totalWork := subU64 (cumulativeDifficulties.getLastD 0) (cumulativeDifficulties.headD 0)
    (aimedTarget length c_difficultyTarget).bind fun aimedTarget =>
      let lh := mul128 totalWork aimedTarget
      if lh.2 ≠ 0 then some 0
      else if toU64 LWMA = 0 then none
      else some (lh.1 / toU64 LWMA)

/-- The loop of `nextDifficultyV3`: the sum over `i = 1 .. length - 1` of the solve time
`timestamps[i] - timestamps[i-1]`, limited to `[-5 T, 6 T]`, times `i`, in `int64_t`. -/
def weightedSolveTimesV3 (c_difficultyTarget : Int) (timestamps : List Nat) (length : Nat) : Int :=
  (List.range (length - 1)).foldl
    (fun (weightedSolveTimes : Int) (k : Nat) =>
      let i : Int := (k : Int) + 1
      let solveTime :=
        toInt64 (toInt64 (timestamps.getD (k + 1) 0 : Nat) - toInt64 (timestamps.getD k 0 : Nat))
      let solveTime :=
        if solveTime > toInt64 (6 * c_difficultyTarget) then toInt64 (6 * c_difficultyTarget)
        else solveTime
      let solveTime :=
        if solveTime < toInt64 (-5 * c_difficultyTarget) then toInt64 (-5 * c_difficultyTarget)
        else solveTime
      toInt64 (weightedSolveTimes + toInt64 (solveTime * i)))
    0

/-- `Currency::nextDifficultyV3`. The result is `none` where the C++ code has undefined
behaviour: conversion of an out-of-range double, or division by zero. -/
def nextDifficultyV3 (c : Currency) (version : Nat) (timestamps cumulativeDifficulties : List Nat) :
    Option Nat :=
  let c_difficultyWindow := difficultyWindowByBlockVersion version
  let c_difficultyTarget : Int := toInt64 c.m_difficultyTarget
  let trim := decide (timestamps.length > c_difficultyWindow)
  let timestamps := if trim then resize timestamps c_difficultyWindow else timestamps
  let cumulativeDifficulties :=
    if trim then resize cumulativeDifficulties c_difficultyWindow else cumulativeDifficulties
  let length := timestamps.length
  if length ≤ 1 then some 1
  else
    let weightedSolveTimes := weightedSolveTimesV3 c_difficultyTarget timestamps length
    let minWST : Int :=
      toInt64 ((u64 (u64 (toU64 c_difficultyTarget * length) * (length + 1)) / 8 : Nat) : Int)
    let weightedSolveTimes := if weightedSolveTimes < minWST then minWST else weightedSolveTimes
    let totalWork := subU64 (cumulativeDifficulties.getLastD 0) (cumulativeDifficulties.headD 0)
    (aimedTarget (length + 1) c_difficultyTarget).bind fun aimedTarget =>
      let lh := mul128 totalWork aimedTarget
      if lh.2 ≠ 0 then some 0
      else if toU64 weightedSolveTimes = 0 then none
      else some (lh.1 / toU64 weightedSolveTimes)

/-- `Currency::nextDifficultyV2`. -/
def nextDifficultyV2 (c : Currency) (version : Nat) (timestamps cumulativeDifficulties : List Nat) :
    Nat :=
  let target_seconds := parameters.DIFFICULTY_TARGET
  let m_difficultyWindow_2 := parameters.DIFFICULTY_WINDOW_V2
  let trim := decide (timestamps.length > m_difficultyWindow_2)
  let timestamps := if trim then resize timestamps m_difficultyWindow_2 else timestamps
  let cumulativeDifficulties :=
    if trim then resize cumulativeDifficulties m_difficultyWindow_2 else cumulativeDifficulties
  let length := timestamps.length
  if length ≤ 1 then 1
  else
    let timestamps := timestamps.insertionSort (· ≤ ·)
    let cut :=
      if length ≤ parameters.DIFFICULTY_WINDOW - 2 * parameters.DIFFICULTY_CUT then (0, length)
      else
        let cut_begin :=
          (length - (parameters.DIFFICULTY_WINDOW - 2 * parameters.DIFFICULTY_CUT) + 1) / 2
        (cut_begin, cut_begin + (parameters.DIFFICULTY_WINDOW - 2 * parameters.DIFFICULTY_CUT))
    let cut_begin := cut.1
    let cut_end := cut.2
    let time_span := subU64 (timestamps.getD (cut_end - 1) 0) (timestamps.getD cut_begin 0)
    let time_span := if time_span = 0 then 1 else time_span
    let total_work :=
      subU64 (cumulativeDifficulties.getD (cut_end - 1) 0) (cumulativeDifficulties.getD cut_begin 0)
    let lh := mul total_work target_seconds
    if lh.2 ≠ 0 ∨ u64 (lh.1 + time_span - 1) < lh.1 then 0
    else u64 (lh.1 + time_span - 1) / time_span

/-- `Currency::nextDifficultyV1`. -/
def nextDifficultyV1 (c : Currency) (version : Nat) (timestamps cumulativeDifficulties : List Nat) :
    Nat :=
  let c_difficultyWindow := difficultyWindowByBlockVersion version
  let c_difficultyCut := difficultyCutByBlockVersion version
  let trim := decide (timestamps.length > c_difficultyWindow)
  let timestamps := if trim then resize timestamps c_difficultyWindow else timestamps
  let cumulativeDifficulties :=
    if trim then resize cumulativeDifficulties c_difficultyWindow else cumulativeDifficulties
  let length := timestamps.length
  if length ≤ 1 then 1
  else
    let timestamps := timestamps.insertionSort (· ≤ ·)
    let cut :=
      if length ≤ c_difficultyWindow - 2 * c_difficultyCut then (0, length)
      else
        let cutBegin := (length - (c_difficultyWindow - 2 * c_difficultyCut) + 1) / 2
        (cutBegin, cutBegin + (c_difficultyWindow - 2 * c_difficultyCut))
    let cutBegin := cut.1
    let cutEnd := cut.2
    let timeSpan := subU64 (timestamps.getD (cutEnd - 1) 0) (timestamps.getD cutBegin 0)
    let timeSpan := if timeSpan = 0 then 1 else timeSpan
    let totalWork :=
      subU64 (cumulativeDifficulties.getD (cutEnd - 1) 0) (cumulativeDifficulties.getD cutBegin 0)
    let lh := mul128 totalWork c.m_difficultyTarget
    if lh.2 ≠ 0 ∨ (2 ^ 64 - 1) - lh.1 < timeSpan - 1 then 0
    else u64 (lh.1 + timeSpan - 1) / timeSpan

/-- `Currency::nextDifficulty`. -/
def nextDifficulty (c : Currency) (version blockIndex : Nat)
    (timestamps cumulativeDifficulties : List Nat) : Option Nat :=
  let nextDiff :=
    if version ≥ BLOCK_MAJOR_VERSION_4 then
      nextDifficultyV4 c version timestamps cumulativeDifficulties
    else if version = BLOCK_MAJOR_VERSION_3 then
      nextDifficultyV3 c version timestamps cumulativeDifficulties
    else if version = BLOCK_MAJOR_VERSION_2 then
      some (nextDifficultyV2 c version timestamps cumulativeDifficulties)
    else
      some (nextDifficultyV1 c version timestamps cumulativeDifficulties)
  nextDiff.map (fun nextDiff => if nextDiff < 1 then 1 else nextDiff)

/-! ## Proof of work -/

/-- `Currency::checkProofOfWorkV1`. The hashing context is scratch memory of the hasher and
has no counterpart here: the long hash is a field of the cached block. -/
def checkProofOfWorkV1 (ext : Collaborators) (c : Currency) (block : CachedBlock)
    (currentDifficulty : Nat) : Bool :=
  if BLOCK_MAJOR_VERSION_1 ≠ block.block.majorVersion then false
  else ext.check_hash block.blockLongHash currentDifficulty

/-- `Currency::checkProofOfWorkV2`. -/
def checkProofOfWorkV2 (ext : Collaborators) (c : Currency) (cachedBlock : CachedBlock)
    (currentDifficulty : Nat) : Bool :=
  let block := cachedBlock.block
  if block.majorVersion < BLOCK_MAJOR_VERSION_2 then false
  else if !ext.check_hash cachedBlock.blockLongHash currentDifficulty then false
  else
    match ext.getMergeMiningTagFromExtra block.parentBlock.baseTransaction.extra with
    | none => false
    | some mmTag =>
      if 8 * sizeofHash < block.parentBlock.blockchainBranch.length then false
      else
        let auxBlocksMerkleRoot :=
          ext.tree_hash_from_branch block.parentBlock.blockchainBranch
            block.parentBlock.blockchainBranch.length cachedBlock.auxiliaryBlockHeaderHash
            c.cachedGenesisBlock.blockHash
        if auxBlocksMerkleRoot ≠ mmTag.merkleRoot then false
        else true

/-- `Currency::checkProofOfWork`. -/
def checkProofOfWork (ext : Collaborators) (c : Currency) (block : CachedBlock)
    (currentDiffic : Nat) : Bool :=
  if block.block.majorVersion = BLOCK_MAJOR_VERSION_1 then
    checkProofOfWorkV1 ext c block currentDiffic
  else if block.block.majorVersion = BLOCK_MAJOR_VERSION_2
      ∨ block.block.majorVersion = BLOCK_MAJOR_VERSION_3
      ∨ block.block.majorVersion = BLOCK_MAJOR_VERSION_4 then
    checkProofOfWorkV2 ext c block currentDiffic
  else false

/-! ## The legacy retarget as the spec states it

The spec (section 4.5) gives one algorithm, legacyRetarget, for versions 1 and 2, with the
window, the cut and the target as its parameters. It is written out here from the spec's
sentences, to be compared with `nextDifficultyV1` and `nextDifficultyV2`. The differences of
64-bit values are 64-bit differences. -/

/-- The pair `(cutBegin, cutEnd)` of the spec for `length` entries. -/
def legacyCut (window cut length : Nat) : Nat × Nat :=
  if length ≤ window - 2 * cut then (0, length)
  else
    ((length - (window - 2 * cut) + 1) / 2,
      (length - (window - 2 * cut) + 1) / 2 + (window - 2 * cut))

/-- The `totalWork` of the spec: `cumDiff[cutEnd−1] − cumDiff[cutBegin]` after trimming both
vectors to the window. -/
def legacyTotalWork (window cut : Nat) (timestamps cumulativeDifficulties : List Nat) : Nat :=
  let length := (timestamps.take window).length
  let cumDiff := cumulativeDifficulties.take window
  let cb := legacyCut window cut length
  subU64 (cumDiff.getD (cb.2 - 1) 0) (cumDiff.getD cb.1 0)

/-- The `timespan` of the spec: `max(1, timestamps[cutEnd−1] − timestamps[cutBegin])` on the
sorted, trimmed timestamps. -/
def legacyTimespan (window cut : Nat) (timestamps : List Nat) : Nat :=
  let length := (timestamps.take window).length
  let sorted := (timestamps.take window).insertionSort (· ≤ ·)
  let cb := legacyCut window cut length
  max 1 (subU64 (sorted.getD (cb.2 - 1) 0) (sorted.getD cb.1 0))

/-- The legacy retarget of the spec: `1` for at most one entry, otherwise
`(totalWork·target + timespan − 1) / timespan`, and `0` when the product has a non-zero high
half or `low + timespan − 1` wraps below `low`. -/
def legacyRetarget (window cut target : Nat) (timestamps cumulativeDifficulties : List Nat) :
    Nat :=
  if (timestamps.take window).length ≤ 1 then 1
  else
    let timespan := legacyTimespan window cut timestamps
    let totalWork := legacyTotalWork window cut timestamps cumulativeDifficulties
    let low := (totalWork * target) % 2 ^ 64
    let high := (totalWork * target) / 2 ^ 64 % 2 ^ 64
    if high ≠ 0 ∨ (low + timespan - 1) % 2 ^ 64 < low then 0
    else (low + timespan - 1) / timespan

/-! ## The divisors of the LWMA retargets

The lower limit `minWST` and the divisor of `nextDifficultyV3` and `nextDifficultyV4`, as the
functions compute them before the division, and the weighted sums of the solve times as the
spec states them, without any reduction to 64 bits. -/

/-- The value of `minWST` in `nextDifficultyV3`. -/
def nextDifficultyV3_minWST (c : Currency) (version : Nat) (timestamps : List Nat) : Int :=
  let c_difficultyWindow := difficultyWindowByBlockVersion version
  let c_difficultyTarget : Int := toInt64 c.m_difficultyTarget
  let trim := decide (timestamps.length > c_difficultyWindow)
  let timestamps := if trim then resize timestamps c_difficultyWindow else timestamps
  let length := timestamps.length
  toInt64 ((u64 (u64 (toU64 c_difficultyTarget * length) * (length + 1)) / 8 : Nat) : Int)

/-- The value of `weightedSolveTimes` in `nextDifficultyV3` when it divides by it. -/
def nextDifficultyV3_weightedSolveTimes (c : Currency) (version : Nat)
    (timestamps : List Nat) : Int :=
  let c_difficultyWindow := difficultyWindowByBlockVersion version
  let c_difficultyTarget : Int := toInt64 c.m_difficultyTarget
  let trim := decide (timestamps.length > c_difficultyWindow)
  let timestamps := if trim then resize timestamps c_difficultyWindow else timestamps
  let length := timestamps.length
  let weightedSolveTimes := weightedSolveTimesV3 c_difficultyTarget timestamps length
  let minWST : Int :=
    toInt64 ((u64 (u64 (toU64 c_difficultyTarget * length) * (length + 1)) / 8 : Nat) : Int)
  if weightedSolveTimes < minWST then minWST else weightedSolveTimes

/-- The value of `minWST` in `nextDifficultyV4`. -/
def nextDifficultyV4_minWST (c : Currency) (version : Nat) (timestamps : List Nat) : Int :=
  let c_difficultyWindow := difficultyWindowByBlockVersion version
  let c_difficultyTarget : Int := toInt64 c.m_difficultyTarget
  let trim := decide (timestamps.length > c_difficultyWindow)
  let timestamps := if trim then resize timestamps c_difficultyWindow else timestamps
  let length := timestamps.length
  toInt64 ((u64 (u64 (toU64 c_difficultyTarget * length) * (length - 1)) / 8 : Nat) : Int)

/-- The value of `LWMA` in `nextDifficultyV4` when it divides by it. -/
def nextDifficultyV4_LWMA (c : Currency) (version : Nat) (timestamps : List Nat) : Int :=
  let c_difficultyWindow := difficultyWindowByBlockVersion version
  let c_difficultyTarget : Int := toInt64 c.m_difficultyTarget
  let trim := decide (timestamps.length > c_difficultyWindow)
  let timestamps := if trim then resize timestamps c_difficultyWindow else timestamps
  let length := timestamps.length
  let LWMA := lwmaV4 c.m_blockFutureTimeLimit timestamps length
  let minWST : Int :=
    toInt64 ((u64 (u64 (toU64 c_difficultyTarget * length) * (length - 1)) / 8 : Nat) : Int)
  if LWMA < minWST then minWST else LWMA

/-- The weighted sum of the spec for version 3: the sum over `i = 1 .. L - 1` of
`i · clamp(timestamps[i] - timestamps[i-1], -5·target, 6·target)`, the solve time being read
as a signed 64-bit value. -/
def clampedSolveTimeSum (target : Int) (timestamps : List Nat) (L : Nat) : Int :=
  ((List.range (L - 1)).map fun (k : Nat) =>
    ((k : Int) + 1) * max (-5 * target) (min (6 * target)
      (toInt64 ((timestamps.getD (k + 1) 0 : Int) - (timestamps.getD k 0 : Int))))).sum

/-- The weighted sum of the spec for version 4: the sum over `i = 1 .. L - 1` of
`i · max(-blockFutureTimeLimit, timestamps[i] - timestamps[i-1])`. -/
def limitedSolveTimeSum (blockFutureTimeLimit : Int) (timestamps : List Nat) (L : Nat) : Int :=
  ((List.range (L - 1)).map fun (k : Nat) =>
    ((k : Int) + 1) * max (-blockFutureTimeLimit)
      ((timestamps.getD (k + 1) 0 : Int) - (timestamps.getD k 0 : Int))).sum

/-! ## Concrete collaborators for the examples -/

/-- A concrete instance of the collaborators, on which the functions that take them can be
evaluated: the decoders accept every input, `check_hash` accepts every hash, no extra carries
a merge-mining tag and every Merkle branch reconstructs the leaf. -/
def exampleCollaborators : Collaborators where
  fromHex := fun _ => some []
  fromBinaryArray := fun _ => some {}
  cachedBlock := fun b => { block := b }
  check_hash := fun _ _ => true
  getMergeMiningTagFromExtra := fun _ => none
  tree_hash_from_branch := fun _ _ leaf _ => leaf

/-- The collaborators of `exampleCollaborators`, except that every extra carries the
merge-mining tag whose Merkle root is the hash `[n]`. -/
def taggedCollaborators (n : Nat) : Collaborators :=
  { exampleCollaborators with
    getMergeMiningTagFromExtra := fun _ => some { depth := 0, merkleRoot := ⟨[n]⟩ } }

/-! ## Amounts -/

/-- `Currency::PRETTY_AMOUNTS`. -/
def PRETTY_AMOUNTS : List Nat :=
  [ 1, 2, 3, 4, 5, 6, 7, 8, 9,
    10, 20, 30, 40, 50, 60, 70, 80, 90,
    100, 200, 300, 400, 500, 600, 700, 800, 900,
    1000, 2000, 3000, 4000, 5000, 6000, 7000, 8000, 9000,
    10000, 20000, 30000, 40000, 50000, 60000, 70000, 80000, 90000,
    100000, 200000, 300000, 400000, 500000, 600000, 700000, 800000, 900000,
    1000000, 2000000, 3000000, 4000000, 5000000, 6000000, 7000000, 8000000, 9000000,
    10000000, 20000000, 30000000, 40000000, 50000000, 60000000, 70000000, 80000000, 90000000,
    100000000, 200000000, 300000000, 400000000, 500000000, 600000000, 700000000, 800000000, 900000000,
    1000000000, 2000000000, 3000000000, 4000000000, 5000000000, 6000000000, 7000000000, 8000000000, 9000000000,
    10000000000, 20000000000, 30000000000, 40000000000, 50000000000, 60000000000, 70000000000, 80000000000, 90000000000,
    100000000000, 200000000000, 300000000000, 400000000000, 500000000000, 600000000000, 700000000000, 800000000000, 900000000000,
    1000000000000, 2000000000000, 3000000000000, 4000000000000, 5000000000000, 6000000000000, 7000000000000, 8000000000000, 9000000000000,
    10000000000000, 20000000000000, 30000000000000, 40000000000000, 50000000000000, 60000000000000, 70000000000000, 80000000000000, 90000000000000,
    100000000000000, 200000000000000, 300000000000000, 400000000000000, 500000000000000, 600000000000000, 700000000000000, 800000000000000, 900000000000000,
    1000000000000000, 2000000000000000, 3000000000000000, 4000000000000000, 5000000000000000, 6000000000000000, 7000000000000000, 8000000000000000, 9000000000000000,
    10000000000000000, 20000000000000000, 30000000000000000, 40000000000000000, 50000000000000000, 60000000000000000, 70000000000000000, 80000000000000000, 90000000000000000,
    100000000000000000, 200000000000000000, 300000000000000000, 400000000000000000, 500000000000000000, 600000000000000000, 700000000000000000, 800000000000000000, 900000000000000000,
    1000000000000000000, 2000000000000000000, 3000000000000000000, 4000000000000000000, 5000000000000000000, 6000000000000000000, 7000000000000000000, 8000000000000000000, 9000000000000000000,
    10000000000000000000 ]

/-- The decimal digits of `amount` as amounts, lowest order first: the entry of order `i` is
`(amount / 10^i mod 10) · 10^i`. Twenty orders hold every 64-bit amount. -/
def digitChunks (amount : Nat) : List Nat :=
  (List.range 20).map fun i => amount / 10 ^ i % 10 * 10 ^ i

/-- The decomposition of an amount whose digits are `chunks`, lowest order first, given the
`dust` collected from the orders below: the orders are added to the dust as long as the dust
stays below the threshold; the dust, unless it is zero, is then one amount of its own and is
followed by the non-zero digits of the higher orders. -/
def decomposeFrom (dustThreshold : Nat) : List Nat → Nat → List Nat
  | [], dust => if dust = 0 then [] else [dust]
  | chunk :: rest, dust =>
    if dust + chunk < dustThreshold then decomposeFrom dustThreshold rest (dust + chunk)
    else (if dust = 0 then [] else [dust]) ++ (chunk :: rest).filter (· ≠ 0)

/-- Modelled from the spec: `decomposeAmount` and `decompose_amount_into_digits` are defined in
CryptoNoteFormatUtils, which is not among the sources; Currency.cpp only calls them, and in
both calls every amount that is handed out is appended to one vector. The spec gives the
result as members of PRETTY_AMOUNTS, that is digits times powers of ten, that sum to the
amount, any remainder below the dust threshold being collapsed into a single dust output. The
amounts come lowest order first, the dust before the digits. -/
def decomposeAmount (amount dustThreshold : Nat) : List Nat :=
  decomposeFrom dustThreshold (digitChunks amount) 0

/-! ## Fusion transactions -/

/-- The loop of `isFusionTransaction` over the input amounts, from the value of `inputAmount`
so far: `none` when an amount is below the dust threshold, otherwise the 64-bit sum. -/
def sumInputsAmounts (c : Currency) : List Nat → Nat → Option Nat
  | [], inputAmount => some inputAmount
  | amount :: rest, inputAmount =>
    if amount < c.m_defaultDustThreshold then none
    else sumInputsAmounts c rest (u64 (inputAmount + amount))

/-- `Currency::isFusionTransaction(inputsAmounts, outputsAmounts, size)`. -/
def isFusionTransaction (c : Currency) (inputsAmounts outputsAmounts : List Nat) (size : Nat) :
    Bool :=
  if size > c.m_fusionTxMaxSize then false
  else if inputsAmounts.length < c.m_fusionTxMinInputCount then false
  else if inputsAmounts.length < u64 (outputsAmounts.length * c.m_fusionTxMinInOutCountRatio) then
    false
  else
    match sumInputsAmounts c inputsAmounts 0 with
    | none => false
    | some inputAmount =>
      let expectedOutputsAmounts := decomposeAmount inputAmount c.m_defaultDustThreshold
      let expectedOutputsAmounts := expectedOutputsAmounts.insertionSort (· ≤ ·)
      expectedOutputsAmounts == outputsAmounts

/-- `std::lower_bound` on a sorted vector: the index of the first element that is not less
than `value`, the length of the vector when there is none. -/
def lower_bound (v : List Nat) (value : Nat) : Nat :=
  v.findIdx (fun x => !decide (x < value))

/-- `Currency::isAmountApplicableInFusionTransactionInput(amount, threshold,
amountPowerOfTen)`: `none` when it returns `false`, the value written to `amountPowerOfTen`
when it returns `true`. -/
def isAmountApplicableInFusionTransactionInput (c : Currency) (amount threshold : Nat) :
    Option Nat :=
  if amount ≥ threshold then none
  else if amount < c.m_defaultDustThreshold then none
  else
    let it := lower_bound PRETTY_AMOUNTS amount
    if it = PRETTY_AMOUNTS.length ∨ amount ≠ PRETTY_AMOUNTS.getD it 0 then none
    else some (it / 9 % 2 ^ 8)

/-! ## Amount formatting and parsing

A `std::string` is the list of its characters, each character being its code: `'0'` is 48,
`'.'` is 46. -/

/-- The characters of an ASCII string literal. -/
def chars (s : String) : List Nat := s.toList.map Char.toNat

/-- The digits of `n`, most significant first, pushed in front of `acc`; the first argument
bounds the number of digits. -/
def to_string_aux : Nat → Nat → List Nat → List Nat
  | 0, _, acc => acc
  | fuel + 1, n, acc =>
    if n < 10 then (48 + n) :: acc
    else to_string_aux fuel (n / 10) ((48 + n % 10) :: acc)

/-- `std::to_string` of an unsigned integer: its decimal representation (`n + 1` digits are
always enough). -/
def to_string (n : Nat) : List Nat := to_string_aux (n + 1) n []

/-- `Currency::formatAmount(uint64_t)`. The `size_t` sum `m_numberOfDecimalPlaces + 1` is the
sum of natural numbers, which it is unless the number of decimal places is `2^64 - 1`; the
position of the insertion is then within the string. -/
def formatAmount (c : Currency) (amount : Nat) : List Nat :=
  let s := to_string amount
  let s :=
    if s.length < c.m_numberOfDecimalPlaces + 1 then
      List.replicate (c.m_numberOfDecimalPlaces + 1 - s.length) 48 ++ s
    else s
  s.take (s.length - c.m_numberOfDecimalPlaces) ++
    46 :: s.drop (s.length - c.m_numberOfDecimalPlaces)

/-- `std::isspace` in the classic locale: space, tab, line feed, vertical tab, form feed and
carriage return. -/
def isspace (ch : Nat) : Bool := ch = 32 || (9 ≤ ch && ch ≤ 13)

/-- `::isdigit`. -/
def isdigit (ch : Nat) : Bool := 48 ≤ ch && ch ≤ 57

/-- `boost::algorithm::trim`: removes the white space at both ends. -/
def trim (s : List Nat) : List Nat :=
  ((s.dropWhile isspace).reverse.dropWhile isspace).reverse

/-- The value of a string of decimal digits. -/
def decimalValue (s : List Nat) : Nat := s.foldl (fun acc ch => acc * 10 + (ch - 48)) 0

/-- Modelled from the spec: `Common::fromString` is defined in Common/StringTools.h, which is
not among the sources. The spec gives the step as parse as u64, overflow is an error:
the value of a non-empty string of digits, unless it is `2^64` or more. -/
def fromString (text : List Nat) : Option Nat :=
  if text ≠ [] ∧ text.all isdigit = true ∧ decimalValue text < 2 ^ 64 then
    some (decimalValue text)
  else none

/-- The `while` loop of `parseAmount`: as long as `fractionSize` exceeds the number of decimal
places and the string ends in `'0'`, that character is erased and `fractionSize` decremented.
The result is the string and `fractionSize` after the loop. -/
def parseAmount_while (numberOfDecimalPlaces : Nat) : Nat → List Nat → List Nat × Nat
  | 0, strAmount => (strAmount, 0)
  | fractionSize + 1, strAmount =>
    if numberOfDecimalPlaces < fractionSize + 1 ∧ strAmount.getLast? = some 48 then
      parseAmount_while numberOfDecimalPlaces fractionSize strAmount.dropLast
    else (strAmount, fractionSize + 1)

/-- `Currency::parseAmount`: `none` when it returns `false`, the amount when it returns
`true`. `find_first_of` gives the length of the string for `npos`. -/
def parseAmount (c : Currency) (str : List Nat) : Option Nat :=
  let strAmount := trim str
  let pointIndex := strAmount.indexOf 46
  let split : Option (List Nat × Nat) :=
    if pointIndex ≠ strAmount.length then
      let fractionSize := strAmount.length - pointIndex - 1
      let r := parseAmount_while c.m_numberOfDecimalPlaces fractionSize strAmount
      if c.m_numberOfDecimalPlaces < r.2 then none
      else some (r.1.eraseIdx pointIndex, r.2)
    else some (strAmount, 0)
  split.bind fun r =>
    let strAmount := r.1
    let fractionSize := r.2
    if strAmount = [] then none
    else if strAmount.all isdigit = false then none
    else
      let strAmount :=
        if fractionSize < c.m_numberOfDecimalPlaces then
          strAmount ++ List.replicate (c.m_numberOfDecimalPlaces - fractionSize) 48
        else strAmount
      fromString strAmount

/-- The part of `parseAmount` that follows the treatment of the point: the checks that the
digit string is not empty and holds only digits, the padding with zeros up to the number of
decimal places, and the conversion. -/
def parseAmount_tail (numberOfDecimalPlaces : Nat) (strAmount : List Nat) (fractionSize : Nat) :
    Option Nat :=
  if strAmount = [] then none
  else if strAmount.all isdigit = false then none
  else fromString (strAmount ++ List.replicate (numberOfDecimalPlaces - fractionSize) 48)

/-! ## The miner transaction -/

/-- Modelled from the spec: `KeyPair` (CryptoNote.h is not among the sources), a public key
and the secret key that belongs to it. -/
structure KeyPair where
  publicKey : List Nat := []
  secretKey : List Nat := []
deriving DecidableEq, Repr

/-- Modelled from the spec: `AccountPublicAddress` (CryptoNote.h is not among the sources),
the spend and the view public key of an account. -/
structure AccountPublicAddress where
  spendPublicKey : List Nat := []
  viewPublicKey : List Nat := []
deriving DecidableEq, Repr

/-- The key and extra-field collaborators that `Currency::constructMinerTx` calls:
`generateKeyPair` (the pair that the call draws), `addTransactionPublicKeyToExtra`,
`addExtraNonceToTransactionExtra`, `Crypto::generate_key_derivation` and
`Crypto::derive_public_key`. They are parameters of the embedding; those that can fail
return an option. -/
structure KeyCollaborators where
  generateKeyPair : KeyPair
  addTransactionPublicKeyToExtra : List Nat → List Nat → List Nat
  addExtraNonceToTransactionExtra : List Nat → List Nat → Option (List Nat)
  generate_key_derivation : List Nat → List Nat → Option (List Nat)
  derive_public_key : List Nat → Nat → List Nat → Option (List Nat)

/-- The loop `while (maxOuts < outAmounts.size())` of `Currency::constructMinerTx`: the last
amount is added to the one before it and the vector loses its last entry. Every round
shortens the vector, so that a fuel of its length is enough. -/
def constructMinerTx_while (maxOuts : Nat) : Nat → List Nat → List Nat
  | 0, outAmounts => outAmounts
  | fuel + 1, outAmounts =>
    if maxOuts < outAmounts.length then
      let outAmounts := outAmounts.set (outAmounts.length - 2)
        (u64 (outAmounts.getD (outAmounts.length - 2) 0 + outAmounts.getLastD 0))
      constructMinerTx_while maxOuts fuel (outAmounts.take (outAmounts.length - 1))
    else outAmounts

/-- The loop `for (size_t no = 0; no < outAmounts.size(); no++)` of
`Currency::constructMinerTx`, from the index `no` on: the outputs and the sum of their
amounts, or `none` when a key derivation fails. -/
def constructMinerTx_for (k : KeyCollaborators) (minerAddress : AccountPublicAddress)
    (txkey : KeyPair) : List Nat → Nat → Nat → List TransactionOutput →
    Option (List TransactionOutput × Nat)
  | [], _, summaryAmounts, outputs => some (outputs, summaryAmounts)
  | amount :: rest, no, summaryAmounts, outputs =>
    (k.generate_key_derivation minerAddress.viewPublicKey txkey.secretKey).bind fun derivation =>
      (k.derive_public_key derivation no minerAddress.spendPublicKey).bind
        fun outEphemeralPubKey =>
          constructMinerTx_for k minerAddress txkey rest (no + 1) (u64 (summaryAmounts + amount))
            (outputs ++ [{ amount := amount, key := outEphemeralPubKey }])

/-- `Currency::constructMinerTx`. The result is the transaction that the function leaves in
`tx` when it returns `true` and `none` when it returns `false`. -/
def constructMinerTx (k : KeyCollaborators) (c : Currency) (blockMajorVersion height medianSize
    alreadyGeneratedCoins currentBlockSize fee : Nat) (minerAddress : AccountPublicAddress)
    (extraNonce : List Nat) (maxOuts diff : Nat) : Option Transaction :=
  let txkey := k.generateKeyPair
  let extra := k.addTransactionPublicKeyToExtra [] txkey.publicKey
  let extra := if extraNonce ≠ [] then k.addExtraNonceToTransactionExtra extra extraNonce
    else some extra
  extra.bind fun extra =>
    (getBlockReward blockMajorVersion medianSize currentBlockSize alreadyGeneratedCoins fee
        diff).bind fun r =>
      let blockReward := r.1
      let outAmounts := decomposeAmount blockReward c.m_defaultDustThreshold
      if ¬ 1 ≤ maxOuts then none
      else
        let outAmounts := constructMinerTx_while maxOuts outAmounts.length outAmounts
        (constructMinerTx_for k minerAddress txkey outAmounts 0 0 []).bind fun o =>
          if ¬ o.2 = blockReward then none
          else some
            { version := CURRENT_TRANSACTION_VERSION
              unlockTime := u64 (height + c.m_minedMoneyUnlockWindow)
              inputs := [TransactionInput.BaseInput height]
              outputs := o.1
              extra := extra }

/-- A concrete instance of the key collaborators, on which `constructMinerTx` can be
evaluated: the key pair is `([1], [2])`, the extra field collects what is added to it, the
derivation is the view key followed by the secret key, and the key of the output `no` is the
derivation followed by `no`. -/
def exampleKeys : KeyCollaborators where
  generateKeyPair := { publicKey := [1], secretKey := [2] }
  addTransactionPublicKeyToExtra := fun extra publicKey => extra ++ publicKey
  addExtraNonceToTransactionExtra := fun extra extraNonce => some (extra ++ extraNonce)
  generate_key_derivation := fun viewPublicKey secretKey => some (viewPublicKey ++ secretKey)
  derive_public_key := fun derivation no _ => some (derivation ++ [no])

/-- The miner transaction that `constructMinerTx` builds with `exampleKeys` at the height 100
for a block of version 4, the difficulty 1000 and the fee 123456789, with at most three
outputs. -/
def exampleMinerTx : Transaction :=
  { version := 1
    unlockTime := 160
    inputs := [TransactionInput.BaseInput 100]
    outputs :=
      [{ amount := 924821, key := [2, 0] }, { amount := 8000000, key := [2, 1] },
        { amount := 10957610000000, key := [2, 2] }]
    extra := [1] }

/-! ## Upgrade heights, addresses and the builder -/

/-- `Currency::upgradeHeight`; `static_cast<uint32_t>(-1)` is `2^32 - 1`. -/
def upgradeHeight (c : Currency) (majorVersion : Nat) : Nat :=
  if majorVersion = BLOCK_MAJOR_VERSION_4 then c.m_upgradeHeightV4
  else if majorVersion = BLOCK_MAJOR_VERSION_3 then c.m_upgradeHeightV3
  else if majorVersion = BLOCK_MAJOR_VERSION_2 then c.m_upgradeHeightV2
  else 2 ^ 32 - 1

/-- The address decoder that `Currency::parseAccountAddressString` calls, the free function
`CryptoNote::parseAccountAddressString` of CryptoNoteBasicImpl: the decoded prefix and
address, or `none` when it returns `false`. It is a parameter of the embedding. -/
structure AddressCollaborators where
  parseAccountAddressString : List Nat → Option (Nat × AccountPublicAddress)

/-- `Currency::parseAccountAddressString`: the address, or `none` when it returns `false`. -/
def parseAccountAddressString (a : AddressCollaborators) (c : Currency) (str : List Nat) :
    Option AccountPublicAddress :=
  match a.parseAccountAddressString str with
  | none => none
  | some r => if r.1 ≠ c.m_publicAddressBase58Prefix then none else some r.2

/-- A concrete address decoder for the examples: the first character of the string is the
decoded prefix and the other characters are the spend key; the empty string does not
decode. -/
def exampleAddresses : AddressCollaborators where
  parseAccountAddressString := fun str =>
    match str with
    | [] => none
    | p :: rest => some (p, { spendPublicKey := rest })

/-- Modelled from the spec: the class `CurrencyBuilder` (Currency.h is not among the sources),
which holds the currency under construction. -/
structure CurrencyBuilder where
  m_currency : Currency := {}
deriving DecidableEq, Repr

/-- `CurrencyBuilder::emissionSpeedFactor`. The exception `std::invalid_argument` is the error
of `Except`, with its message; `8 * sizeof(uint64_t)` is `8 * 8`. -/
def CurrencyBuilder.emissionSpeedFactor (b : CurrencyBuilder) (val : Nat) :
    Except String CurrencyBuilder :=
  if val ≤ 0 ∨ val > 8 * 8 then Except.error "val at emissionSpeedFactor()"
  else Except.ok { b with m_currency := { b.m_currency with m_emissionSpeedFactor := val } }

/-- `CurrencyBuilder::difficultyWindow`. -/
def CurrencyBuilder.difficultyWindow (b : CurrencyBuilder) (val : Nat) :
    Except String CurrencyBuilder :=
  if val < 2 then Except.error "val at difficultyWindow()"
  else Except.ok { b with m_currency := { b.m_currency with m_difficultyWindow := val } }

/-- `CurrencyBuilder::upgradeVotingThreshold`. -/
def CurrencyBuilder.upgradeVotingThreshold (b : CurrencyBuilder) (val : Nat) :
    Except String CurrencyBuilder :=
  if val ≤ 0 ∨ val > 100 then Except.error "val at upgradeVotingThreshold()"
  else Except.ok { b with m_currency := { b.m_currency with m_upgradeVotingThreshold := val } }

/-- `CurrencyBuilder::upgradeWindow`. -/
def CurrencyBuilder.upgradeWindow (b : CurrencyBuilder) (val : Nat) :
    Except String CurrencyBuilder :=
  if val ≤ 0 then Except.error "val at upgradeWindow()"
  else Except.ok { b with m_currency := { b.m_currency with m_upgradeWindow := val } }

/-! ## Concrete blocks for the examples -/

/-- A block of the given major version whose parent block has a blockchain branch of
`branchLength` empty hashes and whose auxiliary header hash is the hash `[7]`. -/
def exampleBlock (majorVersion branchLength : Nat) : CachedBlock :=
  { block :=
      { majorVersion := majorVersion
        parentBlock := { blockchainBranch := List.replicate branchLength ⟨[]⟩ } }
    auxiliaryBlockHeaderHash := ⟨[7]⟩ }

/-! # Theorems -/

/-! ## Machine arithmetic -/

theorem toInt64_sub_subU64 (a b c : Nat) :
    toInt64 (subU64 a (subU64 b c) : Nat) = toInt64 ((a : Int) - ((b : Int) - c)) := by
  unfold toInt64 subU64
  omega

theorem u64_shiftLeft_lt (d : Nat) (h : d < 2 ^ 44) :
    u64 (d <<< log_fix_precision) = d <<< 20 := by
  unfold u64 log_fix_precision
  rw [Nat.shiftLeft_eq]
  apply Nat.mod_eq_of_lt
  omega

theorem subU64_lt (a b : Nat) : subU64 a b < 2 ^ 64 := by
  unfold subU64
  exact Nat.mod_lt _ (by norm_num)

theorem toInt64_range (x : Int) : -2 ^ 63 ≤ toInt64 x ∧ toInt64 x < 2 ^ 63 := by
  unfold toInt64
  omega

theorem toInt64_small (T : Nat) (hT : T < 2 ^ 10) : toInt64 (T : Int) = T := by
  unfold toInt64
  omega

theorem toU64_ne_zero (W : Int) (h1 : 1 ≤ W) (h2 : W < 2 ^ 63) : toU64 W ≠ 0 := by
  unfold toU64
  omega

theorem clamp_eq_max (d : Nat) : (if d < 1 then 1 else d) = max 1 d := by
  split <;> omega

/-! ## The loop of `log2_fix` -/

/-- The `while` loop of `log2_fix` has left its condition when the definition stops unfolding
it: `fuel` halvings bring every `x < 2 ^ (21 + fuel)` below `2 << 20`, so the 64 halvings that
`log2_fix` allows are enough for every 64-bit `x`. -/
theorem log2_fix_while_exit (fuel : Nat) :
    ∀ x y : Nat, x < 2 ^ (21 + fuel) → (log2_fix_while fuel x y).1 < 2 ^ 21 := by
  induction fuel with
  | zero =>
    intro x y h
    simpa [log2_fix_while] using h
  | succ f ih =>
    intro x y h
    unfold log2_fix_while
    split
    · apply ih
      rw [Nat.shiftRight_eq_div_pow]
      have : 2 ^ (21 + (f + 1)) = 2 ^ (21 + f) * 2 := by
        rw [← Nat.add_assoc, Nat.pow_succ]
      omega
    · rename_i hx
      have h21 : u64 (2 <<< log_fix_precision) = 2 ^ 21 := by decide
      rw [h21] at hx
      simpa using hx

theorem log2_fix_while_exit_u64 (x y : Nat) (hx : x < 2 ^ 64) :
    (log2_fix_while 64 x y).1 < 2 ^ 21 :=
  log2_fix_while_exit 64 x y (lt_of_lt_of_le hx (by norm_num))

/-! ## Block reward -/

/-- C1 (amended): for every block major version, median size, block size, fee and difficulty
`d` with `1 ≤ d < 2^44`, whenever the block size is at most `(2·M) mod 2^64`, the product as
the code computes it in 64 bits (it is `2·M` itself when `M < 2^63`), `getBlockReward`
succeeds with
`reward = penalize(baseReward, M, size) + penalizedFee` modulo `2^64` and
`emissionChange = penalize(baseReward, M, size) − (fee − penalizedFee)` read as a signed
64-bit value, where `baseReward = log2_fix(d << 20) << 20`, `M` is the larger of the median
size and the granted zone of the version, and the fee is penalized from version 3 on. -/
theorem getBlockReward_success (blockMajorVersion medianSize currentBlockSize
    alreadyGeneratedCoins fee diff : Nat) (hd1 : 1 ≤ diff) (hd2 : diff < 2 ^ 44)
    (hsize : currentBlockSize ≤
      (2 * max medianSize (blockGrantedFullRewardZoneByBlockVersion blockMajorVersion)) % 2 ^ 64) :
    getBlockReward blockMajorVersion medianSize currentBlockSize alreadyGeneratedCoins fee diff =
      some
        ((getPenalizedAmount ((log2_fix (diff <<< 20) <<< 20) % 2 ^ 64)
              (max medianSize (blockGrantedFullRewardZoneByBlockVersion blockMajorVersion))
              currentBlockSize
            + (if blockMajorVersion ≥ 3 then
                getPenalizedAmount fee
                  (max medianSize (blockGrantedFullRewardZoneByBlockVersion blockMajorVersion))
                  currentBlockSize
              else fee)) % 2 ^ 64,
          toInt64
            ((getPenalizedAmount ((log2_fix (diff <<< 20) <<< 20) % 2 ^ 64)
                (max medianSize (blockGrantedFullRewardZoneByBlockVersion blockMajorVersion))
                currentBlockSize : Int)
              - ((fee : Int)
                - ((if blockMajorVersion ≥ 3 then
                    getPenalizedAmount fee
                      (max medianSize (blockGrantedFullRewardZoneByBlockVersion blockMajorVersion))
                      currentBlockSize
                  else fee : Nat) : Int)))) := by
  have hnot : ¬ currentBlockSize >
      u64 (2 * max medianSize (blockGrantedFullRewardZoneByBlockVersion blockMajorVersion)) := by
    simpa [u64] using hsize
  unfold getBlockReward
  simp only [hnot, if_false, u64_shiftLeft_lt diff hd2, toInt64_sub_subU64]
  simp [parameters.CRYPTONOTE_COIN_VERSION, u64, BLOCK_MAJOR_VERSION_3]

theorem getBlockReward_success_witness :
    1 ≤ 1000 ∧ 1000 < 2 ^ 44 ∧
      30000 ≤ (2 * max 0 (blockGrantedFullRewardZoneByBlockVersion 3)) % 2 ^ 64 ∧
      getBlockReward 3 0 30000 0 1000000 1000 = some (8218122351024, 8218121351024) :=
  ⟨by decide, by decide, by decide,
    (getBlockReward_success 3 0 30000 0 1000000 1000 (by decide) (by decide) (by decide)).trans
      (by decide)⟩

/-- C1, counterexample: with version 3, median size `2^63`, block size 30000, fee `10^6` and
difficulty 1000, the block size is at most `2·M = 2^64`, but the code computes the product
`2 · medianSize` in 64 bits, where it is 0, and `getBlockReward` fails instead of returning
the reward of the claim. -/
theorem getBlockReward_none_within_bound :
    (1 : Nat) ≤ 1000 ∧ (1000 : Nat) < 2 ^ 44 ∧
      30000 ≤ 2 * max (2 ^ 63) (blockGrantedFullRewardZoneByBlockVersion 3) ∧
      u64 (2 * max (2 ^ 63) (blockGrantedFullRewardZoneByBlockVersion 3)) = 0 ∧
      getBlockReward 3 (2 ^ 63) 30000 0 1000000 1000 = none := by
  decide

/-- C2, as the code has it: for every input, `getBlockReward` fails if and only if the block
size exceeds the 64-bit product `2 · max(medianSize, grantedZone) mod 2^64`, where the
granted zone is `CRYPTONOTE_BLOCK_GRANTED_FULL_REWARD_ZONE_CURRENT` from version 2 on and
`CRYPTONOTE_BLOCK_GRANTED_FULL_REWARD_ZONE_V1` before, both 20000. -/
theorem getBlockReward_eq_none_iff (blockMajorVersion medianSize currentBlockSize
    alreadyGeneratedCoins fee diff : Nat) :
    (getBlockReward blockMajorVersion medianSize currentBlockSize alreadyGeneratedCoins fee diff
        = none ↔
      currentBlockSize > (2 * max medianSize
        (if blockMajorVersion ≥ 2 then parameters.CRYPTONOTE_BLOCK_GRANTED_FULL_REWARD_ZONE_CURRENT
          else parameters.CRYPTONOTE_BLOCK_GRANTED_FULL_REWARD_ZONE_V1)) % 2 ^ 64) ∧
    parameters.CRYPTONOTE_BLOCK_GRANTED_FULL_REWARD_ZONE_CURRENT = 20000 ∧
    parameters.CRYPTONOTE_BLOCK_GRANTED_FULL_REWARD_ZONE_V1 = 20000 := by
  refine ⟨?_, rfl, rfl⟩
  have hz : (if blockMajorVersion ≥ 2 then
        parameters.CRYPTONOTE_BLOCK_GRANTED_FULL_REWARD_ZONE_CURRENT
      else parameters.CRYPTONOTE_BLOCK_GRANTED_FULL_REWARD_ZONE_V1)
      = blockGrantedFullRewardZoneByBlockVersion blockMajorVersion := rfl
  rw [hz]
  unfold getBlockReward u64
  generalize blockGrantedFullRewardZoneByBlockVersion blockMajorVersion = z
  by_cases hc : currentBlockSize > 2 * max medianSize z % 2 ^ 64
  · simp [hc]
  · simp [hc]

/-- C2 fails as stated: with median size `2^63`, block size 1, version 1 and difficulty 1 the
product `2 · medianSize` wraps to 0, so `getBlockReward` fails although the block size does not
exceed `2 · max(medianSize, grantedZone)`. -/
theorem getBlockReward_fails_below_bound :
    (1 : Nat) ≤ 1 ∧ (1 : Nat) < 2 ^ 44 ∧ (2 : Nat) ^ 63 < 2 ^ 64 ∧
      getBlockReward 1 (2 ^ 63) 1 0 0 1 = none ∧
      ¬ (1 > 2 * max (2 ^ 63) (blockGrantedFullRewardZoneByBlockVersion 1)) := by
  decide

/-! ## Penalty -/

theorem getPenalizedAmount_zone (amount m c : Nat) (hm : 0 < m) (h1 : m ≤ c) (h2 : c ≤ 2 * m) :
    getPenalizedAmount amount m c = amount * ((2 * m - c) * c) / (m * m) := by
  unfold getPenalizedAmount
  split
  · have : c = m := by omega
    subst this
    have h : 2 * c - c = c := by omega
    rw [h, Nat.mul_div_cancel _ (Nat.mul_pos hm hm)]
  · rw [Nat.mul_assoc]

theorem penalty_factor_antitone (m c1 c2 : Nat) (h1 : m ≤ c1) (h12 : c1 ≤ c2) (h2 : c2 ≤ 2 * m) :
    (2 * m - c2) * c2 ≤ (2 * m - c1) * c1 := by
  obtain ⟨d, rfl⟩ := Nat.exists_eq_add_of_le h1
  obtain ⟨k, rfl⟩ := Nat.exists_eq_add_of_le h12
  obtain ⟨j, hj⟩ := Nat.exists_eq_add_of_le h2
  have e1 : 2 * m - (m + d + k) = j := by omega
  have e2 : 2 * m - (m + d) = j + k := by omega
  have e3 : m = d + k + j := by omega
  rw [e1, e2]
  subst e3
  nlinarith [Nat.zero_le (k * d), Nat.zero_le (k * k)]

/-- C3: for every amount and every median `m > 0`, `penalize(amount, m, c) = amount` for every
`c ≤ m`, in particular at `c = m`; `penalize(amount, m, 2·m) = 0`; for `c > m` the value is
the quotient of the untruncated product `amount · (2·m − c) · c` by `m²`; and
`penalize(R, 20000, 40000) = 0`, `penalize(R, 20000, 20000) = R`. -/
theorem getPenalizedAmount_corners (amount m c : Nat) (hm : 0 < m) :
    (c ≤ m → getPenalizedAmount amount m c = amount) ∧
    getPenalizedAmount amount m m = amount ∧
    getPenalizedAmount amount m (2 * m) = 0 ∧
    (m < c → getPenalizedAmount amount m c = amount * (2 * m - c) * c / (m * m)) ∧
    getPenalizedAmount amount 20000 40000 = 0 ∧
    getPenalizedAmount amount 20000 20000 = amount := by
  refine ⟨?_, ?_, ?_, ?_, ?_, ?_⟩
  · intro h
    simp [getPenalizedAmount, h]
  · simp [getPenalizedAmount]
  · have h : ¬ 2 * m ≤ m := by omega
    simp [getPenalizedAmount, h]
  · intro h
    have h' : ¬ c ≤ m := by omega
    simp [getPenalizedAmount, h']
  · simp [getPenalizedAmount]
  · simp [getPenalizedAmount]

theorem getPenalizedAmount_corners_witness :
    0 < 20000 ∧ getPenalizedAmount 7 20000 15000 = 7 ∧
      getPenalizedAmount 1000 20000 30000 = 1000 * (2 * 20000 - 30000) * 30000 / (20000 * 20000) :=
  ⟨by decide,
    (getPenalizedAmount_corners 7 20000 15000 (by decide)).1 (by decide),
    (getPenalizedAmount_corners 1000 20000 30000 (by decide)).2.2.2.1 (by decide)⟩

/-- C4: for every amount, every median `m > 0` and all block sizes `m ≤ c1 ≤ c2 ≤ 2·m`,
`penalize(amount, m, c2) ≤ penalize(amount, m, c1)`: the penalized amount is non-increasing
in the block size over the penalty zone. -/
theorem getPenalizedAmount_antitone (amount m c1 c2 : Nat) (hm : 0 < m) (h1 : m ≤ c1)
    (h12 : c1 ≤ c2) (h2 : c2 ≤ 2 * m) :
    getPenalizedAmount amount m c2 ≤ getPenalizedAmount amount m c1 := by
  rw [getPenalizedAmount_zone amount m c1 hm h1 (by omega),
    getPenalizedAmount_zone amount m c2 hm (by omega) h2]
  exact Nat.div_le_div_right (Nat.mul_le_mul_left _ (penalty_factor_antitone m c1 c2 h1 h12 h2))

theorem getPenalizedAmount_antitone_witness :
    0 < 20000 ∧ 20000 ≤ 25000 ∧ 25000 ≤ 30000 ∧ 30000 ≤ 2 * 20000 ∧
      getPenalizedAmount 1000 20000 30000 ≤ getPenalizedAmount 1000 20000 25000 :=
  ⟨by decide, by decide, by decide, by decide,
    getPenalizedAmount_antitone 1000 20000 25000 30000 (by decide) (by decide) (by decide)
      (by decide)⟩

/-! ## Trimming to the window -/

theorem difficultyWindowByBlockVersion_eq (v : Nat) : difficultyWindowByBlockVersion v = 720 := by
  unfold difficultyWindowByBlockVersion
  split
  · rfl
  · split <;> rfl

theorem resize_eq_take (l : List Nat) (n : Nat) (h : n ≤ l.length) : resize l n = l.take n := by
  unfold resize
  have : n - l.length = 0 := by omega
  simp [this]

theorem length_resize (l : List Nat) (n : Nat) : (resize l n).length = n := by
  unfold resize
  simp
  omega

/-- The conditional `resize` at the head of the retargets is `take` on a vector that is as
long as the timestamps. -/
theorem trim_eq_take (w len : Nat) (l : List Nat) (h : l.length = len) :
    (if decide (len > w) = true then resize l w else l) = l.take w := by
  by_cases hw : len > w
  · simp only [hw, decide_True, if_true]
    exact resize_eq_take l w (by omega)
  · simp only [hw, decide_False, Bool.false_eq_true, if_false]
    exact (List.take_of_length_le (by omega)).symm

theorem length_trim_le (w : Nat) (l : List Nat) :
    (if decide (l.length > w) = true then resize l w else l).length ≤ w := by
  by_cases hw : l.length > w
  · simp only [hw, decide_True, if_true, length_resize, le_refl]
  · simp only [hw, decide_False, Bool.false_eq_true, if_false]
    omega

theorem trim_false (w : Nat) (hw : 2 ≤ w) (l : List Nat) (h : l.length ≤ 1) :
    decide (l.length > w) = false := by
  simp only [decide_eq_false_iff_not]
  omega

/-! ## The legacy retargets are the legacy retarget of the spec -/

theorem overflow_check_iff (low t : Nat) (hlow : low < 2 ^ 64) (ht1 : 1 ≤ t) (ht : t < 2 ^ 64) :
    (2 ^ 64 - 1) - low < t - 1 ↔ (low + t - 1) % 2 ^ 64 < low := by
  omega

theorem legacy_arith (length tw T span0 : Nat) (hs : span0 < 2 ^ 64) :
    (if length ≤ 1 then 1
      else if (mul128 tw T).2 ≠ 0 ∨
          (2 ^ 64 - 1) - (mul128 tw T).1 < (if span0 = 0 then 1 else span0) - 1 then 0
        else u64 ((mul128 tw T).1 + (if span0 = 0 then 1 else span0) - 1)
          / (if span0 = 0 then 1 else span0)) =
    (if length ≤ 1 then 1
      else if (tw * T) / 2 ^ 64 % 2 ^ 64 ≠ 0 ∨
          ((tw * T) % 2 ^ 64 + max 1 span0 - 1) % 2 ^ 64 < (tw * T) % 2 ^ 64 then 0
        else ((tw * T) % 2 ^ 64 + max 1 span0 - 1) / max 1 span0) := by
  have hspan : (if span0 = 0 then 1 else span0) = max 1 span0 := by
    split <;> omega
  rw [hspan]
  unfold mul128 u64
  dsimp only
  have hl : (tw * T) % 2 ^ 64 < 2 ^ 64 := Nat.mod_lt _ (by norm_num)
  generalize (tw * T) % 2 ^ 64 = low at *
  generalize (tw * T) / 2 ^ 64 % 2 ^ 64 = high at *
  generalize hm : max 1 span0 = t
  have ht1 : 1 ≤ t := by omega
  have ht : t < 2 ^ 64 := by omega
  by_cases h1 : length ≤ 1
  · rw [if_pos h1, if_pos h1]
  · rw [if_neg h1, if_neg h1]
    simp only [overflow_check_iff low t hl ht1 ht]
    split
    · rfl
    · rename_i hno
      have hno2 : ¬ (low + t - 1) % 2 ^ 64 < low := fun h => hno (Or.inr h)
      have hlt : low + t - 1 < 2 ^ 64 := by omega
      rw [Nat.mod_eq_of_lt hlt]

theorem legacy_arith_v2 (length tw T span0 : Nat) (hs : span0 < 2 ^ 64) :
    (if length ≤ 1 then 1
      else if (mul tw T).2 ≠ 0 ∨
          u64 ((mul tw T).1 + (if span0 = 0 then 1 else span0) - 1) < (mul tw T).1 then 0
        else u64 ((mul tw T).1 + (if span0 = 0 then 1 else span0) - 1)
          / (if span0 = 0 then 1 else span0)) =
    (if length ≤ 1 then 1
      else if (tw * T) / 2 ^ 64 % 2 ^ 64 ≠ 0 ∨
          ((tw * T) % 2 ^ 64 + max 1 span0 - 1) % 2 ^ 64 < (tw * T) % 2 ^ 64 then 0
        else ((tw * T) % 2 ^ 64 + max 1 span0 - 1) / max 1 span0) := by
  have hspan : (if span0 = 0 then 1 else span0) = max 1 span0 := by
    split <;> omega
  rw [hspan]
  unfold mul u64
  dsimp only
  have hl : (tw * T) % 2 ^ 64 < 2 ^ 64 := Nat.mod_lt _ (by norm_num)
  generalize (tw * T) % 2 ^ 64 = low at *
  generalize (tw * T) / 2 ^ 64 % 2 ^ 64 = high at *
  generalize hm : max 1 span0 = t
  have ht1 : 1 ≤ t := by omega
  have ht : t < 2 ^ 64 := by omega
  by_cases h1 : length ≤ 1
  · rw [if_pos h1, if_pos h1]
  · rw [if_neg h1, if_neg h1]
    split
    · rfl
    · rename_i hno
      have hno2 : ¬ (low + t - 1) % 2 ^ 64 < low := fun h => hno (Or.inr h)
      have hlt : low + t - 1 < 2 ^ 64 := by omega
      rw [Nat.mod_eq_of_lt hlt]

/-- On equal-length vectors `nextDifficultyV1` is the legacy retarget of the spec with window
720, cut 60 and the target of the configuration. -/
theorem nextDifficultyV1_eq_legacyRetarget (c : Currency) (version : Nat)
    (timestamps cumulativeDifficulties : List Nat)
    (hlen : timestamps.length = cumulativeDifficulties.length) :
    nextDifficultyV1 c version timestamps cumulativeDifficulties =
      legacyRetarget 720 60 c.m_difficultyTarget timestamps cumulativeDifficulties := by
  unfold nextDifficultyV1 legacyRetarget legacyTimespan legacyTotalWork legacyCut
  simp only [difficultyWindowByBlockVersion_eq, difficultyCutByBlockVersion,
    parameters.DIFFICULTY_CUT, trim_eq_take 720 timestamps.length timestamps rfl,
    trim_eq_take 720 timestamps.length cumulativeDifficulties hlen.symm]
  exact legacy_arith _ _ _ _ (subU64_lt _ _)

/-- On equal-length vectors `nextDifficultyV2` is the legacy retarget of the spec with window
720, cut 60 and the constant target 60, whatever the configuration. -/
theorem nextDifficultyV2_eq_legacyRetarget (c : Currency) (version : Nat)
    (timestamps cumulativeDifficulties : List Nat)
    (hlen : timestamps.length = cumulativeDifficulties.length) :
    nextDifficultyV2 c version timestamps cumulativeDifficulties =
      legacyRetarget 720 60 60 timestamps cumulativeDifficulties := by
  unfold nextDifficultyV2 legacyRetarget legacyTimespan legacyTotalWork legacyCut
  simp only [parameters.DIFFICULTY_WINDOW_V2, parameters.DIFFICULTY_WINDOW,
    parameters.DIFFICULTY_CUT, parameters.DIFFICULTY_TARGET,
    trim_eq_take 720 timestamps.length timestamps rfl,
    trim_eq_take 720 timestamps.length cumulativeDifficulties hlen.symm]
  exact legacy_arith_v2 _ _ _ _ (subU64_lt _ _)

theorem legacyRetarget_overflow (target : Nat) (timestamps cumulativeDifficulties : List Nat)
    (h2 : 2 ≤ timestamps.length)
    (hhigh : (mul128 (legacyTotalWork 720 60 timestamps cumulativeDifficulties) target).2 ≠ 0) :
    legacyRetarget 720 60 target timestamps cumulativeDifficulties = 0 := by
  unfold legacyRetarget
  have hl : ¬ (timestamps.take 720).length ≤ 1 := by
    rw [List.length_take]
    omega
  rw [if_neg hl]
  have hhigh2 : legacyTotalWork 720 60 timestamps cumulativeDifficulties * target
      / 2 ^ 64 % 2 ^ 64 ≠ 0 := hhigh
  dsimp only
  rw [if_pos (Or.inl hhigh2)]

/-! ## At most one entry -/

theorem nextDifficultyV1_short (c : Currency) (version : Nat) (timestamps cds : List Nat)
    (h : timestamps.length ≤ 1) : nextDifficultyV1 c version timestamps cds = 1 := by
  unfold nextDifficultyV1
  simp only [difficultyWindowByBlockVersion_eq, trim_false 720 (by omega) timestamps h,
    Bool.false_eq_true, if_false, h, if_true]

theorem nextDifficultyV2_short (c : Currency) (version : Nat) (timestamps cds : List Nat)
    (h : timestamps.length ≤ 1) : nextDifficultyV2 c version timestamps cds = 1 := by
  unfold nextDifficultyV2
  simp only [parameters.DIFFICULTY_WINDOW_V2, trim_false 720 (by omega) timestamps h,
    Bool.false_eq_true, if_false, h, if_true]

theorem nextDifficultyV3_short (c : Currency) (version : Nat) (timestamps cds : List Nat)
    (h : timestamps.length ≤ 1) : nextDifficultyV3 c version timestamps cds = some 1 := by
  unfold nextDifficultyV3
  simp only [difficultyWindowByBlockVersion_eq, trim_false 720 (by omega) timestamps h,
    Bool.false_eq_true, if_false, h, if_true]

theorem nextDifficultyV4_short (c : Currency) (version : Nat) (timestamps cds : List Nat)
    (h : timestamps.length ≤ 1) : nextDifficultyV4 c version timestamps cds = some 1 := by
  unfold nextDifficultyV4
  simp only [difficultyWindowByBlockVersion_eq, trim_false 720 (by omega) timestamps h,
    Bool.false_eq_true, if_false, h, if_true]

/-! ## The double `aimedTarget` is defined for small targets -/

theorem bitLengthAux_le (fuel : Nat) : ∀ n k : Nat, n < 2 ^ k → bitLengthAux fuel n ≤ k := by
  induction fuel with
  | zero => intro n k _; simp [bitLengthAux]
  | succ f ih =>
    intro n k h
    unfold bitLengthAux
    split
    · exact Nat.zero_le _
    · rename_i hn
      cases k with
      | zero => simp at h; exact absurd h hn
      | succ k =>
        have : n / 2 < 2 ^ k := by
          rw [Nat.pow_succ] at h
          omega
        have := ih (n / 2) k this
        omega

theorem lt_two_pow_bitLengthAux (fuel : Nat) :
    ∀ n : Nat, n ≤ fuel → n < 2 ^ bitLengthAux fuel n := by
  induction fuel with
  | zero => intro n h; simp [bitLengthAux]; omega
  | succ f ih =>
    intro n h
    unfold bitLengthAux
    split
    · rename_i hn; subst hn; simp
    · rename_i hn
      have := ih (n / 2) (by omega)
      rw [Nat.pow_succ]
      omega

theorem F64.round_m_le (n : Nat) (e : Int) : (F64.round n e).m ≤ 2 ^ 53 := by
  unfold F64.round
  split
  · rename_i h; exact Nat.le_of_lt h
  · rename_i h
    have hb : n < 2 ^ bitLength n := lt_two_pow_bitLengthAux n n (Nat.le_refl n)
    have h53 : 53 < bitLength n := by
      by_contra hc
      have : 2 ^ bitLength n ≤ 2 ^ 53 := Nat.pow_le_pow_right (by norm_num) (by omega)
      omega
    have hq : n >>> (bitLength n - 53) < 2 ^ 53 := by
      rw [Nat.shiftRight_eq_div_pow, Nat.div_lt_iff_lt_mul (Nat.pos_pow_of_pos _ (by norm_num)),
        ← Nat.pow_add]
      have : 53 + (bitLength n - 53) = bitLength n := by omega
      rw [this]
      exact hb
    dsimp only
    split <;> omega

theorem F64.round_e_le (n : Nat) (e : Int) (k : Nat) (h : n < 2 ^ k) :
    (F64.round n e).e ≤ e + ((k - 53 : Nat) : Int) := by
  unfold F64.round
  split
  · dsimp only; omega
  · have hb : bitLength n ≤ k := bitLengthAux_le n n k h
    dsimp only
    omega

/-- For a count below `2^10` and a target in `[0, 2^10)` the double expression of the LWMA
retargets converts to a `uint64_t`. -/
theorem aimedTarget_isSome (n : Nat) (T : Int) (hn : n < 2 ^ 10) (hT0 : 0 ≤ T) (hT : T < 2 ^ 10) :
    ∃ a, aimedTarget n T = some a := by
  unfold aimedTarget
  rw [if_neg (by omega)]
  have hTn : T.toNat < 2 ^ 10 := by omega
  have h1 : F64.ofNat n = ⟨n, 0⟩ := by
    unfold F64.ofNat F64.round
    rw [if_pos (by omega)]
  have h2 : F64.ofNat T.toNat = ⟨T.toNat, 0⟩ := by
    unfold F64.ofNat F64.round
    rw [if_pos (by omega)]
  rw [h1, h2]
  unfold F64.half F64.mul adjust
  dsimp only
  have hx1 := F64.round_m_le (8925233741522849 * n) (-53 + (0 - 1))
  have hx2 := F64.round_e_le (8925233741522849 * n) (-53 + (0 - 1)) 63 (by omega)
  generalize F64.round (8925233741522849 * n) (-53 + (0 - 1)) = x at hx1 hx2 ⊢
  have hp : x.m * T.toNat < 2 ^ 64 := by
    calc x.m * T.toNat ≤ 2 ^ 53 * T.toNat := Nat.mul_le_mul_right _ hx1
      _ < 2 ^ 53 * 2 ^ 10 := by omega
      _ < 2 ^ 64 := by norm_num
  have hy1 := F64.round_m_le (x.m * T.toNat) (x.e + 0)
  have hy2 := F64.round_e_le (x.m * T.toNat) (x.e + 0) 64 hp
  generalize F64.round (x.m * T.toNat) (x.e + 0) = y at hy1 hy2 ⊢
  unfold F64.toUInt64
  have hneg : ¬ 0 ≤ y.e := by omega
  simp only [hneg, if_false]
  have hv : y.m / 2 ^ (-y.e).toNat < 2 ^ 64 := by
    have := Nat.div_le_self y.m (2 ^ (-y.e).toNat)
    omega
  rw [if_pos hv]
  exact ⟨_, rfl⟩

/-! ## The LWMA retargets never divide by zero for targets in `[4, 2^10)` -/

theorem foldl_int64_range (f : Int → Nat → Int)
    (hf : ∀ acc k, -2 ^ 63 ≤ f acc k ∧ f acc k < 2 ^ 63) (l : List Nat) (init : Int)
    (hinit : -2 ^ 63 ≤ init ∧ init < 2 ^ 63) :
    -2 ^ 63 ≤ l.foldl f init ∧ l.foldl f init < 2 ^ 63 := by
  induction l generalizing init with
  | nil => simpa using hinit
  | cons a l ih =>
    rw [List.foldl_cons]
    exact ih _ (hf init a)

theorem weightedSolveTimesV3_range (T : Int) (ts : List Nat) (length : Nat) :
    -2 ^ 63 ≤ weightedSolveTimesV3 T ts length ∧ weightedSolveTimesV3 T ts length < 2 ^ 63 := by
  unfold weightedSolveTimesV3
  exact foldl_int64_range _ (fun acc k => toInt64_range _) _ 0 (by norm_num)

theorem lwmaV4_range (F : Nat) (ts : List Nat) (length : Nat) :
    -2 ^ 63 ≤ lwmaV4 F ts length ∧ lwmaV4 F ts length < 2 ^ 63 := by
  unfold lwmaV4
  exact foldl_int64_range _ (fun acc k => toInt64_range _) _ 0 (by norm_num)

/-- The lower limit `minWST` of both LWMA retargets is a positive signed 64-bit value for a
target in `[4, 2^10)` and `2 ≤ L ≤ 720` entries. -/
theorem minWST_pos (T L k : Nat) (hT4 : 4 ≤ T) (hT : T < 2 ^ 10) (hL : 2 ≤ L) (hL2 : L ≤ 720)
    (hk : k = L + 1 ∨ k = L - 1) :
    1 ≤ toInt64 ((u64 (u64 (toU64 (toInt64 T) * L) * k) / 8 : Nat)) ∧
      toInt64 ((u64 (u64 (toU64 (toInt64 T) * L) * k) / 8 : Nat)) < 2 ^ 63 := by
  have hT1 : toU64 (toInt64 T) = T := by
    rw [toInt64_small T hT]
    unfold toU64
    omega
  rw [hT1]
  have h1 : T * L ≤ 1023 * 720 := Nat.mul_le_mul (by omega) hL2
  have h2 : 4 * 2 ≤ T * L := Nat.mul_le_mul hT4 hL
  have h3 : u64 (T * L) = T * L := by unfold u64; omega
  rw [h3]
  have h4 : T * L * k ≤ 1023 * 720 * 721 := Nat.mul_le_mul h1 (by omega)
  have h5 : 4 * 2 * 1 ≤ T * L * k := Nat.mul_le_mul h2 (by omega)
  have h6 : u64 (T * L * k) = T * L * k := by unfold u64; omega
  rw [h6]
  unfold toInt64
  omega

theorem nextDifficultyV3_isSome (c : Currency)
    (hT4 : 4 ≤ c.m_difficultyTarget) (hT : c.m_difficultyTarget < 2 ^ 10) (version : Nat)
    (timestamps cumulativeDifficulties : List Nat) :
    ∃ d, nextDifficultyV3 c version timestamps cumulativeDifficulties = some d := by
  unfold nextDifficultyV3
  simp only [difficultyWindowByBlockVersion_eq]
  have hL := length_trim_le 720 timestamps
  generalize (if decide (timestamps.length > 720) = true then resize timestamps 720
    else timestamps) = ts at hL ⊢
  generalize (if decide (timestamps.length > 720) = true then resize cumulativeDifficulties 720
    else cumulativeDifficulties) = cds
  by_cases h1 : ts.length ≤ 1
  · rw [if_pos h1]
    exact ⟨1, rfl⟩
  · rw [if_neg h1]
    have hTi := toInt64_small c.m_difficultyTarget hT
    obtain ⟨a, ha⟩ := aimedTarget_isSome (ts.length + 1) (toInt64 c.m_difficultyTarget)
      (by omega) (by omega) (by omega)
    rw [ha, Option.some_bind]
    have hmin := minWST_pos c.m_difficultyTarget ts.length (ts.length + 1) hT4 hT (by omega) hL
      (Or.inl rfl)
    have hr := weightedSolveTimesV3_range (toInt64 c.m_difficultyTarget) ts ts.length
    have hW : toU64 (if weightedSolveTimesV3 (toInt64 c.m_difficultyTarget) ts ts.length <
        toInt64 ((u64 (u64 (toU64 (toInt64 c.m_difficultyTarget) * ts.length)
          * (ts.length + 1)) / 8 : Nat) : Int)
        then toInt64 ((u64 (u64 (toU64 (toInt64 c.m_difficultyTarget) * ts.length)
          * (ts.length + 1)) / 8 : Nat) : Int)
        else weightedSolveTimesV3 (toInt64 c.m_difficultyTarget) ts ts.length) ≠ 0 := by
      apply toU64_ne_zero
      · split <;> omega
      · split <;> omega
    simp only [hW, if_false]
    split
    · exact ⟨0, rfl⟩
    · exact ⟨_, rfl⟩

theorem nextDifficultyV4_isSome (c : Currency)
    (hT4 : 4 ≤ c.m_difficultyTarget) (hT : c.m_difficultyTarget < 2 ^ 10) (version : Nat)
    (timestamps cumulativeDifficulties : List Nat) :
    ∃ d, nextDifficultyV4 c version timestamps cumulativeDifficulties = some d := by
  unfold nextDifficultyV4
  simp only [difficultyWindowByBlockVersion_eq]
  have hL := length_trim_le 720 timestamps
  generalize (if decide (timestamps.length > 720) = true then resize timestamps 720
    else timestamps) = ts at hL ⊢
  generalize (if decide (timestamps.length > 720) = true then resize cumulativeDifficulties 720
    else cumulativeDifficulties) = cds
  by_cases h1 : ts.length ≤ 1
  · rw [if_pos h1]
    exact ⟨1, rfl⟩
  · rw [if_neg h1]
    have hTi := toInt64_small c.m_difficultyTarget hT
    obtain ⟨a, ha⟩ := aimedTarget_isSome ts.length (toInt64 c.m_difficultyTarget)
      (by omega) (by omega) (by omega)
    rw [ha, Option.some_bind]
    have hmin := minWST_pos c.m_difficultyTarget ts.length (ts.length - 1) hT4 hT (by omega) hL
      (Or.inr rfl)
    have hr := lwmaV4_range c.m_blockFutureTimeLimit ts ts.length
    have hW : toU64 (if lwmaV4 c.m_blockFutureTimeLimit ts ts.length <
        toInt64 ((u64 (u64 (toU64 (toInt64 c.m_difficultyTarget) * ts.length)
          * (ts.length - 1)) / 8 : Nat) : Int)
        then toInt64 ((u64 (u64 (toU64 (toInt64 c.m_difficultyTarget) * ts.length)
          * (ts.length - 1)) / 8 : Nat) : Int)
        else lwmaV4 c.m_blockFutureTimeLimit ts ts.length) ≠ 0 := by
      apply toU64_ne_zero
      · split <;> omega
      · split <;> omega
    simp only [hW, if_false]
    split
    · exact ⟨0, rfl⟩
    · exact ⟨_, rfl⟩

/-! ## Dispatch and clamp of `nextDifficulty` -/

/-- C5: `nextDifficulty` dispatches on the exact major version: for a version `≥ 4` its result
is `max(1, nextDifficultyV4(...))`, for version 3 `max(1, nextDifficultyV3(...))`, for
version 2 `max(1, nextDifficultyV2(...))` and for every other version, that is 0 and 1,
`max(1, nextDifficultyV1(...))`, each called on the same version, timestamps and cumulative
difficulties. -/
theorem nextDifficulty_dispatch (c : Currency) (version blockIndex : Nat)
    (timestamps cumulativeDifficulties : List Nat) :
    (4 ≤ version → nextDifficulty c version blockIndex timestamps cumulativeDifficulties =
      (nextDifficultyV4 c version timestamps cumulativeDifficulties).map (max 1)) ∧
    (version = 3 → nextDifficulty c version blockIndex timestamps cumulativeDifficulties =
      (nextDifficultyV3 c version timestamps cumulativeDifficulties).map (max 1)) ∧
    (version = 2 → nextDifficulty c version blockIndex timestamps cumulativeDifficulties =
      some (max 1 (nextDifficultyV2 c version timestamps cumulativeDifficulties))) ∧
    (version ≤ 1 → nextDifficulty c version blockIndex timestamps cumulativeDifficulties =
      some (max 1 (nextDifficultyV1 c version timestamps cumulativeDifficulties))) := by
  have hf : (fun nextDiff : Nat => if nextDiff < 1 then 1 else nextDiff) = max 1 :=
    funext clamp_eq_max
  unfold nextDifficulty BLOCK_MAJOR_VERSION_4 BLOCK_MAJOR_VERSION_3 BLOCK_MAJOR_VERSION_2
  simp only [hf]
  refine ⟨?_, ?_, ?_, ?_⟩
  · intro h
    rw [if_pos h]
  · intro h
    subst h
    simp
  · intro h
    subst h
    simp
  · intro h
    have h4 : ¬ version ≥ 4 := by omega
    have h3 : ¬ version = 3 := by omega
    have h2 : ¬ version = 2 := by omega
    simp [h4, h3, h2]

theorem nextDifficulty_dispatch_witness :
    nextDifficulty {} 4 0 [0, 60, 120] [0, 100, 200] =
        (nextDifficultyV4 {} 4 [0, 60, 120] [0, 100, 200]).map (max 1) ∧
      nextDifficulty {} 3 0 [0, 60, 120] [0, 100, 200] =
        (nextDifficultyV3 {} 3 [0, 60, 120] [0, 100, 200]).map (max 1) ∧
      nextDifficulty {} 2 0 [0, 60, 120] [0, 100, 200] =
        some (max 1 (nextDifficultyV2 {} 2 [0, 60, 120] [0, 100, 200])) ∧
      nextDifficulty {} 0 0 [0, 60, 120] [0, 100, 200] =
        some (max 1 (nextDifficultyV1 {} 0 [0, 60, 120] [0, 100, 200])) :=
  ⟨(nextDifficulty_dispatch {} 4 0 [0, 60, 120] [0, 100, 200]).1 (by decide),
    (nextDifficulty_dispatch {} 3 0 [0, 60, 120] [0, 100, 200]).2.1 rfl,
    (nextDifficulty_dispatch {} 2 0 [0, 60, 120] [0, 100, 200]).2.2.1 rfl,
    (nextDifficulty_dispatch {} 0 0 [0, 60, 120] [0, 100, 200]).2.2.2 (by decide)⟩

/-- C6: for every block version and every pair of equal-length timestamp and
cumulative-difficulty vectors, `nextDifficulty` returns a difficulty, and it is at least 1.
The configuration may be any with a difficulty target in `[4, 2^10)`, which covers the
mainnet target 60 and the testnet target 15; for such a target neither LWMA retarget
converts an out-of-range double or divides by zero. -/
theorem nextDifficulty_ge_one (c : Currency)
    (hT4 : 4 ≤ c.m_difficultyTarget) (hT : c.m_difficultyTarget < 2 ^ 10)
    (version blockIndex : Nat) (timestamps cumulativeDifficulties : List Nat)
    (hlen : timestamps.length = cumulativeDifficulties.length) :
    ∃ d, nextDifficulty c version blockIndex timestamps cumulativeDifficulties = some d ∧
      1 ≤ d := by
  have hf : (fun nextDiff : Nat => if nextDiff < 1 then 1 else nextDiff) = max 1 :=
    funext clamp_eq_max
  unfold nextDifficulty
  simp only [hf]
  split
  · obtain ⟨d, hd⟩ := nextDifficultyV4_isSome c hT4 hT version timestamps cumulativeDifficulties
    rw [hd]
    exact ⟨max 1 d, rfl, le_max_left _ _⟩
  · split
    · obtain ⟨d, hd⟩ := nextDifficultyV3_isSome c hT4 hT version timestamps cumulativeDifficulties
      rw [hd]
      exact ⟨max 1 d, rfl, le_max_left _ _⟩
    · split
      · exact ⟨_, rfl, le_max_left _ _⟩
      · exact ⟨_, rfl, le_max_left _ _⟩

theorem nextDifficulty_ge_one_witness :
    4 ≤ ({} : Currency).m_difficultyTarget ∧ ({} : Currency).m_difficultyTarget < 2 ^ 10 ∧
      ([0, 60, 120] : List Nat).length = ([0, 100, 200] : List Nat).length ∧
      ∃ d, nextDifficulty {} 3 0 [0, 60, 120] [0, 100, 200] = some d ∧ 1 ≤ d :=
  ⟨by decide, by decide, rfl,
    nextDifficulty_ge_one {} (by decide) (by decide) 3 0 [0, 60, 120] [0, 100, 200] rfl⟩

/-- C7, as the code has it: for every v1 (versions 0 and 1) or v2 retarget input of equal
lengths `≥ 2` for which the 128-bit product of the total work and the target (the target of
the configuration for v1, the constant `DIFFICULTY_TARGET` for v2) has a non-zero high
half, `nextDifficultyV1`, respectively `nextDifficultyV2`, returns 0, and `nextDifficulty`
clamps it: its caller receives 1. -/
theorem nextDifficulty_overflow (c : Currency) (version blockIndex : Nat)
    (timestamps cumulativeDifficulties : List Nat)
    (hlen : timestamps.length = cumulativeDifficulties.length)
    (h2 : 2 ≤ timestamps.length) :
    (version ≤ 1 →
      (mul128 (legacyTotalWork parameters.DIFFICULTY_WINDOW parameters.DIFFICULTY_CUT timestamps
        cumulativeDifficulties) c.m_difficultyTarget).2 ≠ 0 →
      nextDifficultyV1 c version timestamps cumulativeDifficulties = 0 ∧
      nextDifficulty c version blockIndex timestamps cumulativeDifficulties = some 1) ∧
    (version = 2 →
      (mul128 (legacyTotalWork parameters.DIFFICULTY_WINDOW_V2 parameters.DIFFICULTY_CUT timestamps
        cumulativeDifficulties) parameters.DIFFICULTY_TARGET).2 ≠ 0 →
      nextDifficultyV2 c version timestamps cumulativeDifficulties = 0 ∧
      nextDifficulty c version blockIndex timestamps cumulativeDifficulties = some 1) := by
  constructor
  · intro hv hhigh
    have h0 : nextDifficultyV1 c version timestamps cumulativeDifficulties = 0 := by
      rw [nextDifficultyV1_eq_legacyRetarget c version timestamps cumulativeDifficulties hlen]
      exact legacyRetarget_overflow _ _ _ h2 hhigh
    refine ⟨h0, ?_⟩
    have h4 : ¬ version ≥ BLOCK_MAJOR_VERSION_4 := by unfold BLOCK_MAJOR_VERSION_4; omega
    have h3 : ¬ version = BLOCK_MAJOR_VERSION_3 := by unfold BLOCK_MAJOR_VERSION_3; omega
    have h2 : ¬ version = BLOCK_MAJOR_VERSION_2 := by unfold BLOCK_MAJOR_VERSION_2; omega
    unfold nextDifficulty
    rw [if_neg h4, if_neg h3, if_neg h2, h0]
    rfl
  · intro hv hhigh
    have h0 : nextDifficultyV2 c version timestamps cumulativeDifficulties = 0 := by
      rw [nextDifficultyV2_eq_legacyRetarget c version timestamps cumulativeDifficulties hlen]
      exact legacyRetarget_overflow _ _ _ h2 hhigh
    refine ⟨h0, ?_⟩
    have h4 : ¬ version ≥ BLOCK_MAJOR_VERSION_4 := by unfold BLOCK_MAJOR_VERSION_4; omega
    have h3 : ¬ version = BLOCK_MAJOR_VERSION_3 := by unfold BLOCK_MAJOR_VERSION_3; omega
    have h2 : version = BLOCK_MAJOR_VERSION_2 := hv
    unfold nextDifficulty
    rw [if_neg h4, if_neg h3, if_pos h2, h0]
    rfl

theorem nextDifficulty_overflow_witness :
    ([0, 1] : List Nat).length = ([0, 2 ^ 63] : List Nat).length ∧
      2 ≤ ([0, 1] : List Nat).length ∧
      (mul128 (legacyTotalWork parameters.DIFFICULTY_WINDOW parameters.DIFFICULTY_CUT [0, 1]
        [0, 2 ^ 63]) (({} : Currency).m_difficultyTarget)).2 ≠ 0 ∧
      nextDifficultyV1 {} 1 [0, 1] [0, 2 ^ 63] = 0 ∧
      nextDifficulty {} 1 0 [0, 1] [0, 2 ^ 63] = some 1 :=
  ⟨rfl, by decide, by decide,
    (nextDifficulty_overflow {} 1 0 [0, 1] [0, 2 ^ 63] rfl (by decide)).1 (by decide) (by decide)⟩

/-- C7 fails as stated: on mainnet, version 2, timestamps `[0, 1]` and cumulative
difficulties `[0, 2^63]` the product `2^63 · 60` has a non-zero high half, and the caller of
`nextDifficulty` does not receive 0. -/
theorem nextDifficulty_overflow_not_zero :
    ([0, 1] : List Nat).length = 2 ∧
      (mul128 (legacyTotalWork parameters.DIFFICULTY_WINDOW_V2 parameters.DIFFICULTY_CUT [0, 1]
        [0, 2 ^ 63]) parameters.DIFFICULTY_TARGET).2 ≠ 0 ∧
      nextDifficultyV2 {} 2 [0, 1] [0, 2 ^ 63] = 0 ∧
      nextDifficulty {} 2 0 [0, 1] [0, 2 ^ 63] ≠ some 0 := by
  decide

/-- C8: for every block version and every pair of equal-length vectors of length 0 or 1,
`nextDifficulty` returns exactly 1. -/
theorem nextDifficulty_short (c : Currency) (version blockIndex : Nat)
    (timestamps cumulativeDifficulties : List Nat)
    (hlen : timestamps.length = cumulativeDifficulties.length) (h : timestamps.length ≤ 1) :
    nextDifficulty c version blockIndex timestamps cumulativeDifficulties = some 1 := by
  unfold nextDifficulty
  rw [nextDifficultyV1_short c version timestamps cumulativeDifficulties h,
    nextDifficultyV2_short c version timestamps cumulativeDifficulties h,
    nextDifficultyV3_short c version timestamps cumulativeDifficulties h,
    nextDifficultyV4_short c version timestamps cumulativeDifficulties h]
  simp

theorem nextDifficulty_short_witness :
    ([5] : List Nat).length = ([7] : List Nat).length ∧ ([5] : List Nat).length ≤ 1 ∧
      nextDifficulty {} 1 0 [5] [7] = some 1 :=
  ⟨rfl, by decide, nextDifficulty_short {} 1 0 [5] [7] rfl (by decide)⟩

/-- C9 fails on the code: in the testnet configuration that `init` produces, with difficulty
target 15, `nextDifficultyV2` on timestamps `[0, 1]` and cumulative difficulties `[0, 1]`
returns 60, the total work times the constant `DIFFICULTY_TARGET`, while the legacy retarget
with the target of the configuration over window V2, and `nextDifficultyV1` itself, give
15. -/
theorem nextDifficultyV2_testnet_target :
    ∃ c, Currency.init exampleCollaborators { m_testnet := true } = some c ∧
      c.m_difficultyTarget = parameters.TESTNET_DIFFICULTY_TARGET ∧
      nextDifficultyV2 c 2 [0, 1] [0, 1] = 60 ∧
      legacyRetarget parameters.DIFFICULTY_WINDOW_V2 parameters.DIFFICULTY_CUT
        c.m_difficultyTarget [0, 1] [0, 1] = 15 ∧
      nextDifficultyV1 c 2 [0, 1] [0, 1] = 15 := by
  refine ⟨_, rfl, ?_, ?_, ?_, ?_⟩ <;> decide

/-! ## Proof of work -/

/-- C10: for every block with major version 2, 3 or 4, `checkProofOfWork` returns true only if
`check_hash(blockLongHash, difficulty)` holds, a merge-mining tag is present in the extra of
the parent block's coinbase, and the root that `tree_hash_from_branch` reconstructs from the
parent's blockchain branch, the auxiliary block header hash and the genesis block hash
equals the tag's Merkle root; and a block whose parent coinbase extra has no merge-mining
tag is rejected, whatever `check_hash` says. -/
theorem checkProofOfWork_merge_mined (ext : Collaborators) (c : Currency) (block : CachedBlock)
    (currentDiffic : Nat)
    (hv : block.block.majorVersion = 2 ∨ block.block.majorVersion = 3 ∨
      block.block.majorVersion = 4) :
    (checkProofOfWork ext c block currentDiffic = true →
      ext.check_hash block.blockLongHash currentDiffic = true ∧
      ∃ mmTag, ext.getMergeMiningTagFromExtra block.block.parentBlock.baseTransaction.extra
          = some mmTag ∧
        ext.tree_hash_from_branch block.block.parentBlock.blockchainBranch
          block.block.parentBlock.blockchainBranch.length block.auxiliaryBlockHeaderHash
          c.cachedGenesisBlock.blockHash = mmTag.merkleRoot) ∧
    (ext.getMergeMiningTagFromExtra block.block.parentBlock.baseTransaction.extra = none →
      checkProofOfWork ext c block currentDiffic = false) := by
  have h1 : ¬ block.block.majorVersion = BLOCK_MAJOR_VERSION_1 := by
    unfold BLOCK_MAJOR_VERSION_1; omega
  have h2 : block.block.majorVersion = BLOCK_MAJOR_VERSION_2
      ∨ block.block.majorVersion = BLOCK_MAJOR_VERSION_3
      ∨ block.block.majorVersion = BLOCK_MAJOR_VERSION_4 := hv
  unfold checkProofOfWork
  rw [if_neg h1, if_pos h2]
  unfold checkProofOfWorkV2
  constructor
  · intro h
    dsimp only at h
    split at h
    · exact absurd h (by simp)
    · split at h
      · exact absurd h (by simp)
      · rename_i hch
        split at h
        · exact absurd h (by simp)
        · rename_i mmTag hm
          split at h
          · exact absurd h (by simp)
          · split at h
            · exact absurd h (by simp)
            · rename_i hroot
              refine ⟨by simpa using hch, mmTag, hm, ?_⟩
              simpa using hroot
  · intro hnone
    dsimp only
    rw [hnone]
    simp

theorem checkProofOfWork_merge_mined_witness :
    checkProofOfWork (taggedCollaborators 7) {}
        { block := { majorVersion := 2 }, auxiliaryBlockHeaderHash := ⟨[7]⟩ } 1 = true ∧
      ((taggedCollaborators 7).check_hash ⟨[]⟩ 1 = true ∧
        ∃ mmTag, (taggedCollaborators 7).getMergeMiningTagFromExtra [] = some mmTag ∧
          (taggedCollaborators 7).tree_hash_from_branch [] 0 ⟨[7]⟩ ⟨[]⟩ = mmTag.merkleRoot) ∧
      exampleCollaborators.check_hash ⟨[]⟩ 1 = true ∧
      checkProofOfWork exampleCollaborators {} { block := { majorVersion := 2 } } 1 = false :=
  ⟨by decide,
    (checkProofOfWork_merge_mined (taggedCollaborators 7) {}
      { block := { majorVersion := 2 }, auxiliaryBlockHeaderHash := ⟨[7]⟩ } 1
      (Or.inl rfl)).1 (by decide),
    rfl,
    (checkProofOfWork_merge_mined exampleCollaborators {} { block := { majorVersion := 2 } } 1
      (Or.inl rfl)).2 rfl⟩

/-! ## Proof of work: the length of the branch and the block versions -/

/-- C11 (amended): for every block with majorVersion in {2, 3, 4} whose parent-block
blockchainBranch has more than 8 · 32 = 256 entries (eight times the size of a hash in bytes,
the bit length of a hash), `checkProofOfWork` returns false, whatever the hash, the
merge-mining tag and the reconstructed Merkle root are. -/
theorem checkProofOfWork_long_branch (ext : Collaborators) (c : Currency) (block : CachedBlock)
    (currentDiffic : Nat)
    (hv : block.block.majorVersion = 2 ∨ block.block.majorVersion = 3 ∨
      block.block.majorVersion = 4)
    (hlen : 8 * 32 < block.block.parentBlock.blockchainBranch.length) :
    checkProofOfWork ext c block currentDiffic = false := by
  have h1 : ¬ block.block.majorVersion = BLOCK_MAJOR_VERSION_1 := by
    unfold BLOCK_MAJOR_VERSION_1; omega
  have h2 : block.block.majorVersion = BLOCK_MAJOR_VERSION_2
      ∨ block.block.majorVersion = BLOCK_MAJOR_VERSION_3
      ∨ block.block.majorVersion = BLOCK_MAJOR_VERSION_4 := hv
  have h3 : 8 * sizeofHash < block.block.parentBlock.blockchainBranch.length := hlen
  unfold checkProofOfWork
  rw [if_neg h1, if_pos h2]
  unfold checkProofOfWorkV2
  simp only [h3, if_true]
  split
  · rfl
  · split
    · rfl
    · split <;> rfl

theorem checkProofOfWork_long_branch_witness :
    8 * 32 < (exampleBlock 2 257).block.parentBlock.blockchainBranch.length ∧
      checkProofOfWork (taggedCollaborators 7) {} (exampleBlock 2 257) 1 = false :=
  ⟨by
      rw [show (exampleBlock 2 257).block.parentBlock.blockchainBranch
        = List.replicate 257 ⟨[]⟩ from rfl, List.length_replicate]
      decide,
    checkProofOfWork_long_branch (taggedCollaborators 7) {} (exampleBlock 2 257) 1 (Or.inl rfl)
      (by
        rw [show (exampleBlock 2 257).block.parentBlock.blockchainBranch
          = List.replicate 257 ⟨[]⟩ from rfl, List.length_replicate]
        decide)⟩

/-- C11, counterexample: a block of major version 2 whose blockchain branch has 33 entries,
more than 256 / 8 = 32, passes `checkProofOfWork` when its hash meets the difficulty, its
parent coinbase carries a merge-mining tag and the reconstructed root equals the root of the
tag: the bound that the code tests is 8 · sizeof(hash) = 256 entries. -/
theorem checkProofOfWork_branch_of_33 :
    (exampleBlock 2 33).block.majorVersion = 2 ∧
      256 / 8 < (exampleBlock 2 33).block.parentBlock.blockchainBranch.length ∧
      checkProofOfWork (taggedCollaborators 7) {} (exampleBlock 2 33) 1 = true := by
  decide

/-- C12: for every block whose majorVersion is none of 1, 2, 3, 4 (0 and every value from 5
on included), `checkProofOfWork` returns false for every difficulty; and for majorVersion 1
it returns exactly `check_hash(blockLongHash, difficulty)`. -/
theorem checkProofOfWork_versions (ext : Collaborators) (c : Currency) (block : CachedBlock)
    (currentDiffic : Nat) :
    (block.block.majorVersion ≠ 1 → block.block.majorVersion ≠ 2 →
      block.block.majorVersion ≠ 3 → block.block.majorVersion ≠ 4 →
      checkProofOfWork ext c block currentDiffic = false) ∧
    (block.block.majorVersion = 1 →
      checkProofOfWork ext c block currentDiffic =
        ext.check_hash block.blockLongHash currentDiffic) := by
  unfold checkProofOfWork BLOCK_MAJOR_VERSION_1 BLOCK_MAJOR_VERSION_2 BLOCK_MAJOR_VERSION_3
    BLOCK_MAJOR_VERSION_4
  constructor
  · intro h1 h2 h3 h4
    rw [if_neg h1, if_neg (by simp [h2, h3, h4])]
  · intro h1
    rw [if_pos h1]
    unfold checkProofOfWorkV1 BLOCK_MAJOR_VERSION_1
    rw [if_neg (by simp [h1])]

theorem checkProofOfWork_versions_witness :
    checkProofOfWork exampleCollaborators {} { block := { majorVersion := 5 } } 1 = false ∧
      checkProofOfWork exampleCollaborators {} { block := { majorVersion := 0 } } 1 = false ∧
      checkProofOfWork exampleCollaborators {} { block := { majorVersion := 1 } } 1 =
        exampleCollaborators.check_hash ⟨[]⟩ 1 :=
  ⟨(checkProofOfWork_versions exampleCollaborators {} { block := { majorVersion := 5 } } 1).1
      (by decide) (by decide) (by decide) (by decide),
    (checkProofOfWork_versions exampleCollaborators {} { block := { majorVersion := 0 } } 1).1
      (by decide) (by decide) (by decide) (by decide),
    (checkProofOfWork_versions exampleCollaborators {} { block := { majorVersion := 1 } } 1).2
      rfl⟩

/-! ## PRETTY_AMOUNTS and the decomposition of amounts -/

set_option maxRecDepth 100000 in
/-- On the members of PRETTY_AMOUNTS, `lower_bound` finds the member itself, at its index. -/
theorem lower_bound_PRETTY_AMOUNTS :
    ∀ x ∈ PRETTY_AMOUNTS, lower_bound PRETTY_AMOUNTS x < PRETTY_AMOUNTS.length ∧
      PRETTY_AMOUNTS.getD (lower_bound PRETTY_AMOUNTS x) 0 = x ∧
      lower_bound PRETTY_AMOUNTS x = PRETTY_AMOUNTS.indexOf x := by
  decide

set_option maxRecDepth 100000 in
/-- Every non-zero digit times a power of ten below `10^19` is a member of PRETTY_AMOUNTS. -/
theorem digit_mem_PRETTY_AMOUNTS :
    ∀ i < 19, ∀ d < 10, d ≠ 0 → d * 10 ^ i ∈ PRETTY_AMOUNTS := by
  decide

theorem sum_filter_ne_zero (l : List Nat) : (l.filter (· ≠ 0)).sum = l.sum := by
  induction l with
  | nil => rfl
  | cons a l ih =>
    by_cases h : a = 0
    · subst h
      simpa using ih
    · rw [List.filter_cons_of_pos (by simpa using h), List.sum_cons, List.sum_cons, ih]

theorem sum_decomposeFrom (t : Nat) (l : List Nat) :
    ∀ dust, (decomposeFrom t l dust).sum = dust + l.sum := by
  induction l with
  | nil =>
    intro dust
    unfold decomposeFrom
    split
    · rename_i h; subst h; rfl
    · simp
  | cons a l ih =>
    intro dust
    unfold decomposeFrom
    split
    · rw [ih, List.sum_cons, Nat.add_assoc]
    · rw [List.sum_append, sum_filter_ne_zero]
      split
      · rename_i h; subst h; simp
      · simp

theorem sum_digitChunks_aux (a : Nat) (k : Nat) :
    ((List.range k).map fun i => a / 10 ^ i % 10 * 10 ^ i).sum = a % 10 ^ k := by
  induction k with
  | zero => simp [Nat.mod_one]
  | succ k ih =>
    rw [List.range_succ, List.map_append, List.sum_append, ih, Nat.mod_pow_succ]
    simp [Nat.mul_comm]

theorem sum_digitChunks (a : Nat) (h : a < 2 ^ 64) : (digitChunks a).sum = a := by
  unfold digitChunks
  rw [sum_digitChunks_aux a 20]
  exact Nat.mod_eq_of_lt (lt_trans h (by norm_num))

/-- C15: for every 64-bit amount `a` and every dust threshold, the amounts produced by
`decomposeAmount(a, dustThreshold)` sum to exactly `a`. -/
theorem sum_decomposeAmount (a dustThreshold : Nat) (h : a < 2 ^ 64) :
    (decomposeAmount a dustThreshold).sum = a := by
  unfold decomposeAmount
  rw [sum_decomposeFrom, sum_digitChunks a h, Nat.zero_add]

theorem sum_decomposeAmount_witness :
    123456789 < 2 ^ 64 ∧
      decomposeAmount 123456789 1000000 = [456789, 3000000, 20000000, 100000000] ∧
      (decomposeAmount 123456789 1000000).sum = 123456789 :=
  ⟨by norm_num, by decide, sum_decomposeAmount 123456789 1000000 (by norm_num)⟩

theorem digitChunk_mem (a : Nat) (h : a < 2 ^ 64) (x : Nat) (hx : x ∈ digitChunks a)
    (h0 : x ≠ 0) : x ∈ PRETTY_AMOUNTS := by
  unfold digitChunks at hx
  rw [List.mem_map] at hx
  obtain ⟨i, hi, rfl⟩ := hx
  rw [List.mem_range] at hi
  have hd : a / 10 ^ i % 10 ≠ 0 := by
    intro h
    rw [h, Nat.zero_mul] at h0
    exact h0 rfl
  by_cases h19 : i < 19
  · exact digit_mem_PRETTY_AMOUNTS i h19 _ (Nat.mod_lt _ (by norm_num)) hd
  · have hi19 : i = 19 := by omega
    subst hi19
    have h1 : a / 10 ^ 19 < 2 := by
      rw [Nat.div_lt_iff_lt_mul (by norm_num)]
      exact lt_trans h (by norm_num)
    have h2 : a / 10 ^ 19 % 10 = 1 := by omega
    rw [h2]
    decide

/-- The shape of a decomposition: at most one dust amount, below the threshold unless it comes
from the orders already collected, followed by non-zero digits. -/
theorem decomposeFrom_shape (t : Nat) (l : List Nat) :
    ∀ dust, (dust = 0 ∨ dust < t) →
      ∃ d chunks, decomposeFrom t l dust = d ++ chunks ∧ d.length ≤ 1 ∧
        (∀ x ∈ d, x < t) ∧ (∀ x ∈ chunks, x ∈ l ∧ x ≠ 0) := by
  induction l with
  | nil =>
    intro dust hd
    unfold decomposeFrom
    split
    · exact ⟨[], [], rfl, by simp, by simp, by simp⟩
    · rename_i h0
      refine ⟨[dust], [], rfl, by simp, ?_, by simp⟩
      intro x hx
      rw [List.mem_singleton] at hx
      subst hx
      rcases hd with h | h
      · exact absurd h h0
      · exact h
  | cons a l ih =>
    intro dust hd
    unfold decomposeFrom
    split
    · rename_i hlt
      obtain ⟨d, chunks, h1, h2, h3, h4⟩ := ih (dust + a) (Or.inr hlt)
      exact ⟨d, chunks, h1, h2, h3,
        fun x hx => ⟨List.mem_cons_of_mem _ (h4 x hx).1, (h4 x hx).2⟩⟩
    · refine ⟨if dust = 0 then [] else [dust], (a :: l).filter (· ≠ 0), rfl, ?_, ?_, ?_⟩
      · split <;> simp
      · intro x hx
        split at hx
        · simp at hx
        · rename_i h0
          rw [List.mem_singleton] at hx
          subst hx
          rcases hd with h | h
          · exact absurd h h0
          · exact h
      · intro x hx
        rw [List.mem_filter] at hx
        exact ⟨hx.1, by simpa using hx.2⟩

/-- C16: for every 64-bit amount `a` and every dust threshold, the result of
`decomposeAmount(a, dustThreshold)` is at most one amount (the dust residue), which is
strictly smaller than the dust threshold, followed by amounts that are all members of
PRETTY_AMOUNTS. -/
theorem decomposeAmount_pretty (a dustThreshold : Nat) (h : a < 2 ^ 64) :
    ∃ dust chunks, decomposeAmount a dustThreshold = dust ++ chunks ∧ dust.length ≤ 1 ∧
      (∀ x ∈ dust, x < dustThreshold) ∧ (∀ x ∈ chunks, x ∈ PRETTY_AMOUNTS) := by
  unfold decomposeAmount
  obtain ⟨d, chunks, h1, h2, h3, h4⟩ :=
    decomposeFrom_shape dustThreshold (digitChunks a) 0 (Or.inl rfl)
  exact ⟨d, chunks, h1, h2, h3, fun x hx => digitChunk_mem a h x (h4 x hx).1 (h4 x hx).2⟩

theorem decomposeAmount_pretty_witness :
    123456789 < 2 ^ 64 ∧
      ∃ dust chunks, decomposeAmount 123456789 1000000 = dust ++ chunks ∧ dust.length ≤ 1 ∧
        (∀ x ∈ dust, x < 1000000) ∧ (∀ x ∈ chunks, x ∈ PRETTY_AMOUNTS) :=
  ⟨by norm_num, decomposeAmount_pretty 123456789 1000000 (by norm_num)⟩

/-! ## Fusion transactions -/

/-- The loop of `isFusionTransaction` over the input amounts: it fails on an amount below the
dust threshold and otherwise returns the sum modulo `2^64`. -/
theorem sumInputsAmounts_eq (c : Currency) (l : List Nat) :
    ∀ init, init < 2 ^ 64 →
      sumInputsAmounts c l init =
        if ∀ amount ∈ l, c.m_defaultDustThreshold ≤ amount then some ((init + l.sum) % 2 ^ 64)
        else none := by
  induction l with
  | nil =>
    intro init h
    unfold sumInputsAmounts
    rw [if_pos (by simp), List.sum_nil, Nat.add_zero, Nat.mod_eq_of_lt h]
  | cons a l ih =>
    intro init h
    unfold sumInputsAmounts
    by_cases ha : a < c.m_defaultDustThreshold
    · rw [if_pos ha, if_neg]
      intro hall
      exact absurd (hall a (List.mem_cons_self _ _)) (by omega)
    · rw [if_neg ha, ih (u64 (init + a)) (Nat.mod_lt _ (by norm_num))]
      have hiff : (∀ amount ∈ a :: l, c.m_defaultDustThreshold ≤ amount) ↔
          (∀ amount ∈ l, c.m_defaultDustThreshold ≤ amount) := by
        constructor
        · intro hall x hx
          exact hall x (List.mem_cons_of_mem _ hx)
        · intro hall x hx
          rcases List.mem_cons.mp hx with h1 | h1
          · subst h1; omega
          · exact hall x h1
      simp only [hiff, List.sum_cons, u64]
      split
      · congr 1
        omega
      · rfl

/-- C13 (amended): for all input-amount lists, output-amount lists and sizes for which
`|outputs| * fusionMinInOutRatio` fits 64 bits, `isFusionTransaction(inputs, outputs, size)`
is true if and only if `size <= fusionMaxSize`, and `|inputs| >= fusionMinInputs`, and
`|inputs| >= |outputs| * fusionMinInOutRatio`, and every input amount is at least the dust
threshold, and the ascending sort of `decomposeAmount(sum(inputs) mod 2^64, dustThreshold)`
equals outputs element-wise, the sum being accumulated in 64 bits; and twelve inputs of
`10^7` with the outputs `[2·10^7, 10^8]` are recognised iff `size <= fusionMaxSize`. -/
theorem isFusionTransaction_iff (c : Currency) (inputsAmounts outputsAmounts : List Nat)
    (size : Nat)
    (hprod : outputsAmounts.length * c.m_fusionTxMinInOutCountRatio < 2 ^ 64) :
    (isFusionTransaction c inputsAmounts outputsAmounts size = true ↔
      size ≤ c.m_fusionTxMaxSize ∧
      inputsAmounts.length ≥ c.m_fusionTxMinInputCount ∧
      inputsAmounts.length ≥ outputsAmounts.length * c.m_fusionTxMinInOutCountRatio ∧
      (∀ amount ∈ inputsAmounts, amount ≥ c.m_defaultDustThreshold) ∧
      (decomposeAmount (inputsAmounts.sum % 2 ^ 64) c.m_defaultDustThreshold).insertionSort
        (· ≤ ·) = outputsAmounts) ∧
    (isFusionTransaction {} (List.replicate 12 (10 ^ 7)) [2 * 10 ^ 7, 10 ^ 8] size = true ↔
      size ≤ ({} : Currency).m_fusionTxMaxSize) := by
  constructor
  · unfold isFusionTransaction
    rw [sumInputsAmounts_eq c inputsAmounts 0 (by norm_num), Nat.zero_add]
    have hu : u64 (outputsAmounts.length * c.m_fusionTxMinInOutCountRatio) =
        outputsAmounts.length * c.m_fusionTxMinInOutCountRatio := Nat.mod_eq_of_lt hprod
    rw [hu]
    by_cases h1 : size > c.m_fusionTxMaxSize
    · rw [if_pos h1]
      constructor
      · intro h; exact absurd h (by simp)
      · intro h; omega
    · rw [if_neg h1]
      by_cases h2 : inputsAmounts.length < c.m_fusionTxMinInputCount
      · rw [if_pos h2]
        constructor
        · intro h; exact absurd h (by simp)
        · intro h; omega
      · rw [if_neg h2]
        by_cases h3 : inputsAmounts.length <
            outputsAmounts.length * c.m_fusionTxMinInOutCountRatio
        · rw [if_pos h3]
          constructor
          · intro h; exact absurd h (by simp)
          · intro h; omega
        · rw [if_neg h3]
          by_cases h4 : ∀ amount ∈ inputsAmounts, c.m_defaultDustThreshold ≤ amount
          · rw [if_pos h4]
            dsimp only
            rw [beq_iff_eq]
            constructor
            · intro h
              exact ⟨by omega, by omega, by omega, h4, h⟩
            · intro h
              exact h.2.2.2.2
          · rw [if_neg h4]
            dsimp only
            constructor
            · intro h; exact absurd h (by simp)
            · intro h; exact absurd h.2.2.2.1 h4
  · unfold isFusionTransaction
    have hs : sumInputsAmounts {} (List.replicate 12 (10 ^ 7)) 0 = some 120000000 := by decide
    have hd : (decomposeAmount 120000000 ({} : Currency).m_defaultDustThreshold).insertionSort
        (· ≤ ·) = [2 * 10 ^ 7, 10 ^ 8] := by decide
    rw [hs]
    dsimp only
    rw [hd]
    have h2 : ¬ (List.replicate 12 (10 ^ 7)).length < ({} : Currency).m_fusionTxMinInputCount := by
      decide
    have h3 : ¬ (List.replicate 12 (10 ^ 7)).length <
        u64 (([2 * 10 ^ 7, 10 ^ 8] : List Nat).length
          * ({} : Currency).m_fusionTxMinInOutCountRatio) := by
      decide
    rw [if_neg h2, if_neg h3]
    by_cases h1 : size > ({} : Currency).m_fusionTxMaxSize
    · rw [if_pos h1]
      constructor
      · intro h; exact absurd h (by simp)
      · intro h; exact absurd h (not_le.mpr h1)
    · rw [if_neg h1]
      simp only [beq_self_eq_true, true_iff]
      exact not_lt.mp h1

theorem isFusionTransaction_iff_witness :
    [2 * 10 ^ 7, 10 ^ 8].length * ({} : Currency).m_fusionTxMinInOutCountRatio < 2 ^ 64 ∧
      isFusionTransaction {} (List.replicate 12 (10 ^ 7)) [2 * 10 ^ 7, 10 ^ 8] 3000 = true ∧
      isFusionTransaction {} (List.replicate 12 (10 ^ 7)) [2 * 10 ^ 7, 10 ^ 8] 3001 = false :=
  ⟨by decide,
    ((isFusionTransaction_iff {} (List.replicate 12 (10 ^ 7)) [2 * 10 ^ 7, 10 ^ 8] 3000
      (by decide)).2).mpr (by decide),
    by
      have h := (isFusionTransaction_iff {} (List.replicate 12 (10 ^ 7)) [2 * 10 ^ 7, 10 ^ 8] 3001
        (by decide)).2
      cases hb : isFusionTransaction {} (List.replicate 12 (10 ^ 7)) [2 * 10 ^ 7, 10 ^ 8] 3001
      · rfl
      · exact absurd (h.mp hb) (by decide)⟩

/-- C13, counterexample: the inputs `2^63, 2^63` and twelve times `10^7` sum to
`2^64 + 1.2·10^8`; the 64-bit accumulation of the code wraps to `1.2·10^8`, so that the code
recognises the outputs `[2·10^7, 10^8]` as a fusion of these inputs, although the ascending
sort of the decomposition of the sum of the inputs is a different list. -/
theorem isFusionTransaction_wrapped_sum :
    ([2 ^ 63, 2 ^ 63] ++ List.replicate 12 (10 ^ 7)).sum = 2 ^ 64 + 120000000 ∧
      isFusionTransaction {} ([2 ^ 63, 2 ^ 63] ++ List.replicate 12 (10 ^ 7))
        [2 * 10 ^ 7, 10 ^ 8] 100 = true ∧
      (decomposeAmount ([2 ^ 63, 2 ^ 63] ++ List.replicate 12 (10 ^ 7)).sum
        ({} : Currency).m_defaultDustThreshold).insertionSort (· ≤ ·) ≠ [2 * 10 ^ 7, 10 ^ 8] := by
  decide

/-- C14: for every amount and threshold,
`isAmountApplicableInFusionTransactionInput(amount, threshold)` returns true if and only if
`dustThreshold <= amount < threshold` and amount is a member of PRETTY_AMOUNTS, and the
power-of-ten bucket that it then reports is `floor(index / 9)`, where index is the position
of amount in PRETTY_AMOUNTS; so `2·10^7`, of index 64, is applicable below `10^9` with the
bucket 7. -/
theorem isAmountApplicableInFusionTransactionInput_eq (c : Currency) (amount threshold : Nat) :
    isAmountApplicableInFusionTransactionInput c amount threshold =
        (if c.m_defaultDustThreshold ≤ amount ∧ amount < threshold ∧ amount ∈ PRETTY_AMOUNTS
          then some (PRETTY_AMOUNTS.indexOf amount / 9) else none) ∧
      isAmountApplicableInFusionTransactionInput {} (2 * 10 ^ 7) (10 ^ 9) = some 7 := by
  refine ⟨?_, by set_option maxRecDepth 100000 in decide⟩
  unfold isAmountApplicableInFusionTransactionInput
  by_cases h1 : amount ≥ threshold
  · rw [if_pos h1, if_neg (fun h => absurd h.2.1 (by omega))]
  · rw [if_neg h1]
    by_cases h2 : amount < c.m_defaultDustThreshold
    · rw [if_pos h2, if_neg (fun h => absurd h.1 (by omega))]
    · rw [if_neg h2]
      dsimp only
      by_cases hm : amount ∈ PRETTY_AMOUNTS
      · obtain ⟨hl, hg, hi⟩ := lower_bound_PRETTY_AMOUNTS amount hm
        have hcond : ¬ (lower_bound PRETTY_AMOUNTS amount = PRETTY_AMOUNTS.length ∨
            amount ≠ PRETTY_AMOUNTS.getD (lower_bound PRETTY_AMOUNTS amount) 0) := by
          rw [hg]
          intro h
          rcases h with h | h
          · omega
          · exact h rfl
        rw [if_neg hcond, if_pos ⟨by omega, by omega, hm⟩]
        have hlen : PRETTY_AMOUNTS.length = 172 := rfl
        congr 1
        rw [← hi]
        omega
      · have hcond : lower_bound PRETTY_AMOUNTS amount = PRETTY_AMOUNTS.length ∨
            amount ≠ PRETTY_AMOUNTS.getD (lower_bound PRETTY_AMOUNTS amount) 0 := by
          by_cases hl : lower_bound PRETTY_AMOUNTS amount = PRETTY_AMOUNTS.length
          · exact Or.inl hl
          · right
            intro heq
            apply hm
            have hlt : lower_bound PRETTY_AMOUNTS amount < PRETTY_AMOUNTS.length := by
              have := @List.findIdx_le_length _ (fun x => !decide (x < amount)) PRETTY_AMOUNTS
              unfold lower_bound at hl ⊢
              omega
            rw [heq, List.getD_eq_getElem _ _ hlt]
            exact List.getElem_mem _
        rw [if_pos hcond, if_neg (fun h => hm h.2.2)]

/-! ## Amount strings -/

/-! ## Decimal strings -/

/-- The fold of `decimalValue` from an arbitrary start value. -/
theorem foldl_decimal (l : List Nat) :
    ∀ init, l.foldl (fun acc ch => acc * 10 + (ch - 48)) init =
      init * 10 ^ l.length + decimalValue l := by
  unfold decimalValue
  induction l with
  | nil => intro init; simp
  | cons a l ih =>
    intro init
    rw [List.foldl_cons, List.foldl_cons, ih, ih (0 * 10 + (a - 48)), List.length_cons,
      Nat.pow_succ]
    ring

/-- The value of a concatenation of digit strings. -/
theorem decimalValue_append (l1 l2 : List Nat) :
    decimalValue (l1 ++ l2) = decimalValue l1 * 10 ^ l2.length + decimalValue l2 := by
  show (l1 ++ l2).foldl _ 0 = _
  rw [List.foldl_append, foldl_decimal l2]
  rfl

theorem decimalValue_zeros (k : Nat) : decimalValue (List.replicate k 48) = 0 := by
  induction k with
  | zero => rfl
  | succ k ih =>
    rw [List.replicate_succ,
      show (48 :: List.replicate k 48) = [48] ++ List.replicate k 48 from rfl,
      decimalValue_append, ih]
    have : decimalValue [48] = 0 := rfl
    rw [this, Nat.zero_mul]

theorem decimalValue_all_zero (l : List Nat) (h : ∀ ch ∈ l, ch = 48) : decimalValue l = 0 := by
  have : l = List.replicate l.length 48 := List.eq_replicate_iff.mpr ⟨rfl, h⟩
  rw [this, decimalValue_zeros]

theorem to_string_aux_spec (fuel : Nat) :
    ∀ n acc, n < 10 ^ fuel → 0 < fuel →
      ∃ ds, to_string_aux fuel n acc = ds ++ acc ∧ ds ≠ [] ∧
        (∀ ch ∈ ds, isdigit ch = true) ∧ decimalValue ds = n := by
  induction fuel with
  | zero => intro n acc _ h; exact absurd h (by omega)
  | succ f ih =>
    intro n acc hn _
    unfold to_string_aux
    split
    · rename_i h10
      refine ⟨[48 + n], rfl, by simp, ?_, ?_⟩
      · intro ch hch
        rw [List.mem_singleton] at hch
        subst hch
        simp [isdigit]
        omega
      · simp [decimalValue]
    · rename_i h10
      have hdiv : n / 10 < 10 ^ f := by
        rw [Nat.pow_succ] at hn
        omega
      have hf : 0 < f := by
        rcases Nat.eq_zero_or_pos f with h | h
        · subst h
          simp at hdiv
          omega
        · exact h
      obtain ⟨ds, h1, h2, h3, h4⟩ := ih (n / 10) ((48 + n % 10) :: acc) hdiv hf
      refine ⟨ds ++ [48 + n % 10], by rw [h1]; simp, by simp, ?_, ?_⟩
      · intro ch hch
        rcases List.mem_append.mp hch with h | h
        · exact h3 ch h
        · rw [List.mem_singleton] at h
          subst h
          simp [isdigit]
          omega
      · rw [decimalValue_append, h4]
        simp [decimalValue]
        omega

/-- The string `to_string n` is not empty, holds only digits and has the value `n`. -/
theorem to_string_spec (n : Nat) :
    to_string n ≠ [] ∧ (∀ ch ∈ to_string n, isdigit ch = true) ∧
      decimalValue (to_string n) = n := by
  have hlt : n < 10 ^ (n + 1) :=
    lt_of_lt_of_le (Nat.lt_pow_self (by norm_num : 1 < 10) n)
      (Nat.pow_le_pow_right (by norm_num) (Nat.le_succ n))
  obtain ⟨ds, h1, h2, h3, h4⟩ := to_string_aux_spec (n + 1) n [] hlt (Nat.succ_pos n)
  unfold to_string
  rw [h1, List.append_nil]
  exact ⟨h2, h3, h4⟩

/-! ## trim -/

theorem dropWhile_eq_self_of_all_false (p : Nat → Bool) (l : List Nat)
    (h : ∀ x ∈ l, p x = false) : l.dropWhile p = l := by
  cases l with
  | nil => rfl
  | cons a l =>
    rw [List.dropWhile_cons, h a (List.mem_cons_self _ _)]
    rfl

/-- A string without white space is its own trimming. -/
theorem trim_eq_self (s : List Nat) (h : ∀ ch ∈ s, isspace ch = false) : trim s = s := by
  unfold trim
  rw [dropWhile_eq_self_of_all_false isspace s h,
    dropWhile_eq_self_of_all_false isspace s.reverse (fun x hx => h x (List.mem_reverse.mp hx)),
    List.reverse_reverse]

theorem not_isspace_of_isdigit (ch : Nat) (h : isdigit ch = true) : isspace ch = false := by
  simp [isdigit] at h
  simp [isspace]
  omega

theorem ne_point_of_isdigit (ch : Nat) (h : isdigit ch = true) : ch ≠ 46 := by
  simp [isdigit] at h
  omega

/-- The loop of `parseAmount` on a string that ends in the fraction `F`: when the characters
of `F` beyond the first `dp` are all `'0'` it erases exactly them. -/
theorem parseAmount_while_zeros (dp : Nat) :
    ∀ (f : Nat) (F P : List Nat), F.length = f → (∀ ch ∈ F.drop dp, ch = 48) →
      parseAmount_while dp f (P ++ F) = (P ++ F.take dp, min f dp) := by
  intro f
  induction f with
  | zero =>
    intro F P hF _
    have : F = [] := List.length_eq_zero.mp hF
    subst this
    simp [parseAmount_while]
  | succ f ih =>
    intro F P hF hz
    rcases List.eq_nil_or_concat F with h | ⟨F', x, h⟩
    · subst h; simp at hF
    · rw [List.concat_eq_append] at h
      subst h
      have hF' : F'.length = f := by simpa using hF
      unfold parseAmount_while
      by_cases hdp : dp < f + 1
      · have hx : x = 48 := by
          apply hz
          rw [List.drop_append_eq_append_drop]
          apply List.mem_append_right
          have : dp - F'.length = 0 := by omega
          rw [this]
          simp
        subst hx
        have hlast : (P ++ (F' ++ [48])).getLast? = some 48 := by
          rw [← List.append_assoc, List.getLast?_concat]
        rw [if_pos ⟨hdp, hlast⟩]
        have hdl : (P ++ (F' ++ [48])).dropLast = P ++ F' := by
          rw [← List.append_assoc, List.dropLast_concat]
        rw [hdl, ih F' P hF' (fun ch hch => hz ch (by
          rw [List.drop_append_eq_append_drop]
          exact List.mem_append_left _ hch))]
        have ht : (F' ++ [48]).take dp = F'.take dp := by
          rw [List.take_append_eq_append_take]
          have : dp - F'.length = 0 := by omega
          rw [this]
          simp
        rw [ht]
        congr 1
        omega
      · rw [if_neg (fun h => hdp h.1)]
        have ht : (F' ++ [x]).take dp = F' ++ [x] := List.take_of_length_le (by simp; omega)
        rw [ht]
        congr 1
        omega

/-- The loop of `parseAmount` leaves a fraction of more than `dp` characters when a character
of `F` beyond the first `dp` is not `'0'`. -/
theorem parseAmount_while_nonzero (dp : Nat) :
    ∀ (f : Nat) (F P : List Nat), F.length = f → (∃ ch ∈ F.drop dp, ch ≠ 48) →
      dp < (parseAmount_while dp f (P ++ F)).2 := by
  intro f
  induction f with
  | zero =>
    intro F P hF hz
    have : F = [] := List.length_eq_zero.mp hF
    subst this
    simp at hz
  | succ f ih =>
    intro F P hF hz
    rcases List.eq_nil_or_concat F with h | ⟨F', x, h⟩
    · subst h; simp at hF
    · rw [List.concat_eq_append] at h
      subst h
      have hF' : F'.length = f := by simpa using hF
      have hdp : dp < f + 1 := by
        by_contra hc
        obtain ⟨ch, hch, _⟩ := hz
        rw [List.drop_of_length_le (by simp; omega)] at hch
        simp at hch
      unfold parseAmount_while
      by_cases hx : x = 48
      · subst hx
        have hlast : (P ++ (F' ++ [48])).getLast? = some 48 := by
          rw [← List.append_assoc, List.getLast?_concat]
        rw [if_pos ⟨hdp, hlast⟩]
        have hdl : (P ++ (F' ++ [48])).dropLast = P ++ F' := by
          rw [← List.append_assoc, List.dropLast_concat]
        rw [hdl]
        apply ih F' P hF'
        obtain ⟨ch, hch, hne⟩ := hz
        rw [List.drop_append_eq_append_drop] at hch
        rcases List.mem_append.mp hch with h | h
        · exact ⟨ch, h, hne⟩
        · have : ch = 48 := by
            have := List.mem_of_mem_drop h
            simpa using this
          exact absurd this hne
      · have hlast : ¬ (dp < f + 1 ∧ (P ++ (F' ++ [x])).getLast? = some 48) := by
          rw [← List.append_assoc, List.getLast?_concat]
          intro h
          exact hx (Option.some.inj h.2)
        rw [if_neg hlast]
        exact hdp

/-- The function `parseAmount` as the treatment of the point followed by `parseAmount_tail`. -/
theorem parseAmount_eq_tail (c : Currency) (str : List Nat) :
    parseAmount c str =
      (if (trim str).indexOf 46 ≠ (trim str).length then
        if c.m_numberOfDecimalPlaces <
            (parseAmount_while c.m_numberOfDecimalPlaces
              ((trim str).length - (trim str).indexOf 46 - 1) (trim str)).2 then none
        else some ((parseAmount_while c.m_numberOfDecimalPlaces
              ((trim str).length - (trim str).indexOf 46 - 1) (trim str)).1.eraseIdx
                ((trim str).indexOf 46),
            (parseAmount_while c.m_numberOfDecimalPlaces
              ((trim str).length - (trim str).indexOf 46 - 1) (trim str)).2)
      else some (trim str, 0)).bind
        fun r => parseAmount_tail c.m_numberOfDecimalPlaces r.1 r.2 := by
  unfold parseAmount
  dsimp only
  congr 1
  funext r
  unfold parseAmount_tail
  split
  · rfl
  · split
    · rfl
    · split
      · rfl
      · rename_i h
        have : c.m_numberOfDecimalPlaces - r.2 = 0 := by omega
        rw [this, List.replicate_zero, List.append_nil]

/-- The function `parseAmount` on a trimmed string `I.F` whose first point follows `I`. -/
theorem parseAmount_point (c : Currency) (str I F : List Nat) (ht : trim str = I ++ 46 :: F)
    (hI : 46 ∉ I) :
    parseAmount c str =
      if ∀ ch ∈ F.drop c.m_numberOfDecimalPlaces, ch = 48 then
        parseAmount_tail c.m_numberOfDecimalPlaces (I ++ F.take c.m_numberOfDecimalPlaces)
          (min F.length c.m_numberOfDecimalPlaces)
      else none := by
  rw [parseAmount_eq_tail, ht]
  have hidx : (I ++ 46 :: F).indexOf 46 = I.length := by
    rw [List.indexOf_append_of_not_mem hI, List.indexOf_cons_self, Nat.add_zero]
  have hlen : (I ++ 46 :: F).length = I.length + 1 + F.length := by
    simp
    omega
  rw [hidx, hlen, if_pos (by omega)]
  have hf : I.length + 1 + F.length - I.length - 1 = F.length := by omega
  rw [hf]
  have hsplit : I ++ 46 :: F = (I ++ [46]) ++ F := by simp
  rw [hsplit]
  by_cases hz : ∀ ch ∈ F.drop c.m_numberOfDecimalPlaces, ch = 48
  · rw [if_pos hz, parseAmount_while_zeros _ F.length F (I ++ [46]) rfl hz]
    dsimp only
    rw [if_neg (by omega), Option.some_bind]
    dsimp only
    congr 1
    rw [List.append_assoc, List.eraseIdx_append_of_length_le (Nat.le_refl _)]
    simp
  · rw [if_neg hz]
    have hz2 : ∃ ch ∈ F.drop c.m_numberOfDecimalPlaces, ch ≠ 48 := by
      by_contra hc
      apply hz
      intro ch hch
      by_contra hne
      exact hc ⟨ch, hch, hne⟩
    rw [if_pos (parseAmount_while_nonzero _ F.length F (I ++ [46]) rfl hz2)]
    rfl

/-- The function `parseAmount` on a trimmed string without a point. -/
theorem parseAmount_no_point (c : Currency) (str : List Nat) (ht : 46 ∉ trim str) :
    parseAmount c str = parseAmount_tail c.m_numberOfDecimalPlaces (trim str) 0 := by
  rw [parseAmount_eq_tail, if_neg (by rw [not_not]; exact List.indexOf_eq_length.mpr ht),
    Option.some_bind]

theorem all_isdigit_iff (l : List Nat) :
    l.all isdigit = true ↔ ∀ ch ∈ l, isdigit ch = true := by
  simp [List.all_eq_true]

/-- When `parseAmount_tail` succeeds, and with which amount. -/
theorem parseAmount_tail_eq_some (dp : Nat) (A : List Nat) (f N : Nat) :
    parseAmount_tail dp A f = some N ↔
      A ≠ [] ∧ (∀ ch ∈ A, isdigit ch = true) ∧ decimalValue A * 10 ^ (dp - f) = N ∧
        N < 2 ^ 64 := by
  unfold parseAmount_tail
  have hval : decimalValue (A ++ List.replicate (dp - f) 48) = decimalValue A * 10 ^ (dp - f) := by
    rw [decimalValue_append, decimalValue_zeros, List.length_replicate, Nat.add_zero]
  by_cases hA : A = []
  · rw [if_pos hA]
    constructor
    · intro h; exact absurd h (by simp)
    · intro h; exact absurd hA h.1
  · rw [if_neg hA]
    by_cases hd : A.all isdigit = true
    · rw [if_neg (by rw [hd]; simp)]
      have hd2 := (all_isdigit_iff A).mp hd
      have hall : (A ++ List.replicate (dp - f) 48).all isdigit = true := by
        rw [all_isdigit_iff]
        intro ch hch
        rcases List.mem_append.mp hch with h | h
        · exact hd2 ch h
        · rw [(List.mem_replicate.mp h).2]; rfl
      have hne : A ++ List.replicate (dp - f) 48 ≠ [] := by
        intro h
        exact hA (List.append_eq_nil.mp h).1
      unfold fromString
      rw [hval]
      by_cases hlt : decimalValue A * 10 ^ (dp - f) < 2 ^ 64
      · rw [if_pos ⟨hne, hall, hlt⟩]
        constructor
        · intro h
          have h2 := Option.some.inj h
          exact ⟨hA, hd2, h2, h2 ▸ hlt⟩
        · intro h
          rw [h.2.2.1]
      · rw [if_neg (fun h => hlt h.2.2)]
        constructor
        · intro h; exact absurd h (by simp)
        · intro h; exact absurd (h.2.2.1 ▸ h.2.2.2) hlt
    · have hd3 : A.all isdigit = false := by
        cases h : A.all isdigit
        · rfl
        · exact absurd h hd
      rw [if_pos hd3]
      constructor
      · intro h; exact absurd h (by simp)
      · intro h; exact absurd ((all_isdigit_iff A).mpr h.2.1) hd

/-- The amount that `parseAmount` computes from `I.F` is the value of `I.F` times `10^dp`. -/
theorem decimalValue_point (dp : Nat) (I F : List Nat) (hz : ∀ ch ∈ F.drop dp, ch = 48) :
    decimalValue (I ++ F.take dp) * 10 ^ (dp - min F.length dp) * 10 ^ F.length =
      decimalValue (I ++ F) * 10 ^ dp := by
  have h1 : decimalValue (I ++ F) =
      decimalValue (I ++ F.take dp) * 10 ^ (F.length - dp) := by
    conv_lhs => rw [← List.take_append_drop dp F, ← List.append_assoc, decimalValue_append,
      decimalValue_all_zero _ hz, List.length_drop, Nat.add_zero]
  rw [h1, Nat.mul_assoc, Nat.mul_assoc, ← Nat.pow_add, ← Nat.pow_add]
  congr 2
  omega

/-- A string that holds a point splits at its first point. -/
theorem exists_first_point (l : List Nat) (h : 46 ∈ l) :
    ∃ I F, l = I ++ 46 :: F ∧ 46 ∉ I := by
  induction l with
  | nil => exact absurd h (List.not_mem_nil _)
  | cons a l ih =>
    by_cases ha : a = 46
    · exact ⟨[], l, by rw [ha]; rfl, List.not_mem_nil _⟩
    · rcases List.mem_cons.mp h with h1 | h1
      · exact absurd h1.symm ha
      · obtain ⟨I, F, h2, h3⟩ := ih h1
        refine ⟨a :: I, F, by rw [h2]; rfl, ?_⟩
        intro hm
        rcases List.mem_cons.mp hm with h4 | h4
        · exact ha h4.symm
        · exact h3 h4

/-- The first digit of the representation of a non-zero number is not `'0'`. -/
theorem to_string_aux_head (fuel : Nat) :
    ∀ n acc, n ≠ 0 → n < 10 ^ fuel → (to_string_aux fuel n acc).head? ≠ some 48 := by
  induction fuel with
  | zero =>
    intro n acc h0 h
    rw [pow_zero] at h
    omega
  | succ f ih =>
    intro n acc h0 h
    unfold to_string_aux
    by_cases h10 : n < 10
    · rw [if_pos h10, List.head?_cons]
      intro h48
      have := Option.some.inj h48
      omega
    · rw [if_neg h10]
      apply ih
      · omega
      · rw [pow_succ] at h
        exact Nat.div_lt_of_lt_mul (by rw [Nat.mul_comm]; exact h)

/-- The representation of a non-zero number does not start with `'0'`. -/
theorem to_string_head (n : Nat) (h0 : n ≠ 0) : (to_string n).head? ≠ some 48 :=
  to_string_aux_head (n + 1) n [] h0
    (lt_of_lt_of_le (Nat.lt_pow_self (by norm_num : 1 < 10) n)
      (Nat.pow_le_pow_right (by norm_num) (Nat.le_succ n)))

/-- The string of `formatAmount` splits at its point into the padded digits of the amount. -/
theorem formatAmount_split (c : Currency) (a : Nat) :
    ∃ I F, formatAmount c a = I ++ 46 :: F ∧
      I ++ F = List.replicate (c.m_numberOfDecimalPlaces + 1 - (to_string a).length) 48 ++
        to_string a ∧
      F.length = c.m_numberOfDecimalPlaces ∧ I ≠ [] := by
  have hpad : (if (to_string a).length < c.m_numberOfDecimalPlaces + 1 then
        List.replicate (c.m_numberOfDecimalPlaces + 1 - (to_string a).length) 48 ++ to_string a
      else to_string a) =
      List.replicate (c.m_numberOfDecimalPlaces + 1 - (to_string a).length) 48 ++
        to_string a := by
    split
    · rfl
    · rename_i h
      have h0 : c.m_numberOfDecimalPlaces + 1 - (to_string a).length = 0 := by omega
      rw [h0, List.replicate_zero, List.nil_append]
  have hlen : c.m_numberOfDecimalPlaces + 1 ≤
      (List.replicate (c.m_numberOfDecimalPlaces + 1 - (to_string a).length) 48 ++
        to_string a).length := by
    rw [List.length_append, List.length_replicate]
    omega
  unfold formatAmount
  dsimp only
  rw [hpad]
  generalize List.replicate (c.m_numberOfDecimalPlaces + 1 - (to_string a).length) 48 ++
    to_string a = s at hlen
  refine ⟨s.take (s.length - c.m_numberOfDecimalPlaces),
    s.drop (s.length - c.m_numberOfDecimalPlaces), rfl, List.take_append_drop _ _, ?_, ?_⟩
  · rw [List.length_drop]
    omega
  · intro h
    have := congrArg List.length h
    rw [List.length_take, List.length_nil] at this
    omega

/-- The padded digits of an amount hold only digits and have the value of the amount. -/
theorem padded_digits (k a : Nat) :
    (∀ ch ∈ List.replicate k 48 ++ to_string a, isdigit ch = true) ∧
      decimalValue (List.replicate k 48 ++ to_string a) = a := by
  obtain ⟨_, h2, h3⟩ := to_string_spec a
  constructor
  · intro ch hch
    rcases List.mem_append.mp hch with h | h
    · rw [(List.mem_replicate.mp h).2]; rfl
    · exact h2 ch h
  · rw [decimalValue_append, decimalValue_zeros, Nat.zero_mul, Nat.zero_add, h3]

/-- C18: for every amount `a`, `formatAmount(a)` is the decimal representation of `a` (a
non-empty string of digits of value `a`, without a leading `'0'` unless `a` is 0), left-padded
with `'0'` to at least `decimalPlaces + 1` digits, with a single `'.'` inserted so that exactly
`decimalPlaces` digits follow it and at least one digit precedes it; with 12 decimal places,
`formatAmount(1)` is "0.000000000001" and `formatAmount(1000000000000)` is
"1.000000000000". -/
theorem formatAmount_format (c : Currency) (a : Nat) :
    (to_string a ≠ [] ∧ (∀ ch ∈ to_string a, isdigit ch = true) ∧
      decimalValue (to_string a) = a ∧ (a ≠ 0 → (to_string a).head? ≠ some 48)) ∧
    (∃ I F, formatAmount c a = I ++ 46 :: F ∧
      I ++ F = List.replicate (c.m_numberOfDecimalPlaces + 1 - (to_string a).length) 48 ++
        to_string a ∧
      c.m_numberOfDecimalPlaces + 1 ≤ (I ++ F).length ∧
      F.length = c.m_numberOfDecimalPlaces ∧ I ≠ []) ∧
    formatAmount {} 1 = chars "0.000000000001" ∧
    formatAmount {} 1000000000000 = chars "1.000000000000" := by
  refine ⟨?_, ?_, by decide, by decide⟩
  · obtain ⟨h1, h2, h3⟩ := to_string_spec a
    exact ⟨h1, h2, h3, to_string_head a⟩
  · obtain ⟨I, F, h1, h2, h3, h4⟩ := formatAmount_split c a
    refine ⟨I, F, h1, h2, ?_, h3, h4⟩
    rw [h2, List.length_append, List.length_replicate]
    omega

theorem formatAmount_format_witness :
    (1 ≠ 0 → (to_string 1).head? ≠ some 48) ∧
      formatAmount {} 1 = chars "0.000000000001" ∧
      formatAmount {} 1000000000000 = chars "1.000000000000" :=
  ⟨(formatAmount_format {} 1).1.2.2.2, (formatAmount_format {} 1).2.2⟩

/-- C17: for every unsigned 64-bit amount `a`, `parseAmount(formatAmount(a))` succeeds and
returns `a`, for the configured 12 decimal places and for any other number of decimal
places. -/
theorem parseAmount_formatAmount (c : Currency) (a : Nat) (h : a < 2 ^ 64) :
    parseAmount c (formatAmount c a) = some a := by
  obtain ⟨I, F, h1, h2, h3, h4⟩ := formatAmount_split c a
  obtain ⟨hd, hv⟩ := padded_digits (c.m_numberOfDecimalPlaces + 1 - (to_string a).length) a
  rw [← h2] at hd hv
  have hI : ∀ ch ∈ I, isdigit ch = true := fun ch hch => hd ch (List.mem_append_left _ hch)
  have hF : ∀ ch ∈ F, isdigit ch = true := fun ch hch => hd ch (List.mem_append_right _ hch)
  have hsp : ∀ ch ∈ I ++ 46 :: F, isspace ch = false := by
    intro ch hch
    rcases List.mem_append.mp hch with hm | hm
    · exact not_isspace_of_isdigit ch (hI ch hm)
    · rcases List.mem_cons.mp hm with hm | hm
      · rw [hm]; rfl
      · exact not_isspace_of_isdigit ch (hF ch hm)
  have hnp : 46 ∉ I := fun hm => ne_point_of_isdigit 46 (hI 46 hm) rfl
  have hdrop : F.drop c.m_numberOfDecimalPlaces = [] := by
    rw [List.drop_eq_nil_iff]
    omega
  have htake : F.take c.m_numberOfDecimalPlaces = F := by
    rw [List.take_eq_self_iff]
    omega
  rw [parseAmount_point c (formatAmount c a) I F (by rw [h1]; exact trim_eq_self _ hsp) hnp,
    if_pos (by rw [hdrop]; intro ch hch; exact absurd hch (List.not_mem_nil _)), htake,
    parseAmount_tail_eq_some]
  refine ⟨fun hnil => h4 (List.append_eq_nil.mp hnil).1, hd, ?_, h⟩
  rw [hv, h3, Nat.min_self, Nat.sub_self, pow_zero, Nat.mul_one]

theorem parseAmount_formatAmount_witness :
    (1 < 2 ^ 64 ∧ parseAmount {} (formatAmount {} 1) = some 1) ∧
      (18446744073709551615 < 2 ^ 64 ∧
        parseAmount { m_numberOfDecimalPlaces := 0 }
          (formatAmount { m_numberOfDecimalPlaces := 0 } 18446744073709551615) =
          some 18446744073709551615) :=
  ⟨⟨by norm_num, parseAmount_formatAmount {} 1 (by norm_num)⟩,
    ⟨by norm_num,
      parseAmount_formatAmount { m_numberOfDecimalPlaces := 0 } 18446744073709551615
        (by norm_num)⟩⟩

/-- C19: with at least one decimal place (12 are configured), `parseAmount(s)` returns `N`
exactly when the whitespace-trimmed `s` has the form `I` or `I.F`, `I` and `F` being strings
of ASCII digits that are not both empty, every digit of `F` after the first `decimalPlaces`
ones is `'0'` (`F` without its trailing zeros has at most `decimalPlaces` digits), and
`N = value(I.F) · 10^decimalPlaces` is at most `2^64 - 1`; every other string is rejected.
`parseAmount("1.5")` is 1500000000000 and `parseAmount("0.0000000000001")` fails. -/
theorem parseAmount_eq_some_iff (c : Currency) (s : List Nat) (N : Nat)
    (hdp : 1 ≤ c.m_numberOfDecimalPlaces) :
    (parseAmount c s = some N ↔
      ∃ I F, (trim s = I ∧ F = [] ∨ trim s = I ++ 46 :: F) ∧
        (∀ ch ∈ I, isdigit ch = true) ∧ (∀ ch ∈ F, isdigit ch = true) ∧
        (I ≠ [] ∨ F ≠ []) ∧
        (∀ ch ∈ F.drop c.m_numberOfDecimalPlaces, ch = 48) ∧
        N * 10 ^ F.length = decimalValue (I ++ F) * 10 ^ c.m_numberOfDecimalPlaces ∧
        N < 2 ^ 64) ∧
    parseAmount {} (chars "1.5") = some 1500000000000 ∧
    parseAmount {} (chars "0.0000000000001") = none := by
  refine ⟨?_, by decide, by decide⟩
  constructor
  · intro h
    by_cases hp : 46 ∈ trim s
    · obtain ⟨I, F, ht, hI⟩ := exists_first_point (trim s) hp
      rw [parseAmount_point c s I F ht hI] at h
      by_cases hz : ∀ ch ∈ F.drop c.m_numberOfDecimalPlaces, ch = 48
      · rw [if_pos hz, parseAmount_tail_eq_some] at h
        obtain ⟨hne, hdig, hval, hlt⟩ := h
        refine ⟨I, F, Or.inr ht, fun ch hch => hdig ch (List.mem_append_left _ hch), ?_, ?_, hz,
          ?_, hlt⟩
        · intro ch hch
          rw [← List.take_append_drop c.m_numberOfDecimalPlaces F] at hch
          rcases List.mem_append.mp hch with hm | hm
          · exact hdig ch (List.mem_append_right _ hm)
          · rw [hz ch hm]; rfl
        · by_contra hc
          rw [not_or, not_not, not_not] at hc
          apply hne
          rw [hc.1, hc.2, List.take_nil, List.append_nil]
        · rw [← hval]
          exact decimalValue_point c.m_numberOfDecimalPlaces I F hz
      · rw [if_neg hz] at h
        exact absurd h (by simp)
    · rw [parseAmount_no_point c s hp, parseAmount_tail_eq_some] at h
      obtain ⟨hne, hdig, hval, hlt⟩ := h
      refine ⟨trim s, [], Or.inl ⟨rfl, rfl⟩, hdig,
        fun ch hch => absurd hch (List.not_mem_nil _), Or.inl hne,
        fun ch hch => absurd hch (by simp), ?_, hlt⟩
      rw [List.append_nil, List.length_nil, pow_zero, Nat.mul_one, ← hval, Nat.sub_zero]
  · rintro ⟨I, F, hform, hI, hF, hne, hz, hval, hlt⟩
    have hnp : 46 ∉ I := fun hm => ne_point_of_isdigit 46 (hI 46 hm) rfl
    rcases hform with ⟨ht, hFnil⟩ | ht
    · subst hFnil
      rw [parseAmount_no_point c s (by rw [ht]; exact hnp), parseAmount_tail_eq_some, ht]
      refine ⟨?_, hI, ?_, hlt⟩
      · rcases hne with h | h
        · exact h
        · exact absurd rfl h
      · rw [List.append_nil, List.length_nil, pow_zero, Nat.mul_one] at hval
        rw [Nat.sub_zero, hval]
    · rw [parseAmount_point c s I F ht hnp, if_pos hz, parseAmount_tail_eq_some]
      refine ⟨?_, ?_, ?_, hlt⟩
      · intro hnil
        obtain ⟨h1, h2⟩ := List.append_eq_nil.mp hnil
        rcases hne with h | h
        · exact h h1
        · rw [List.take_eq_nil_iff] at h2
          rcases h2 with h2 | h2
          · omega
          · exact h h2
      · intro ch hch
        rcases List.mem_append.mp hch with hm | hm
        · exact hI ch hm
        · exact hF ch (List.mem_of_mem_take hm)
      · have h1 := decimalValue_point c.m_numberOfDecimalPlaces I F hz
        rw [← hval] at h1
        exact Nat.eq_of_mul_eq_mul_right (Nat.pos_pow_of_pos _ (by norm_num)) h1

theorem parseAmount_eq_some_iff_witness :
    1 ≤ ({} : Currency).m_numberOfDecimalPlaces ∧
      parseAmount {} (chars "1.5") = some 1500000000000 ∧
      parseAmount {} (chars " 1.50 ") = some 1500000000000 :=
  ⟨by decide, by decide,
    (parseAmount_eq_some_iff {} (chars " 1.50 ") 1500000000000 (by decide)).1.mpr
      ⟨chars "1", chars "50", Or.inr (by decide), by decide, by decide, by decide, by decide,
        by decide, by norm_num⟩⟩

/-- Without decimal places the string ".0" is rejected: the loop erases the `'0'` and the
erasure of the point leaves the empty string. -/
theorem parseAmount_point_zero :
    parseAmount { m_numberOfDecimalPlaces := 0 } (chars ".0") = none := by
  decide

/-! ## The miner transaction -/

/-- One round of the loop of `constructMinerTx` on a vector that ends in `x, y`. -/
theorem constructMinerTx_while_step (init : List Nat) (x y : Nat) :
    ((init ++ [x, y]).set ((init ++ [x, y]).length - 2)
        (u64 ((init ++ [x, y]).getD ((init ++ [x, y]).length - 2) 0 +
          (init ++ [x, y]).getLastD 0))).take
      (((init ++ [x, y]).set ((init ++ [x, y]).length - 2)
        (u64 ((init ++ [x, y]).getD ((init ++ [x, y]).length - 2) 0 +
          (init ++ [x, y]).getLastD 0))).length - 1) = init ++ [u64 (x + y)] := by
  have hlen : (init ++ [x, y]).length - 2 = init.length := by simp
  have hget : (init ++ [x, y]).getD init.length 0 = x := by
    rw [List.getD_append_right _ _ _ _ (Nat.le_refl _), Nat.sub_self]
    rfl
  have hlast : (init ++ [x, y]).getLastD 0 = y := by
    rw [show init ++ [x, y] = (init ++ [x]) ++ [y] by simp, List.getLastD_concat]
  rw [hlen, hget, hlast, List.length_set, List.set_append_right _ _ (Nat.le_refl _), Nat.sub_self]
  have : (init ++ [x, y]).length - 1 = init.length + 1 := by simp
  rw [this, List.take_append_eq_append_take]
  simp

/-- The loop of `constructMinerTx` adds up everything that follows the first `maxOuts - 1`
amounts. -/
theorem constructMinerTx_while_eq (maxOuts : Nat) :
    ∀ (fuel : Nat) (P T : List Nat), P.length + 1 = maxOuts → T ≠ [] → T.length ≤ fuel + 1 →
      (P ++ T).sum < 2 ^ 64 →
      constructMinerTx_while maxOuts fuel (P ++ T) = P ++ [T.sum] := by
  intro fuel
  induction fuel with
  | zero =>
    intro P T hP hT hfuel hsum
    unfold constructMinerTx_while
    match T, hT, hfuel with
    | [t], _, _ => simp
  | succ f ih =>
    intro P T hP hT hfuel hsum
    unfold constructMinerTx_while
    rcases List.eq_nil_or_concat' T with h | ⟨T1, y, rfl⟩
    · exact absurd h hT
    · rcases List.eq_nil_or_concat' T1 with h | ⟨T2, x, rfl⟩
      · subst h
        rw [if_neg (by simp; omega)]
        simp
      · have hcond : maxOuts < (P ++ ((T2 ++ [x]) ++ [y])).length := by
          simp
          omega
        rw [if_pos hcond]
        dsimp only
        have hform : P ++ ((T2 ++ [x]) ++ [y]) = (P ++ T2) ++ [x, y] := by simp
        rw [hform, constructMinerTx_while_step]
        have hxy : x + y < 2 ^ 64 := by
          rw [hform] at hsum
          simp at hsum
          omega
        rw [show u64 (x + y) = x + y from Nat.mod_eq_of_lt hxy, List.append_assoc]
        rw [ih P (T2 ++ [x + y]) hP (by simp) (by simp at hfuel ⊢; omega)
          (by rw [hform] at hsum; simp at hsum ⊢; omega)]
        simp

/-- The loop of `constructMinerTx` over the amounts: the outputs carry the amounts, in their
order, and the sum is the 64-bit sum. -/
theorem constructMinerTx_for_eq (k : KeyCollaborators) (minerAddress : AccountPublicAddress)
    (txkey : KeyPair) (l : List Nat) :
    ∀ (no summaryAmounts : Nat) (outputs : List TransactionOutput)
      (o : List TransactionOutput × Nat), summaryAmounts < 2 ^ 64 →
      constructMinerTx_for k minerAddress txkey l no summaryAmounts outputs = some o →
      o.1.map (·.amount) = outputs.map (·.amount) ++ l ∧
        o.2 = (summaryAmounts + l.sum) % 2 ^ 64 := by
  induction l with
  | nil =>
    intro no s outputs o hs h
    unfold constructMinerTx_for at h
    have := Option.some.inj h
    subst this
    simp
    exact (Nat.mod_eq_of_lt hs).symm
  | cons a l ih =>
    intro no s outputs o hs h
    unfold constructMinerTx_for at h
    cases hd : k.generate_key_derivation minerAddress.viewPublicKey txkey.secretKey with
    | none => rw [hd] at h; exact absurd h (by simp)
    | some derivation =>
      rw [hd, Option.some_bind] at h
      cases hk : k.derive_public_key derivation no minerAddress.spendPublicKey with
      | none => rw [hk] at h; exact absurd h (by simp)
      | some key =>
        rw [hk, Option.some_bind] at h
        obtain ⟨h1, h2⟩ := ih _ _ _ o (Nat.mod_lt _ (by norm_num)) h
        constructor
        · rw [h1]
          simp
        · rw [h2, List.sum_cons]
          rw [Nat.mod_add_mod, Nat.add_assoc]

/-- The loop of `constructMinerTx` leaves a vector of at most `maxOuts` amounts as it is. -/
theorem constructMinerTx_while_of_le (maxOuts fuel : Nat) (d : List Nat)
    (h : d.length ≤ maxOuts) : constructMinerTx_while maxOuts fuel d = d := by
  cases fuel with
  | zero => rfl
  | succ f =>
    unfold constructMinerTx_while
    rw [if_neg (by omega)]

/-- The amounts after the loop of `constructMinerTx`: the first `min n maxOuts - 1` amounts
followed by the sum of the others. -/
theorem constructMinerTx_while_collapse (maxOuts : Nat) (hm : 1 ≤ maxOuts) (d : List Nat)
    (hd : d ≠ []) (hsum : d.sum < 2 ^ 64) :
    constructMinerTx_while maxOuts d.length d =
      d.take (min d.length maxOuts - 1) ++ [(d.drop (min d.length maxOuts - 1)).sum] := by
  have hpos : 0 < d.length := List.length_pos.mpr hd
  by_cases hle : d.length ≤ maxOuts
  · rw [constructMinerTx_while_of_le _ _ _ hle, Nat.min_eq_left hle]
    rcases List.eq_nil_or_concat' d with h | ⟨L, b, rfl⟩
    · exact absurd h hd
    · have h1 : (L ++ [b]).length - 1 = L.length := by simp
      rw [h1, List.take_left, List.drop_left]
      simp
  · have hmin : min d.length maxOuts = maxOuts := Nat.min_eq_right (by omega)
    rw [hmin]
    conv_lhs => rw [← List.take_append_drop (maxOuts - 1) d]
    apply constructMinerTx_while_eq maxOuts
    · rw [List.length_take]
      omega
    · intro h
      have := congrArg List.length h
      rw [List.length_drop, List.length_nil] at this
      omega
    · rw [List.length_drop, List.take_append_drop]
      omega
    · rw [List.take_append_drop]
      exact hsum

/-- The reward of `getBlockReward` is a 64-bit amount. -/
theorem getBlockReward_reward_lt (blockMajorVersion medianSize currentBlockSize
    alreadyGeneratedCoins fee diff : Nat) (r : Nat × Int)
    (h : getBlockReward blockMajorVersion medianSize currentBlockSize alreadyGeneratedCoins fee
      diff = some r) : r.1 < 2 ^ 64 := by
  unfold getBlockReward at h
  dsimp only at h
  split at h
  · exact absurd h (by simp)
  · have := Option.some.inj h
    rw [← this]
    exact Nat.mod_lt _ (by norm_num)

/-- C20: whenever `constructMinerTx` succeeds, `maxOuts` is at least 1, `getBlockReward` has
returned a reward, and the output amounts of the transaction are the decomposition of that
reward collapsed to at most `maxOuts` entries: with `n` the length of
`decomposeAmount(reward, dustThreshold)` there are `min(n, maxOuts)` outputs, all but the last
equal the corresponding decomposed amounts, the last equals the sum of the remaining
decomposed amounts, and the sum of all output amounts equals the reward. -/
theorem constructMinerTx_outputs (k : KeyCollaborators) (c : Currency) (blockMajorVersion height
    medianSize alreadyGeneratedCoins currentBlockSize fee : Nat)
    (minerAddress : AccountPublicAddress) (extraNonce : List Nat) (maxOuts diff : Nat)
    (tx : Transaction)
    (h : constructMinerTx k c blockMajorVersion height medianSize alreadyGeneratedCoins
      currentBlockSize fee minerAddress extraNonce maxOuts diff = some tx) :
    1 ≤ maxOuts ∧
    ∃ reward emissionChange,
      getBlockReward blockMajorVersion medianSize currentBlockSize alreadyGeneratedCoins fee
        diff = some (reward, emissionChange) ∧
      tx.outputs.length = min (decomposeAmount reward c.m_defaultDustThreshold).length maxOuts ∧
      (tx.outputs.map (·.amount)).take
          (min (decomposeAmount reward c.m_defaultDustThreshold).length maxOuts - 1) =
        (decomposeAmount reward c.m_defaultDustThreshold).take
          (min (decomposeAmount reward c.m_defaultDustThreshold).length maxOuts - 1) ∧
      (decomposeAmount reward c.m_defaultDustThreshold ≠ [] →
        (tx.outputs.map (·.amount)).getLast? =
          some ((decomposeAmount reward c.m_defaultDustThreshold).drop
            (min (decomposeAmount reward c.m_defaultDustThreshold).length maxOuts - 1)).sum) ∧
      (tx.outputs.map (·.amount)).sum = reward := by
  unfold constructMinerTx at h
  dsimp only at h
  cases hextra : (if extraNonce ≠ [] then
      k.addExtraNonceToTransactionExtra
        (k.addTransactionPublicKeyToExtra [] k.generateKeyPair.publicKey) extraNonce
      else some (k.addTransactionPublicKeyToExtra [] k.generateKeyPair.publicKey)) with
  | none => rw [hextra] at h; exact absurd h (by simp)
  | some extra =>
    rw [hextra, Option.some_bind] at h
    cases hr : getBlockReward blockMajorVersion medianSize currentBlockSize
        alreadyGeneratedCoins fee diff with
    | none => rw [hr] at h; exact absurd h (by simp)
    | some r =>
      rw [hr, Option.some_bind] at h
      have hlt : r.1 < 2 ^ 64 := getBlockReward_reward_lt _ _ _ _ _ _ r hr
      have hsum : (decomposeAmount r.1 c.m_defaultDustThreshold).sum = r.1 := by
        unfold decomposeAmount
        rw [sum_decomposeFrom, sum_digitChunks r.1 hlt, Nat.zero_add]
      by_cases hm : 1 ≤ maxOuts
      · rw [if_neg (not_not.mpr hm)] at h
        generalize hd : decomposeAmount r.1 c.m_defaultDustThreshold = d at h hsum
        cases hfor : constructMinerTx_for k minerAddress k.generateKeyPair
            (constructMinerTx_while maxOuts d.length d) 0 0 [] with
        | none => rw [hfor] at h; exact absurd h (by simp)
        | some o =>
          rw [hfor, Option.some_bind] at h
          obtain ⟨ho1, ho2⟩ := constructMinerTx_for_eq k minerAddress k.generateKeyPair _ 0 0 []
            o (by norm_num) hfor
          split at h
          · exact absurd h (by simp)
          · have htx := Option.some.inj h
            have hout : tx.outputs = o.1 := by rw [← htx]
            rw [List.map_nil, List.nil_append] at ho1
            refine ⟨hm, r.1, r.2, rfl, ?_⟩
            rw [hd, hout]
            by_cases hnil : d = []
            · subst hnil
              have hw : constructMinerTx_while maxOuts ([] : List Nat).length [] = [] :=
                constructMinerTx_while_of_le _ _ _ (Nat.zero_le _)
              rw [hw] at ho1
              have ho : o.1 = [] := List.map_eq_nil_iff.mp ho1
              rw [ho]
              refine ⟨by simp, by simp, fun hne => absurd rfl hne, ?_⟩
              rw [← hsum]
              rfl
            · rw [constructMinerTx_while_collapse maxOuts hm d hnil (by rw [hsum]; exact hlt)]
                at ho1
              have hpos : 0 < d.length := List.length_pos.mpr hnil
              have hlen : (d.take (min d.length maxOuts - 1)).length =
                  min d.length maxOuts - 1 := by
                rw [List.length_take]
                omega
              refine ⟨?_, ?_, ?_, ?_⟩
              · have := congrArg List.length ho1
                rw [List.length_map, List.length_append, hlen, List.length_singleton] at this
                omega
              · rw [ho1, List.take_left' hlen]
              · intro _
                rw [ho1, List.getLast?_append, List.getLast?_singleton]
                rfl
              · rw [ho1, List.sum_append, List.sum_singleton, ← List.sum_append,
                  List.take_append_drop, hsum]
      · rw [if_pos hm] at h
        exact absurd h (by simp)

theorem constructMinerTx_outputs_witness :
    constructMinerTx exampleKeys {} 4 100 0 0 0 123456789 {} [] 3 1000 = some exampleMinerTx ∧
      1 ≤ 3 ∧
      getBlockReward 4 0 0 0 123456789 1000 = some (10957618924821, 10957495468032) ∧
      decomposeAmount 10957618924821 ({} : Currency).m_defaultDustThreshold =
        [924821, 8000000, 10000000, 600000000, 7000000000, 50000000000, 900000000000,
          10000000000000] ∧
      exampleMinerTx.outputs.map (·.amount) = [924821, 8000000, 10957610000000] :=
  ⟨by decide,
    (constructMinerTx_outputs exampleKeys {} 4 100 0 0 0 123456789 {} [] 3 1000 exampleMinerTx
      (by decide)).1,
    by decide, by decide, by decide⟩

/-! ## Genesis block, initialisation and configuration -/

/-- C21: when the hard-coded coinbase blob decodes to `tx`, `generateGenesisBlock` succeeds and
leaves a block template with majorVersion 1, minorVersion 0, timestamp 0, the base
transaction `tx`, an empty parent block, and the nonce 10000 on mainnet and 10001 on
testnet; a second construction with the same testnet flag gives the identical template, and
a construction with the other flag gives a template that differs in the nonce only. -/
theorem generateGenesisBlock_template (ext : Collaborators) (c : Currency) (tx : Transaction)
    (h : (ext.fromHex GENESIS_COINBASE_TX_HEX).bind ext.fromBinaryArray = some tx) :
    ∃ g, c.generateGenesisBlock ext = some g ∧
      g.genesisBlockTemplate.majorVersion = 1 ∧
      g.genesisBlockTemplate.minorVersion = 0 ∧
      g.genesisBlockTemplate.timestamp = 0 ∧
      g.genesisBlockTemplate.baseTransaction = tx ∧
      g.genesisBlockTemplate.parentBlock = {} ∧
      g.genesisBlockTemplate.nonce = (if c.m_testnet = true then 10001 else 10000) ∧
      g.cachedGenesisBlock = ext.cachedBlock g.genesisBlockTemplate ∧
      ∀ c2 : Currency, ∃ g2, c2.generateGenesisBlock ext = some g2 ∧
        (c2.m_testnet = c.m_testnet → g2.genesisBlockTemplate = g.genesisBlockTemplate) ∧
        { g2.genesisBlockTemplate with nonce := g.genesisBlockTemplate.nonce } =
          g.genesisBlockTemplate := by
  have key : ∀ c : Currency, c.generateGenesisBlock ext =
      some { c with
        genesisBlockTemplate :=
          { majorVersion := 1, minorVersion := 0, timestamp := 0,
            nonce := if c.m_testnet = true then 10001 else 10000, baseTransaction := tx }
        cachedGenesisBlock := ext.cachedBlock
          { majorVersion := 1, minorVersion := 0, timestamp := 0,
            nonce := if c.m_testnet = true then 10001 else 10000, baseTransaction := tx } } := by
    intro c
    unfold Currency.generateGenesisBlock
    dsimp only
    rw [h]
    cases c.m_testnet <;> rfl
  refine ⟨_, key c, rfl, rfl, rfl, rfl, rfl, rfl, rfl, ?_⟩
  intro c2
  refine ⟨_, key c2, ?_, rfl⟩
  intro h2
  rw [h2]

theorem generateGenesisBlock_template_witness :
    (exampleCollaborators.fromHex GENESIS_COINBASE_TX_HEX).bind
        exampleCollaborators.fromBinaryArray = some {} ∧
      (∃ g, Currency.generateGenesisBlock exampleCollaborators {} = some g ∧
        g.genesisBlockTemplate.nonce = 10000) ∧
      ∃ g, Currency.generateGenesisBlock exampleCollaborators { m_testnet := true } = some g ∧
        g.genesisBlockTemplate.nonce = 10001 :=
  ⟨rfl,
    (generateGenesisBlock_template exampleCollaborators {} {} rfl).imp
      fun g hg => ⟨hg.1, hg.2.2.2.2.2.2.1⟩,
    (generateGenesisBlock_template exampleCollaborators { m_testnet := true } {} rfl).imp
      fun g hg => ⟨hg.1, hg.2.2.2.2.2.2.1⟩⟩

/-- C22: the validating setters of the builder throw `invalid_argument` exactly on the values
out of range and otherwise store the value, leaving every other field of the currency as
it is: `emissionSpeedFactor(v)` throws iff `v = 0` or `v > 64`, `upgradeVotingThreshold(v)`
iff `v = 0` or `v > 100`, `difficultyWindow(v)` iff `v < 2` and `upgradeWindow(v)` iff
`v = 0`. -/
theorem CurrencyBuilder_setters (b : CurrencyBuilder) (v : Nat) :
    (b.emissionSpeedFactor v =
      if v = 0 ∨ 64 < v then Except.error "val at emissionSpeedFactor()"
      else Except.ok ⟨{ b.m_currency with m_emissionSpeedFactor := v }⟩) ∧
    (b.upgradeVotingThreshold v =
      if v = 0 ∨ 100 < v then Except.error "val at upgradeVotingThreshold()"
      else Except.ok ⟨{ b.m_currency with m_upgradeVotingThreshold := v }⟩) ∧
    (b.difficultyWindow v =
      if v < 2 then Except.error "val at difficultyWindow()"
      else Except.ok ⟨{ b.m_currency with m_difficultyWindow := v }⟩) ∧
    (b.upgradeWindow v =
      if v = 0 then Except.error "val at upgradeWindow()"
      else Except.ok ⟨{ b.m_currency with m_upgradeWindow := v }⟩) := by
  unfold CurrencyBuilder.emissionSpeedFactor CurrencyBuilder.upgradeVotingThreshold
    CurrencyBuilder.difficultyWindow CurrencyBuilder.upgradeWindow
  refine ⟨?_, ?_, ?_, ?_⟩
  · by_cases h : v = 0 ∨ 64 < v
    · rw [if_pos h, if_pos (by omega)]
    · rw [if_neg h, if_neg (by omega)]
  · by_cases h : v = 0 ∨ 100 < v
    · rw [if_pos h, if_pos (by omega)]
    · rw [if_neg h, if_neg (by omega)]
  · rfl
  · by_cases h : v = 0
    · rw [if_pos h, if_pos (by omega)]
    · rw [if_neg h, if_neg (by omega)]

/-- C23: `init` succeeds exactly when the genesis block is generated; after a successful
`init` of a testnet currency the upgrade heights V2, V3 and V4 are the testnet upgrade
heights, the difficulty target is the testnet target and the names of the blocks, block
indexes and pool files are the configured names prefixed with "testnet_"; without the
testnet flag all of these fields are unchanged. The flag and the testnet fields themselves
are unchanged in both cases. -/
theorem init_testnet_fields (ext : Collaborators) (c r : Currency)
    (h : c.init ext = some r) :
    (c.generateGenesisBlock ext).isSome = true ∧
    r.m_testnet = c.m_testnet ∧
    r.m_testnetUpgradeHeightV2 = c.m_testnetUpgradeHeightV2 ∧
    r.m_testnetUpgradeHeightV3 = c.m_testnetUpgradeHeightV3 ∧
    r.m_testnetUpgradeHeightV4 = c.m_testnetUpgradeHeightV4 ∧
    r.m_testnet_DifficultyTarget = c.m_testnet_DifficultyTarget ∧
    (c.m_testnet = true →
      r.m_upgradeHeightV2 = c.m_testnetUpgradeHeightV2 ∧
      r.m_upgradeHeightV3 = c.m_testnetUpgradeHeightV3 ∧
      r.m_upgradeHeightV4 = c.m_testnetUpgradeHeightV4 ∧
      r.m_difficultyTarget = c.m_testnet_DifficultyTarget ∧
      r.m_blocksFileName = "testnet_" ++ c.m_blocksFileName ∧
      r.m_blockIndexesFileName = "testnet_" ++ c.m_blockIndexesFileName ∧
      r.m_txPoolFileName = "testnet_" ++ c.m_txPoolFileName) ∧
    (c.m_testnet = false →
      r.m_upgradeHeightV2 = c.m_upgradeHeightV2 ∧
      r.m_upgradeHeightV3 = c.m_upgradeHeightV3 ∧
      r.m_upgradeHeightV4 = c.m_upgradeHeightV4 ∧
      r.m_difficultyTarget = c.m_difficultyTarget ∧
      r.m_blocksFileName = c.m_blocksFileName ∧
      r.m_blockIndexesFileName = c.m_blockIndexesFileName ∧
      r.m_txPoolFileName = c.m_txPoolFileName) := by
  unfold Currency.init at h
  unfold Currency.generateGenesisBlock at h ⊢
  dsimp only at h ⊢
  cases hd : (ext.fromHex GENESIS_COINBASE_TX_HEX).bind ext.fromBinaryArray with
  | none =>
    rw [hd] at h
    exact absurd h (by simp)
  | some tx =>
    rw [hd] at h
    dsimp only at h
    cases ht : c.m_testnet with
    | false =>
      rw [ht] at h
      have hr := Option.some.inj h
      subst hr
      simp [ht]
    | true =>
      rw [ht] at h
      have hr := Option.some.inj h
      subst hr
      simp [ht]

theorem init_testnet_fields_witness :
    ∃ r, Currency.init exampleCollaborators { m_testnet := true } = some r ∧
      r.m_upgradeHeightV2 = 2 ∧ r.m_upgradeHeightV3 = 5 ∧ r.m_upgradeHeightV4 = 10 ∧
      r.m_difficultyTarget = 15 ∧ r.m_blocksFileName = "testnet_blocks.dat" ∧
      r.m_blockIndexesFileName = "testnet_blockindexes.dat" ∧
      r.m_txPoolFileName = "testnet_poolstate.dat" :=
  ⟨_, rfl,
    ((init_testnet_fields exampleCollaborators { m_testnet := true } _ rfl).2.2.2.2.2.2.1
      rfl).1,
    by decide, by decide, by decide, by decide, by decide, by decide⟩

/-- C24: for every string, `Currency::parseAccountAddressString` returns an address exactly
when the address decoding of the string succeeds with the address prefix of the
configuration, and the address it returns is the decoded one; the prefix of the default
configuration is 6699. -/
theorem parseAccountAddressString_iff (a : AddressCollaborators) (c : Currency)
    (str : List Nat) (addr : AccountPublicAddress) :
    (parseAccountAddressString a c str = some addr ↔
      a.parseAccountAddressString str = some (c.m_publicAddressBase58Prefix, addr)) ∧
    ((parseAccountAddressString a c str).isSome = true ↔
      ∃ r, a.parseAccountAddressString str = some r ∧ r.1 = c.m_publicAddressBase58Prefix) ∧
    ({} : Currency).m_publicAddressBase58Prefix = 6699 := by
  unfold parseAccountAddressString
  refine ⟨?_, ?_, rfl⟩
  · cases hd : a.parseAccountAddressString str with
    | none => simp
    | some r =>
      dsimp only
      by_cases hp : r.1 = c.m_publicAddressBase58Prefix
      · rw [if_neg (not_not.mpr hp)]
        constructor
        · intro h
          rw [← hp, ← Option.some.inj h]
        · intro h
          rw [Option.some.inj h]
      · rw [if_pos hp]
        constructor
        · intro h
          exact absurd h (by simp)
        · intro h
          exact absurd (congrArg Prod.fst (Option.some.inj h)) hp
  · cases hd : a.parseAccountAddressString str with
    | none => simp
    | some r =>
      dsimp only
      by_cases hp : r.1 = c.m_publicAddressBase58Prefix
      · rw [if_neg (not_not.mpr hp)]
        simp [hp]
      · rw [if_pos hp]
        simp [hp]

theorem parseAccountAddressString_iff_witness :
    parseAccountAddressString exampleAddresses {} [6699, 1, 2] =
        some { spendPublicKey := [1, 2] } ∧
      parseAccountAddressString exampleAddresses {} [6698, 1, 2] = none ∧
      parseAccountAddressString exampleAddresses {} [] = none :=
  ⟨(parseAccountAddressString_iff exampleAddresses {} [6699, 1, 2]
      { spendPublicKey := [1, 2] }).1.mpr rfl,
    by decide, by decide⟩

/-- C25 (amended): for every configuration, `upgradeHeight(1)` is `2^32 - 1`, the value of
`static_cast<uint32_t>(-1)` that `upgradeHeight` returns for every major version other than
2, 3 and 4; for these three it returns the configured upgrade heights. -/
theorem upgradeHeight_values (c : Currency) (majorVersion : Nat) :
    upgradeHeight c 1 = 2 ^ 32 - 1 ∧
    upgradeHeight c 2 = c.m_upgradeHeightV2 ∧
    upgradeHeight c 3 = c.m_upgradeHeightV3 ∧
    upgradeHeight c 4 = c.m_upgradeHeightV4 ∧
    (majorVersion ≠ 2 → majorVersion ≠ 3 → majorVersion ≠ 4 →
      upgradeHeight c majorVersion = 2 ^ 32 - 1) := by
  refine ⟨rfl, rfl, rfl, rfl, ?_⟩
  intro h2 h3 h4
  unfold upgradeHeight BLOCK_MAJOR_VERSION_2 BLOCK_MAJOR_VERSION_3 BLOCK_MAJOR_VERSION_4
  rw [if_neg h4, if_neg h3, if_neg h2]

theorem upgradeHeight_values_witness :
    upgradeHeight {} 1 = 2 ^ 32 - 1 ∧ upgradeHeight {} 0 = 2 ^ 32 - 1 ∧
      upgradeHeight {} 5 = 2 ^ 32 - 1 :=
  ⟨(upgradeHeight_values {} 0).1,
    (upgradeHeight_values {} 0).2.2.2.2 (by decide) (by decide) (by decide),
    (upgradeHeight_values {} 5).2.2.2.2 (by decide) (by decide) (by decide)⟩

/-- C25, counterexample: in the default configuration, and in every other, `upgradeHeight(1)`
is 4294967295 and not 0, so that the rule that a block of major version `v` is only valid at
a height of at least `upgradeHeight(v)` would admit no block of version 1 below that
height. -/
theorem upgradeHeight_one_ne_zero :
    upgradeHeight {} 1 = 4294967295 ∧ upgradeHeight {} 1 ≠ 0 ∧
      ¬ (0 ≥ upgradeHeight {} 1) := by
  decide

/-! ## The fixed-point logarithm -/

/-- The `while` loop of `log2_fix` on an `x` of at least `2^20`: it halves `x` some `k` times,
into `[2^20, 2^21)`, and adds `k · 2^20` to `y`. -/
theorem log2_fix_while_eq (fuel : Nat) :
    ∀ x y : Nat, 2 ^ 20 ≤ x → x < 2 ^ (21 + fuel) → y + fuel * 2 ^ 20 < 2 ^ 64 →
      ∃ k, log2_fix_while fuel x y = (x / 2 ^ k, y + k * 2 ^ 20) ∧
        2 ^ 20 ≤ x / 2 ^ k ∧ x / 2 ^ k < 2 ^ 21 := by
  have h21 : u64 (2 <<< log_fix_precision) = 2 ^ 21 := by decide
  have h20 : u64 (1 <<< log_fix_precision) = 2 ^ 20 := by decide
  induction fuel with
  | zero =>
    intro x y hx1 hx2 hy
    exact ⟨0, by simp [log2_fix_while], by simpa using hx1, by simpa using hx2⟩
  | succ f ih =>
    intro x y hx1 hx2 hy
    unfold log2_fix_while
    rw [h21, h20]
    by_cases hx : x ≥ 2 ^ 21
    · rw [if_pos hx]
      have hy2 : u64 (y + 2 ^ 20) = y + 2 ^ 20 := by
        unfold u64
        apply Nat.mod_eq_of_lt
        have : (f + 1) * 2 ^ 20 = f * 2 ^ 20 + 2 ^ 20 := by ring
        omega
      rw [hy2, Nat.shiftRight_eq_div_pow, pow_one]
      have hp : 2 ^ (21 + (f + 1)) = 2 ^ (21 + f) * 2 := by
        rw [← Nat.add_assoc, Nat.pow_succ]
      obtain ⟨k, hk1, hk2, hk3⟩ := ih (x / 2) (y + 2 ^ 20) (by omega) (by omega)
        (by
          have : (f + 1) * 2 ^ 20 = f * 2 ^ 20 + 2 ^ 20 := by ring
          omega)
      have hdiv : x / 2 / 2 ^ k = x / 2 ^ (k + 1) := by
        rw [Nat.div_div_eq_div_mul, ← @Nat.pow_succ' 2 k]
      rw [hdiv] at hk1 hk2 hk3
      refine ⟨k + 1, ?_, hk2, hk3⟩
      rw [hk1, Prod.mk.injEq]
      refine ⟨rfl, ?_⟩
      rw [Nat.add_mul, Nat.one_mul]
      omega
    · rw [if_neg hx]
      exact ⟨0, by simp, by simpa using hx1, by simpa using (not_le.mp hx)⟩

/-- The `for` loop of `log2_fix` with `n` rounds left, on a `z` in `[2^20, 2^21)` and the bit
`b = 2^n / 2`: if `2^y · (z / 2^20)^(2^n) ≤ D` then the result `r` has `2^r ≤ D`, and it lies
in `[y, y + 2^n)`. -/
theorem log2_fix_for_le (n : Nat) :
    ∀ z y D : Nat, 2 ^ 20 ≤ z → z < 2 ^ 21 → y + 2 ^ n ≤ 2 ^ 64 →
      2 ^ y * z ^ 2 ^ n ≤ D * 2 ^ (20 * 2 ^ n) →
      2 ^ log2_fix_for n z y (2 ^ n / 2) ≤ D ∧ y ≤ log2_fix_for n z y (2 ^ n / 2) ∧
        log2_fix_for n z y (2 ^ n / 2) < y + 2 ^ n := by
  have h21 : u64 (2 <<< log_fix_precision) = 2 ^ 21 := by decide
  induction n with
  | zero =>
    intro z y D hz1 hz2 hy hD
    unfold log2_fix_for
    refine ⟨?_, le_refl _, by omega⟩
    rw [pow_zero, pow_one, Nat.mul_one] at hD
    have h1 : 2 ^ y * 2 ^ 20 ≤ D * 2 ^ 20 :=
      le_trans (Nat.mul_le_mul_left _ hz1) hD
    exact Nat.le_of_mul_le_mul_right h1 (by norm_num)
  | succ n ih =>
    intro z y D hz1 hz2 hy hD
    unfold log2_fix_for
    have hzz : z * z < 2 ^ 42 := by nlinarith
    have hzz2 : 2 ^ 40 ≤ z * z := by nlinarith
    have hz1eq : u64 (z * z) >>> log_fix_precision = z * z / 2 ^ 20 := by
      unfold u64 log_fix_precision
      rw [Nat.shiftRight_eq_div_pow, Nat.mod_eq_of_lt (by omega)]
    have hb : 2 ^ (n + 1) / 2 = 2 ^ n := by
      rw [pow_succ, Nat.mul_div_cancel _ (by norm_num : 0 < 2)]
    have hb2 : (2 ^ n) >>> 1 = 2 ^ n / 2 := by
      rw [Nat.shiftRight_eq_div_pow, pow_one]
    have hpow : 2 ^ (n + 1) = 2 ^ n + 2 ^ n := by
      rw [pow_succ]; omega
    have hy3 : y + 2 ^ n + 2 ^ n ≤ 2 ^ 64 := by
      rw [Nat.add_assoc, ← hpow]
      exact hy
    have hpos : 0 < 2 ^ n := Nat.pos_pow_of_pos _ (by norm_num)
    have hy4 : y + 2 ^ n ≤ 2 ^ 64 := le_trans (Nat.le_add_right _ _) hy3
    have hy5 : y + 2 ^ n < 2 ^ 64 := lt_of_lt_of_le (Nat.lt_add_of_pos_right hpos) hy3
    dsimp only
    rw [hz1eq, h21, hb, hb2]
    -- the square, as a lower bound
    have hsq : (z * z / 2 ^ 20) * 2 ^ 20 ≤ z * z := Nat.div_mul_le_self _ _
    have hD2 : 2 ^ y * (z * z / 2 ^ 20) ^ 2 ^ n * 2 ^ (20 * 2 ^ n) ≤
        D * 2 ^ (20 * 2 ^ n) * 2 ^ (20 * 2 ^ n) := by
      calc 2 ^ y * (z * z / 2 ^ 20) ^ 2 ^ n * 2 ^ (20 * 2 ^ n)
          = 2 ^ y * ((z * z / 2 ^ 20) * 2 ^ 20) ^ 2 ^ n := by
            rw [Nat.mul_pow, ← pow_mul, Nat.mul_assoc]
        _ ≤ 2 ^ y * (z * z) ^ 2 ^ n :=
            Nat.mul_le_mul_left _ (Nat.pow_le_pow_left hsq _)
        _ = 2 ^ y * z ^ 2 ^ (n + 1) := by
            rw [← pow_two, ← pow_mul, pow_succ, Nat.mul_comm 2 (2 ^ n)]
        _ ≤ D * 2 ^ (20 * 2 ^ (n + 1)) := hD
        _ = D * 2 ^ (20 * 2 ^ n) * 2 ^ (20 * 2 ^ n) := by
            rw [Nat.mul_assoc, ← pow_add, hpow, Nat.mul_add]
    have hD3 : 2 ^ y * (z * z / 2 ^ 20) ^ 2 ^ n ≤ D * 2 ^ (20 * 2 ^ n) :=
      Nat.le_of_mul_le_mul_right hD2 (Nat.pos_pow_of_pos _ (by norm_num))
    by_cases hge : z * z / 2 ^ 20 ≥ 2 ^ 21
    · rw [if_pos hge]
      have hy2 : u64 (y + 2 ^ n) = y + 2 ^ n := Nat.mod_eq_of_lt hy5
      rw [hy2, Nat.shiftRight_eq_div_pow, pow_one]
      have hhalf : (z * z / 2 ^ 20 / 2) * 2 ≤ z * z / 2 ^ 20 := Nat.div_mul_le_self _ _
      have hD4 : 2 ^ (y + 2 ^ n) * (z * z / 2 ^ 20 / 2) ^ 2 ^ n ≤ D * 2 ^ (20 * 2 ^ n) := by
        calc 2 ^ (y + 2 ^ n) * (z * z / 2 ^ 20 / 2) ^ 2 ^ n
            = 2 ^ y * ((z * z / 2 ^ 20 / 2) * 2) ^ 2 ^ n := by
              rw [Nat.mul_pow, pow_add]
              ring
          _ ≤ 2 ^ y * (z * z / 2 ^ 20) ^ 2 ^ n :=
              Nat.mul_le_mul_left _ (Nat.pow_le_pow_left hhalf _)
          _ ≤ D * 2 ^ (20 * 2 ^ n) := hD3
      obtain ⟨h1, h2, h3⟩ := ih (z * z / 2 ^ 20 / 2) (y + 2 ^ n) D (by omega) (by omega)
        hy3 hD4
      refine ⟨h1, le_trans (Nat.le_add_right _ _) h2, ?_⟩
      rw [hpow, ← Nat.add_assoc]
      exact h3
    · rw [if_neg hge]
      obtain ⟨h1, h2, h3⟩ := ih (z * z / 2 ^ 20) y D (by omega) (by omega) hy4 hD3
      refine ⟨h1, h2, lt_of_lt_of_le h3 ?_⟩
      rw [hpow, ← Nat.add_assoc]
      exact Nat.le_add_right _ _

/-- The exponent of the halvings of the `while` loop is the integer logarithm. -/
theorem log_of_mantissa (d k : Nat) (h1 : 2 ^ 20 ≤ d * 2 ^ 20 / 2 ^ k)
    (h2 : d * 2 ^ 20 / 2 ^ k < 2 ^ 21) : 2 ^ k ≤ d ∧ d < 2 ^ (k + 1) := by
  have hk : 0 < 2 ^ k := Nat.pos_pow_of_pos _ (by norm_num)
  constructor
  · by_contra hlt
    have h3 : d * 2 ^ 20 < 2 ^ 20 * 2 ^ k := by
      rw [Nat.mul_comm]
      exact Nat.mul_lt_mul_of_pos_left (not_le.mp hlt) (by norm_num)
    have h4 := (Nat.div_lt_iff_lt_mul hk).mpr h3
    exact absurd h1 (not_le.mpr h4)
  · by_contra hge
    have h3 : 2 ^ 21 * 2 ^ k ≤ d * 2 ^ 20 := by
      have h5 : 2 ^ (k + 1) * 2 ^ 20 ≤ d * 2 ^ 20 := Nat.mul_le_mul_right _ (not_lt.mp hge)
      have h6 : 2 ^ 21 * 2 ^ k = 2 ^ (k + 1) * 2 ^ 20 := by
        rw [← pow_add, ← pow_add]
        congr 1
        omega
      rw [h6]
      exact h5
    have h4 := (Nat.le_div_iff_mul_le hk).mpr h3
    exact absurd h2 (not_lt.mpr h4)

/-- The invariant of the `for` loop of `log2_fix` holds when the loop starts. -/
theorem pow_mantissa_le (k z d N : Nat) (h : 2 ^ k * z ≤ d * 2 ^ 20) :
    2 ^ (k * N) * z ^ N ≤ d ^ N * 2 ^ (20 * N) := by
  rw [pow_mul, pow_mul, ← Nat.mul_pow, ← Nat.mul_pow]
  exact Nat.pow_le_pow_left h N

/-- One round of the `for` loop of `log2_fix`, seen from above: the truncation of the square
and of the halving each cost at most a factor `α / β`. -/
theorem log2_fix_upper_step (D β α z z1 z2 Y c w N : Nat) (hsq : z * z ≤ z1 * α)
    (hh : z1 * β ≤ c * z2 * α)
    (hU : D * β ^ (2 * N) * β ^ w ≤ Y * z ^ (2 * N) * α ^ w) :
    D * β ^ N * β ^ (w + 2 * N) ≤ Y * c ^ N * z2 ^ N * α ^ (w + 2 * N) := by
  calc D * β ^ N * β ^ (w + 2 * N)
      = (D * β ^ (2 * N) * β ^ w) * β ^ N := by ring
    _ ≤ (Y * z ^ (2 * N) * α ^ w) * β ^ N := Nat.mul_le_mul_right _ hU
    _ = Y * (z * z) ^ N * α ^ w * β ^ N := by ring
    _ ≤ Y * (z1 * α) ^ N * α ^ w * β ^ N :=
        Nat.mul_le_mul_right _ (Nat.mul_le_mul_right _
          (Nat.mul_le_mul_left _ (Nat.pow_le_pow_left hsq N)))
    _ = Y * (z1 * β) ^ N * α ^ (w + N) := by ring
    _ ≤ Y * (c * z2 * α) ^ N * α ^ (w + N) :=
        Nat.mul_le_mul_right _ (Nat.mul_le_mul_left _ (Nat.pow_le_pow_left hh N))
    _ = Y * c ^ N * z2 ^ N * α ^ (w + 2 * N) := by ring

/-- The `for` loop of `log2_fix` with `n` rounds left, seen from above: if
`D · β^(2^n) · β^w ≤ 2^y · z^(2^n) · α^w` with `β = 2^20` and `α = 2^20 + 1`, then the result
`r` has `D · β^W < 2^(r+1) · α^W` for `W = w + 2 · (2^n - 1)`. -/
theorem log2_fix_for_ge (n : Nat) :
    ∀ z y D w : Nat, 2 ^ 20 ≤ z → z < 2 ^ 21 → y + 2 ^ n ≤ 2 ^ 64 →
      D * (2 ^ 20) ^ 2 ^ n * (2 ^ 20) ^ w ≤ 2 ^ y * z ^ 2 ^ n * (2 ^ 20 + 1) ^ w →
      D * (2 ^ 20) ^ (w + 2 * (2 ^ n - 1)) <
        2 ^ (log2_fix_for n z y (2 ^ n / 2) + 1) * (2 ^ 20 + 1) ^ (w + 2 * (2 ^ n - 1)) := by
  have h21 : u64 (2 <<< log_fix_precision) = 2 ^ 21 := by decide
  induction n with
  | zero =>
    intro z y D w hz1 hz2 hy hU
    unfold log2_fix_for
    rw [pow_zero, pow_one, pow_one] at hU
    rw [pow_zero, Nat.sub_self, Nat.mul_zero, Nat.add_zero]
    have hα : 0 < (2 ^ 20 + 1) ^ w := Nat.pos_pow_of_pos _ (by norm_num)
    have hy0 : 0 < 2 ^ y := Nat.pos_pow_of_pos _ (by norm_num)
    have h1 : D * (2 ^ 20) ^ w * 2 ^ 20 < 2 ^ (y + 1) * (2 ^ 20 + 1) ^ w * 2 ^ 20 := by
      calc D * (2 ^ 20) ^ w * 2 ^ 20 = D * 2 ^ 20 * (2 ^ 20) ^ w := by ring
        _ ≤ 2 ^ y * z * (2 ^ 20 + 1) ^ w := hU
        _ < 2 ^ y * 2 ^ 21 * (2 ^ 20 + 1) ^ w :=
            Nat.mul_lt_mul_of_pos_right (Nat.mul_lt_mul_of_pos_left hz2 hy0) hα
        _ = 2 ^ (y + 1) * (2 ^ 20 + 1) ^ w * 2 ^ 20 := by
            rw [pow_succ]
            ring
    exact Nat.lt_of_mul_lt_mul_right h1
  | succ n ih =>
    intro z y D w hz1 hz2 hy hU
    unfold log2_fix_for
    have hzz : z * z < 2 ^ 42 := by nlinarith
    have hzz2 : 2 ^ 40 ≤ z * z := by nlinarith
    have hz1eq : u64 (z * z) >>> log_fix_precision = z * z / 2 ^ 20 := by
      unfold u64 log_fix_precision
      rw [Nat.shiftRight_eq_div_pow, Nat.mod_eq_of_lt (by omega)]
    have hb : 2 ^ (n + 1) / 2 = 2 ^ n := by
      rw [pow_succ, Nat.mul_div_cancel _ (by norm_num : 0 < 2)]
    have hb2 : (2 ^ n) >>> 1 = 2 ^ n / 2 := by
      rw [Nat.shiftRight_eq_div_pow, pow_one]
    have hpow : 2 ^ (n + 1) = 2 * 2 ^ n := by
      rw [pow_succ, Nat.mul_comm]
    have hpos : 0 < 2 ^ n := Nat.pos_pow_of_pos _ (by norm_num)
    have hy3 : y + 2 ^ n + 2 ^ n ≤ 2 ^ 64 := by
      rw [hpow] at hy
      omega
    have hy4 : y + 2 ^ n ≤ 2 ^ 64 := le_trans (Nat.le_add_right _ _) hy3
    have hy5 : y + 2 ^ n < 2 ^ 64 := lt_of_lt_of_le (Nat.lt_add_of_pos_right hpos) hy3
    have hexp : w + 2 * 2 ^ n + 2 * (2 ^ n - 1) = w + 2 * (2 ^ (n + 1) - 1) := by
      rw [hpow]
      omega
    dsimp only
    rw [hz1eq, h21, hb, hb2, ← hexp]
    rw [hpow] at hU
    -- the truncation of the square
    have hsq : z * z ≤ (z * z / 2 ^ 20) * (2 ^ 20 + 1) := by
      omega
    by_cases hge : z * z / 2 ^ 20 ≥ 2 ^ 21
    · rw [if_pos hge]
      have hy2 : u64 (y + 2 ^ n) = y + 2 ^ n := Nat.mod_eq_of_lt hy5
      rw [hy2, Nat.shiftRight_eq_div_pow, pow_one]
      have hh : (z * z / 2 ^ 20) * 2 ^ 20 ≤ 2 * (z * z / 2 ^ 20 / 2) * (2 ^ 20 + 1) := by
        omega
      have hstep := log2_fix_upper_step D (2 ^ 20) (2 ^ 20 + 1) z (z * z / 2 ^ 20)
        (z * z / 2 ^ 20 / 2) (2 ^ y) 2 w (2 ^ n) hsq hh hU
      rw [← pow_add] at hstep
      exact ih (z * z / 2 ^ 20 / 2) (y + 2 ^ n) D (w + 2 * 2 ^ n) (by omega) (by omega)
        hy3 hstep
    · rw [if_neg hge]
      have hh : (z * z / 2 ^ 20) * 2 ^ 20 ≤ 1 * (z * z / 2 ^ 20) * (2 ^ 20 + 1) := by
        omega
      have hstep := log2_fix_upper_step D (2 ^ 20) (2 ^ 20 + 1) z (z * z / 2 ^ 20)
        (z * z / 2 ^ 20) (2 ^ y) 1 w (2 ^ n) hsq hh hU
      rw [one_pow, Nat.mul_one] at hstep
      exact ih (z * z / 2 ^ 20) y D (w + 2 * 2 ^ n) (by omega) (by omega) hy4 hstep

/-- The truncations of the routine cost less than five bits: `(1 + 2^-20)^W ≤ 32` for the
`W = 2^20 + 2 · (2^20 - 1)` factors that they introduce. -/
theorem log2_fix_factor_le :
    (2 ^ 20 + 1) ^ (2 ^ 20 + 2 * (2 ^ 20 - 1)) ≤
      2 ^ 5 * (2 ^ 20) ^ (2 ^ 20 + 2 * (2 ^ 20 - 1)) := by
  decide!

/-- The invariant of the `for` loop of `log2_fix`, seen from above, holds when the loop
starts. -/
theorem pow_mantissa_ge (k z d N : Nat) (hz : 2 ^ 20 ≤ z) (h : d * 2 ^ 20 < (z + 1) * 2 ^ k) :
    d ^ N * (2 ^ 20) ^ N * (2 ^ 20) ^ N ≤ 2 ^ (k * N) * z ^ N * (2 ^ 20 + 1) ^ N := by
  have hk : 0 < 2 ^ k := Nat.pos_pow_of_pos _ (by norm_num)
  have h1 : d * 2 ^ 20 * 2 ^ 20 ≤ 2 ^ k * z * (2 ^ 20 + 1) := by
    have h2 : d * 2 ^ 20 + 1 ≤ z * 2 ^ k + 2 ^ k := by
      have : (z + 1) * 2 ^ k = z * 2 ^ k + 2 ^ k := by ring
      omega
    have h3 : (d * 2 ^ 20 + 1) * 2 ^ 20 ≤ (z * 2 ^ k + 2 ^ k) * 2 ^ 20 :=
      Nat.mul_le_mul_right _ h2
    have h4 : 2 ^ k * 2 ^ 20 ≤ 2 ^ k * z := Nat.mul_le_mul_left _ hz
    have h5 : 2 ^ k * z * (2 ^ 20 + 1) = z * 2 ^ k * 2 ^ 20 + 2 ^ k * z := by ring
    have h6 : (z * 2 ^ k + 2 ^ k) * 2 ^ 20 = z * 2 ^ k * 2 ^ 20 + 2 ^ k * 2 ^ 20 := by ring
    have h7 : (d * 2 ^ 20 + 1) * 2 ^ 20 = d * 2 ^ 20 * 2 ^ 20 + 2 ^ 20 := by ring
    omega
  calc d ^ N * (2 ^ 20) ^ N * (2 ^ 20) ^ N = (d * 2 ^ 20 * 2 ^ 20) ^ N := by
        rw [Nat.mul_pow, Nat.mul_pow]
    _ ≤ (2 ^ k * z * (2 ^ 20 + 1)) ^ N := Nat.pow_le_pow_left h1 N
    _ = 2 ^ (k * N) * z ^ N * (2 ^ 20 + 1) ^ N := by
        rw [Nat.mul_pow, Nat.mul_pow, pow_mul]

/-- C26 (amended): for every difficulty `d` with `1 ≤ d < 2^44`, `log2_fix(d << 20)` is an
approximation from below of `floor(log2(d) · 2^20)`, which is the integer logarithm of
`d^(2^20)`: it is at most `floor(log2(d) · 2^20)` and at least `floor(log2(d) · 2^20) - 5`,
and at least `floor(log2 d) · 2^20`, so that its integer part, the bits from bit 20 on, is
exactly `floor(log2 d)`. The squarings of the routine are truncated to 20 fractional bits, and
the result can be smaller than `floor(log2(d) · 2^20)`. -/
theorem log2_fix_bounds (d : Nat) (h1 : 1 ≤ d) (h2 : d < 2 ^ 44) :
    Nat.log 2 d * 2 ^ 20 ≤ log2_fix (d <<< 20) ∧
      log2_fix (d <<< 20) ≤ Nat.log 2 (d ^ 2 ^ 20) ∧
      Nat.log 2 (d ^ 2 ^ 20) ≤ log2_fix (d <<< 20) + 5 ∧
      Nat.log 2 (d ^ 2 ^ 20) < (Nat.log 2 d + 1) * 2 ^ 20 := by
  have hx : d <<< 20 = d * 2 ^ 20 := Nat.shiftLeft_eq _ _
  obtain ⟨k, hw, hz1, hz2⟩ := log2_fix_while_eq 64 (d * 2 ^ 20) 0
    (Nat.le_mul_of_pos_left _ h1)
    (lt_of_lt_of_le (Nat.mul_lt_mul_of_pos_right h2 (by norm_num)) (by norm_num))
    (by norm_num)
  obtain ⟨hk1, hk2⟩ := log_of_mantissa d k hz1 hz2
  have hlog : Nat.log 2 d = k :=
    (Nat.log_eq_iff (Or.inr ⟨by norm_num, by omega⟩)).mpr ⟨hk1, hk2⟩
  have hk43 : k < 44 := by
    by_contra hc
    have : 2 ^ 44 ≤ 2 ^ k := Nat.pow_le_pow_right (by norm_num) (not_lt.mp hc)
    omega
  have hb : u64 (1 <<< (log_fix_precision - 1)) = 2 ^ 20 / 2 := by decide
  have hr : log2_fix (d <<< 20) =
      log2_fix_for 20 (d * 2 ^ 20 / 2 ^ k) (k * 2 ^ 20) (2 ^ 20 / 2) := by
    unfold log2_fix
    dsimp only
    rw [hx, hw, hb, Nat.zero_add]
    rfl
  obtain ⟨r1, r2, r3⟩ := log2_fix_for_le 20 (d * 2 ^ 20 / 2 ^ k) (k * 2 ^ 20) (d ^ 2 ^ 20)
    hz1 hz2 (by omega)
    (pow_mantissa_le k _ d (2 ^ 20) (by rw [Nat.mul_comm]; exact Nat.div_mul_le_self _ _))
  have hup := log2_fix_for_ge 20 (d * 2 ^ 20 / 2 ^ k) (k * 2 ^ 20) (d ^ 2 ^ 20) (2 ^ 20)
    hz1 hz2 (by omega)
    (pow_mantissa_ge k _ d (2 ^ 20) hz1
      (by rw [Nat.add_mul, Nat.one_mul]; exact Nat.lt_div_mul_add (Nat.pos_pow_of_pos _ (by norm_num))))
  have hd0 : d ^ 2 ^ 20 ≠ 0 := pow_ne_zero _ (by omega)
  rw [hr, hlog]
  refine ⟨r2, (Nat.pow_le_iff_le_log (by norm_num) hd0).mp r1, ?_, ?_⟩
  · have hβ : 0 < (2 ^ 20) ^ (2 ^ 20 + 2 * (2 ^ 20 - 1)) :=
      Nat.pos_pow_of_pos _ (by norm_num)
    have h3 : d ^ 2 ^ 20 * (2 ^ 20) ^ (2 ^ 20 + 2 * (2 ^ 20 - 1)) <
        2 ^ (log2_fix_for 20 (d * 2 ^ 20 / 2 ^ k) (k * 2 ^ 20) (2 ^ 20 / 2) + 1 + 5) *
          (2 ^ 20) ^ (2 ^ 20 + 2 * (2 ^ 20 - 1)) := by
      calc d ^ 2 ^ 20 * (2 ^ 20) ^ (2 ^ 20 + 2 * (2 ^ 20 - 1))
          < 2 ^ (log2_fix_for 20 (d * 2 ^ 20 / 2 ^ k) (k * 2 ^ 20) (2 ^ 20 / 2) + 1) *
              (2 ^ 20 + 1) ^ (2 ^ 20 + 2 * (2 ^ 20 - 1)) := hup
        _ ≤ 2 ^ (log2_fix_for 20 (d * 2 ^ 20 / 2 ^ k) (k * 2 ^ 20) (2 ^ 20 / 2) + 1) *
              (2 ^ 5 * (2 ^ 20) ^ (2 ^ 20 + 2 * (2 ^ 20 - 1))) :=
            Nat.mul_le_mul_left _ log2_fix_factor_le
        _ = _ := by
            rw [← Nat.mul_assoc, ← pow_add]
    have h4 := Nat.lt_of_mul_lt_mul_right h3
    have h5 := (Nat.lt_pow_iff_log_lt (by norm_num) hd0).mp h4
    omega
  · rw [← Nat.lt_pow_iff_log_lt (by norm_num) hd0, pow_mul]
    exact Nat.pow_lt_pow_left hk2 (pow_ne_zero _ (by norm_num))

theorem log2_fix_bounds_witness :
    1 ≤ 35 ∧ 35 < 2 ^ 44 ∧
      Nat.log 2 35 * 2 ^ 20 ≤ log2_fix (35 <<< 20) ∧
      log2_fix (35 <<< 20) ≤ Nat.log 2 (35 ^ 2 ^ 20) ∧
      Nat.log 2 (35 ^ 2 ^ 20) ≤ log2_fix (35 <<< 20) + 5 ∧
      Nat.log 2 (35 ^ 2 ^ 20) < (Nat.log 2 35 + 1) * 2 ^ 20 :=
  ⟨by decide, by decide, log2_fix_bounds 35 (by decide) (by decide)⟩

/-- C26, counterexample: for the difficulty 35, `log2_fix(35 << 20)` is 5378442, whereas
`floor(log2(35) · 2^20)`, the integer logarithm of `35^(2^20)`, is 5378443. -/
theorem log2_fix_not_floor :
    log2_fix (35 <<< 20) = 5378442 ∧ Nat.log 2 (35 ^ 2 ^ 20) = 5378443 := by
  refine ⟨by decide, ?_⟩
  rw [Nat.log_eq_iff (by decide)]
  constructor
  · decide!
  · decide!

/-- C27: for every `k` with `0 ≤ k ≤ 43`, `log2_fix(2^k << 20)` is exactly `k << 20`; in
particular `log2_fix(1 << 20) = 0`, `log2_fix(2 << 20) = 1 << 20` and
`log2_fix(4 << 20) = 2 << 20`, and the base reward `log2_fix(1 << 20) << 20` at the
difficulty 1 is 0. -/
theorem log2_fix_pow_two (k : Nat) (hk : k ≤ 43) :
    log2_fix (2 ^ k <<< 20) = k <<< 20 ∧
      log2_fix (1 <<< 20) = 0 ∧ log2_fix (2 <<< 20) = 1 <<< 20 ∧
      log2_fix (4 <<< 20) = 2 <<< 20 ∧
      u64 (log2_fix (u64 (1 <<< log_fix_precision)) <<< 20) = 0 := by
  have h : ∀ k < 44, log2_fix (2 ^ k <<< 20) = k <<< 20 := by decide
  exact ⟨h k (by omega), by decide, by decide, by decide, by decide⟩

theorem log2_fix_pow_two_witness :
    43 ≤ 43 ∧ log2_fix (2 ^ 43 <<< 20) = 43 <<< 20 ∧ log2_fix (2 ^ 0 <<< 20) = 0 <<< 20 :=
  ⟨le_refl _, (log2_fix_pow_two 43 (le_refl _)).1, (log2_fix_pow_two 0 (by decide)).1⟩

/-! ## The legacy retargets in closed form -/

/-- The indices of the cut lie within the trimmed vectors and are at least two apart. -/
theorem legacyCut_bounds (L : Nat) (h2 : 2 ≤ L) (hL : L ≤ 720) :
    (legacyCut 720 60 L).1 + 2 ≤ (legacyCut 720 60 L).2 ∧ (legacyCut 720 60 L).2 ≤ L := by
  unfold legacyCut
  split
  · exact ⟨by simpa using h2, le_refl _⟩
  · dsimp only
    omega

/-- The entries of a sorted vector are in ascending order. -/
theorem insertionSort_getD_le (l : List Nat) (i j : Nat) (hij : i ≤ j) (hj : j < l.length) :
    (l.insertionSort (· ≤ ·)).getD i 0 ≤ (l.insertionSort (· ≤ ·)).getD j 0 := by
  have hlen : (l.insertionSort (· ≤ ·)).length = l.length := List.length_insertionSort _ l
  have hs : (l.insertionSort (· ≤ ·)).Sorted (· ≤ ·) := List.sorted_insertionSort _ l
  rw [List.getD_eq_getElem _ _ (by omega : i < (l.insertionSort (· ≤ ·)).length),
    List.getD_eq_getElem _ _ (by omega : j < (l.insertionSort (· ≤ ·)).length)]
  exact hs.rel_get_of_le (show (⟨i, by omega⟩ : Fin _) ≤ ⟨j, by omega⟩ from hij)

/-- The entries of a sorted vector of 64-bit values are 64-bit values. -/
theorem insertionSort_getD_lt (l : List Nat) (h : ∀ t ∈ l, t < 2 ^ 64) (i : Nat) :
    (l.insertionSort (· ≤ ·)).getD i 0 < 2 ^ 64 := by
  by_cases hi : i < (l.insertionSort (· ≤ ·)).length
  · rw [List.getD_eq_getElem _ _ hi]
    exact h _ ((List.perm_insertionSort _ l).mem_iff.mp (List.getElem_mem _))
  · rw [List.getD_eq_default _ _ (not_lt.mp hi)]
    norm_num

/-- The 64-bit difference of two 64-bit values in ascending order is their difference. -/
theorem subU64_eq_sub (a b : Nat) (hb : b ≤ a) (ha : a < 2 ^ 64) : subU64 a b = a - b := by
  unfold subU64
  omega

/-- The arithmetic of the legacy retarget: the test of the two overflows is the test whether
`product + timespan - 1` is below `2^64`. -/
theorem legacy_ceil_arith (P s : Nat) (hP : P < 2 ^ 128) (hs1 : 1 ≤ s) (hs : s < 2 ^ 64) :
    (if P / 2 ^ 64 % 2 ^ 64 ≠ 0 ∨ (P % 2 ^ 64 + s - 1) % 2 ^ 64 < P % 2 ^ 64 then 0
      else (P % 2 ^ 64 + s - 1) / s) =
    (if P + s - 1 < 2 ^ 64 then (P + s - 1) / s else 0) := by
  by_cases hlt : P + s - 1 < 2 ^ 64
  · have hP64 : P < 2 ^ 64 := by omega
    have hmod : P % 2 ^ 64 = P := Nat.mod_eq_of_lt hP64
    rw [if_pos hlt, hmod, if_neg]
    have hdiv : P / 2 ^ 64 = 0 := Nat.div_eq_of_lt hP64
    rw [hdiv, Nat.mod_eq_of_lt hlt]
    omega
  · rw [if_neg hlt, if_pos]
    by_cases hP64 : P < 2 ^ 64
    · right
      rw [Nat.mod_eq_of_lt hP64]
      omega
    · left
      omega

/-- The legacy retarget of the spec in closed form: the rounded-up quotient of the product of
the total work and the target by the timespan when `product + timespan - 1` fits 64 bits,
and 0 otherwise. -/
theorem legacyRetarget_eq_ceil (target : Nat) (timestamps cumulativeDifficulties : List Nat)
    (h2 : 2 ≤ timestamps.length) (hT : target < 2 ^ 64) :
    legacyRetarget 720 60 target timestamps cumulativeDifficulties =
      if legacyTotalWork 720 60 timestamps cumulativeDifficulties * target +
          legacyTimespan 720 60 timestamps - 1 < 2 ^ 64 then
        (legacyTotalWork 720 60 timestamps cumulativeDifficulties * target +
          legacyTimespan 720 60 timestamps - 1) / legacyTimespan 720 60 timestamps
      else 0 := by
  have hl : ¬ (timestamps.take 720).length ≤ 1 := by
    rw [List.length_take]
    omega
  have htw : legacyTotalWork 720 60 timestamps cumulativeDifficulties < 2 ^ 64 := subU64_lt _ _
  have hs1 : 1 ≤ legacyTimespan 720 60 timestamps := le_max_left _ _
  have hs : legacyTimespan 720 60 timestamps < 2 ^ 64 :=
    max_lt (by norm_num) (subU64_lt _ _)
  unfold legacyRetarget
  rw [if_neg hl]
  dsimp only
  generalize legacyTotalWork 720 60 timestamps cumulativeDifficulties = tw at htw ⊢
  generalize legacyTimespan 720 60 timestamps = s at hs1 hs ⊢
  exact legacy_ceil_arith (tw * target) s
    (by
      calc tw * target < 2 ^ 64 * 2 ^ 64 := by
            rcases Nat.eq_zero_or_pos target with h0 | h0
            · subst h0; norm_num
            · exact Nat.mul_lt_mul'' htw hT
        _ = 2 ^ 128 := by norm_num) hs1 hs

/-- The timespan of the spec is the difference of two sorted timestamps, at least 1. -/
theorem legacyTimespan_eq (timestamps : List Nat) (h2 : 2 ≤ timestamps.length)
    (hts : ∀ t ∈ timestamps, t < 2 ^ 64) :
    ((timestamps.take 720).insertionSort (· ≤ ·)).getD
        (legacyCut 720 60 (min timestamps.length 720)).1 0 ≤
      ((timestamps.take 720).insertionSort (· ≤ ·)).getD
        ((legacyCut 720 60 (min timestamps.length 720)).2 - 1) 0 ∧
    legacyTimespan 720 60 timestamps =
      max 1 (((timestamps.take 720).insertionSort (· ≤ ·)).getD
          ((legacyCut 720 60 (min timestamps.length 720)).2 - 1) 0 -
        ((timestamps.take 720).insertionSort (· ≤ ·)).getD
          (legacyCut 720 60 (min timestamps.length 720)).1 0) := by
  have hlen : (timestamps.take 720).length = min timestamps.length 720 := by
    rw [List.length_take, Nat.min_comm]
  obtain ⟨hc1, hc2⟩ := legacyCut_bounds (min timestamps.length 720) (by omega) (by omega)
  have hle := insertionSort_getD_le (timestamps.take 720)
    (legacyCut 720 60 (min timestamps.length 720)).1
    ((legacyCut 720 60 (min timestamps.length 720)).2 - 1) (by omega) (by omega)
  refine ⟨hle, ?_⟩
  unfold legacyTimespan
  dsimp only
  rw [hlen, subU64_eq_sub _ _ hle
    (insertionSort_getD_lt _ (fun t ht => hts t (List.mem_of_mem_take ht)) _)]

/-- C28: on equal-length inputs of at least two entries, with `L` the length after trimming to
the window 720, `s` the trimmed timestamps sorted ascending, `(cutBegin, cutEnd) = (0, L)` if
`L ≤ 720 - 2·60` and `((L - 600 + 1) / 2, cutBegin + 600)` otherwise,
`timespan = max(1, s[cutEnd-1] - s[cutBegin])` and `totalWork` the 64-bit difference
`cumDiff[cutEnd-1] - cumDiff[cutBegin]` (the difference itself when the cumulative
difficulties do not decrease), `nextDifficultyV1` returns the rounded-up quotient
`(totalWork · target + timespan - 1) / timespan` when `totalWork · target + timespan - 1` is
below `2^64`, and 0 otherwise; the indices satisfy `cutBegin + 2 ≤ cutEnd ≤ L`. The
timestamps and the target are 64-bit values. -/
theorem nextDifficultyV1_closed_form (c : Currency) (version : Nat)
    (timestamps cumulativeDifficulties : List Nat)
    (hlen : timestamps.length = cumulativeDifficulties.length)
    (h2 : 2 ≤ timestamps.length) (hts : ∀ t ∈ timestamps, t < 2 ^ 64)
    (hT : c.m_difficultyTarget < 2 ^ 64) :
    let L := min timestamps.length 720
    let s := (timestamps.take 720).insertionSort (· ≤ ·)
    let cumDiff := cumulativeDifficulties.take 720
    let cutBegin := if L ≤ 720 - 2 * 60 then 0 else (L - (720 - 2 * 60) + 1) / 2
    let cutEnd := if L ≤ 720 - 2 * 60 then L else cutBegin + (720 - 2 * 60)
    let timespan := max 1 (s.getD (cutEnd - 1) 0 - s.getD cutBegin 0)
    let totalWork := subU64 (cumDiff.getD (cutEnd - 1) 0) (cumDiff.getD cutBegin 0)
    cutBegin + 2 ≤ cutEnd ∧ cutEnd ≤ L ∧ s.getD cutBegin 0 ≤ s.getD (cutEnd - 1) 0 ∧
      (cumDiff.getD cutBegin 0 ≤ cumDiff.getD (cutEnd - 1) 0 →
        cumDiff.getD (cutEnd - 1) 0 < 2 ^ 64 →
        totalWork = cumDiff.getD (cutEnd - 1) 0 - cumDiff.getD cutBegin 0) ∧
      nextDifficultyV1 c version timestamps cumulativeDifficulties =
        if totalWork * c.m_difficultyTarget + timespan - 1 < 2 ^ 64 then
          (totalWork * c.m_difficultyTarget + timespan - 1) / timespan
        else 0 := by
  intro L s cumDiff cutBegin cutEnd timespan totalWork
  have hcb : cutBegin = (legacyCut 720 60 L).1 := by
    show (if L ≤ 720 - 2 * 60 then 0 else (L - (720 - 2 * 60) + 1) / 2) = _
    unfold legacyCut
    split <;> rfl
  have hce : cutEnd = (legacyCut 720 60 L).2 := by
    show (if L ≤ 720 - 2 * 60 then L
      else (if L ≤ 720 - 2 * 60 then 0 else (L - (720 - 2 * 60) + 1) / 2) + (720 - 2 * 60)) = _
    unfold legacyCut
    by_cases h : L ≤ 720 - 2 * 60
    · rw [if_pos h, if_pos h]
    · rw [if_neg h, if_neg h, if_neg h]
  obtain ⟨hc1, hc2⟩ := legacyCut_bounds L (by omega) (by omega)
  obtain ⟨hle, hspan⟩ := legacyTimespan_eq timestamps h2 hts
  have hspan2 : legacyTimespan 720 60 timestamps = timespan := by
    rw [hspan]
    show _ = max 1 (s.getD (cutEnd - 1) 0 - s.getD cutBegin 0)
    rw [hcb, hce]
  have htw : legacyTotalWork 720 60 timestamps cumulativeDifficulties = totalWork := by
    show _ = subU64 (cumDiff.getD (cutEnd - 1) 0) (cumDiff.getD cutBegin 0)
    rw [hcb, hce]
    unfold legacyTotalWork
    dsimp only
    rw [List.length_take, Nat.min_comm]
  refine ⟨by rw [hcb, hce]; exact hc1, by rw [hce]; exact hc2, by rw [hcb, hce]; exact hle,
    fun h1 h2 => subU64_eq_sub _ _ h1 h2, ?_⟩
  rw [nextDifficultyV1_eq_legacyRetarget c version timestamps cumulativeDifficulties hlen,
    legacyRetarget_eq_ceil _ _ _ h2 hT, hspan2, htw]

theorem nextDifficultyV1_closed_form_witness :
    ([0, 60, 130] : List Nat).length = ([0, 100, 250] : List Nat).length ∧
      2 ≤ ([0, 60, 130] : List Nat).length ∧
      (∀ t ∈ ([0, 60, 130] : List Nat), t < 2 ^ 64) ∧
      ({} : Currency).m_difficultyTarget < 2 ^ 64 ∧
      nextDifficultyV1 {} 1 [0, 60, 130] [0, 100, 250] = (250 * 60 + 130 - 1) / 130 ∧
      nextDifficultyV1 {} 1 [0, 60, 130] [0, 100, 250] = 116 :=
  ⟨rfl, by decide, by decide, by decide,
    (nextDifficultyV1_closed_form {} 1 [0, 60, 130] [0, 100, 250] rfl (by decide) (by decide)
      (by decide)).2.2.2.2.trans (by decide),
    by decide⟩

/-- C29: for every input of length at most the window and every permutation of its
timestamps, the cumulative difficulties being left in place, `nextDifficultyV1` and
`nextDifficultyV2` return the same value on the permuted timestamps as on the original
ones. -/
theorem nextDifficulty_legacy_perm (c : Currency) (version : Nat)
    (timestamps permuted cumulativeDifficulties : List Nat)
    (hperm : permuted.Perm timestamps) (hw : timestamps.length ≤ 720) :
    nextDifficultyV1 c version permuted cumulativeDifficulties =
        nextDifficultyV1 c version timestamps cumulativeDifficulties ∧
      nextDifficultyV2 c version permuted cumulativeDifficulties =
        nextDifficultyV2 c version timestamps cumulativeDifficulties := by
  have hlen : permuted.length = timestamps.length := hperm.length_eq
  have hdec : decide (timestamps.length > 720) = false := by
    simp only [decide_eq_false_iff_not]
    omega
  have hsort : permuted.insertionSort (· ≤ ·) = timestamps.insertionSort (· ≤ ·) :=
    List.eq_of_perm_of_sorted
      (((List.perm_insertionSort _ permuted).trans hperm).trans
        (List.perm_insertionSort _ timestamps).symm)
      (List.sorted_insertionSort _ permuted) (List.sorted_insertionSort _ timestamps)
  constructor
  · unfold nextDifficultyV1
    simp only [difficultyWindowByBlockVersion_eq, hlen, hdec, Bool.false_eq_true, if_false,
      hsort]
  · unfold nextDifficultyV2
    simp only [parameters.DIFFICULTY_WINDOW_V2, hlen, hdec, Bool.false_eq_true, if_false,
      hsort]

theorem nextDifficulty_legacy_perm_witness :
    ([130, 0, 60] : List Nat).Perm [0, 60, 130] ∧ ([0, 60, 130] : List Nat).length ≤ 720 ∧
      nextDifficultyV1 {} 1 [130, 0, 60] [0, 100, 250] =
        nextDifficultyV1 {} 1 [0, 60, 130] [0, 100, 250] ∧
      nextDifficultyV2 {} 2 [130, 0, 60] [0, 100, 250] =
        nextDifficultyV2 {} 2 [0, 60, 130] [0, 100, 250] :=
  ⟨by decide, by decide,
    nextDifficulty_legacy_perm {} 1 [0, 60, 130] [130, 0, 60] [0, 100, 250] (by decide)
      (by decide) |>.1,
    nextDifficulty_legacy_perm {} 2 [0, 60, 130] [130, 0, 60] [0, 100, 250] (by decide)
      (by decide) |>.2⟩

/-- C30 (amended): on equal-length vectors of at least two entries with a total work above 0
and a 64-bit target of at least 1, the legacy retargets `nextDifficultyV1` and
`nextDifficultyV2` (whose target is the constant 60) return a value of at least 1 exactly
when `totalWork · target + timespan - 1` is below `2^64`, and 0 otherwise, that is when the
product or the addition of the timespan overflows 64 bits. The LWMA retargets
`nextDifficultyV3` and `nextDifficultyV4` return the quotient of `totalWork · aimedTarget` by
the weighted solve times rounded down, which is 0 without any overflow when the product is
the smaller one: on the timestamps `[0, 1000]` and the cumulative difficulties `[0, 1]` both
return 0. The lower bound 1 is imposed by `nextDifficulty` only. -/
theorem nextDifficulty_versions_ge_one (c : Currency) (version : Nat)
    (timestamps cumulativeDifficulties : List Nat)
    (hlen : timestamps.length = cumulativeDifficulties.length)
    (h2 : 2 ≤ timestamps.length)
    (hT1 : 1 ≤ c.m_difficultyTarget) (hT : c.m_difficultyTarget < 2 ^ 64)
    (htw : 0 < legacyTotalWork 720 60 timestamps cumulativeDifficulties) :
    (legacyTotalWork 720 60 timestamps cumulativeDifficulties * c.m_difficultyTarget +
        legacyTimespan 720 60 timestamps - 1 < 2 ^ 64 →
      1 ≤ nextDifficultyV1 c version timestamps cumulativeDifficulties) ∧
    (¬ legacyTotalWork 720 60 timestamps cumulativeDifficulties * c.m_difficultyTarget +
        legacyTimespan 720 60 timestamps - 1 < 2 ^ 64 →
      nextDifficultyV1 c version timestamps cumulativeDifficulties = 0) ∧
    (legacyTotalWork 720 60 timestamps cumulativeDifficulties * 60 +
        legacyTimespan 720 60 timestamps - 1 < 2 ^ 64 →
      1 ≤ nextDifficultyV2 c version timestamps cumulativeDifficulties) ∧
    (¬ legacyTotalWork 720 60 timestamps cumulativeDifficulties * 60 +
        legacyTimespan 720 60 timestamps - 1 < 2 ^ 64 →
      nextDifficultyV2 c version timestamps cumulativeDifficulties = 0) ∧
    nextDifficultyV3 {} 3 [0, 1000] [0, 1] = some 0 ∧
    nextDifficultyV4 {} 4 [0, 1000] [0, 1] = some 0 := by
  have hs1 : 1 ≤ legacyTimespan 720 60 timestamps := le_max_left _ _
  have key : ∀ T, 1 ≤ T →
      legacyTotalWork 720 60 timestamps cumulativeDifficulties * T +
        legacyTimespan 720 60 timestamps - 1 < 2 ^ 64 →
      1 ≤ (legacyTotalWork 720 60 timestamps cumulativeDifficulties * T +
        legacyTimespan 720 60 timestamps - 1) / legacyTimespan 720 60 timestamps := by
    intro T hT1 _
    rw [Nat.le_div_iff_mul_le (by omega), Nat.one_mul]
    have : 1 ≤ legacyTotalWork 720 60 timestamps cumulativeDifficulties * T :=
      Nat.mul_pos htw hT1
    omega
  rw [nextDifficultyV1_eq_legacyRetarget c version timestamps cumulativeDifficulties hlen,
    nextDifficultyV2_eq_legacyRetarget c version timestamps cumulativeDifficulties hlen,
    legacyRetarget_eq_ceil _ _ _ h2 hT, legacyRetarget_eq_ceil 60 _ _ h2 (by norm_num)]
  refine ⟨?_, ?_, ?_, ?_, by decide, by decide⟩
  · intro h
    rw [if_pos h]
    exact key _ hT1 h
  · intro h
    rw [if_neg h]
  · intro h
    rw [if_pos h]
    exact key 60 (by norm_num) h
  · intro h
    rw [if_neg h]

theorem nextDifficulty_versions_ge_one_witness :
    ([0, 60, 130] : List Nat).length = ([0, 100, 250] : List Nat).length ∧
      2 ≤ ([0, 60, 130] : List Nat).length ∧
      1 ≤ ({} : Currency).m_difficultyTarget ∧ ({} : Currency).m_difficultyTarget < 2 ^ 64 ∧
      0 < legacyTotalWork 720 60 [0, 60, 130] [0, 100, 250] ∧
      1 ≤ nextDifficultyV1 {} 1 [0, 60, 130] [0, 100, 250] ∧
      nextDifficultyV1 {} 1 [0, 100] [0, 307445734561825860] = 0 :=
  ⟨rfl, by decide, by decide, by decide, by decide,
    (nextDifficulty_versions_ge_one {} 1 [0, 60, 130] [0, 100, 250] rfl (by decide) (by decide)
      (by decide) (by decide)).1 (by decide),
    (nextDifficulty_versions_ge_one {} 1 [0, 100] [0, 307445734561825860] rfl (by decide)
      (by decide) (by decide) (by decide)).2.1 (by decide)⟩

/-- C30, counterexample: on the timestamps `[0, 1000]` and the cumulative difficulties
`[0, 1]`, of equal lengths and with the total work 1, `nextDifficultyV3` returns 0 although
the product of the total work and the aimed target 89 has no high half: the weighted solve
times are 360, and 89 / 360 is 0. `nextDifficultyV4` returns 0 in the same way (59 / 1000),
and `nextDifficultyV1` returns 0 on the total work 307445734561825860 whose product with the
target 60 is below `2^64`, because the addition of the timespan 100 exceeds 64 bits. -/
theorem nextDifficultyV3_zero_without_overflow :
    ([0, 1000] : List Nat).length = ([0, 1] : List Nat).length ∧
      0 < subU64 (([0, 1] : List Nat).getLastD 0) (([0, 1] : List Nat).headD 0) ∧
      aimedTarget 3 60 = some 89 ∧
      (mul128 (subU64 (([0, 1] : List Nat).getLastD 0) (([0, 1] : List Nat).headD 0))
        89).2 = 0 ∧
      nextDifficultyV3 {} 3 [0, 1000] [0, 1] = some 0 ∧
      aimedTarget 2 60 = some 59 ∧
      (mul128 (subU64 (([0, 1] : List Nat).getLastD 0) (([0, 1] : List Nat).headD 0))
        59).2 = 0 ∧
      nextDifficultyV4 {} 4 [0, 1000] [0, 1] = some 0 ∧
      (mul128 307445734561825860 (({} : Currency).m_difficultyTarget)).2 = 0 ∧
      nextDifficultyV1 {} 1 [0, 100] [0, 307445734561825860] = 0 := by
  decide

/-! ## The LWMA retargets in closed form -/

/-! ## The LWMA retargets in closed form -/

/-- A value of the signed 64-bit range is its own reading as `int64_t`. -/
theorem toInt64_eq_self (x : Int) (h1 : -2 ^ 63 ≤ x) (h2 : x < 2 ^ 63) : toInt64 x = x := by
  unfold toInt64
  omega

/-- A sum that is accumulated in `int64_t` is the sum itself when its terms are bounded by
`B` and the number of terms times `B` stays below `2^63`. -/
theorem foldl_toInt64_eq_sum (g : Nat → Int) (B : Int) (hB : 0 ≤ B) :
    ∀ (l : List Nat) (init C : Int), (∀ k ∈ l, -B ≤ g k ∧ g k ≤ B) → -C ≤ init → init ≤ C →
      C + (l.length : Int) * B < 2 ^ 63 →
      l.foldl (fun acc k => toInt64 (acc + toInt64 (g k))) init =
        init + (l.map g).sum := by
  intro l
  induction l with
  | nil =>
    intro init C _ _ _ _
    simp
  | cons a l ih =>
    intro init C hg h1 h2 h3
    have hlen : (((a :: l).length : Nat) : Int) * B = (l.length : Int) * B + B := by
      rw [List.length_cons]
      push_cast
      ring
    rw [hlen] at h3
    have hn : 0 ≤ (l.length : Int) * B := Int.mul_nonneg (Int.ofNat_nonneg _) hB
    obtain ⟨ha1, ha2⟩ := hg a (List.mem_cons_self _ _)
    rw [List.foldl_cons, toInt64_eq_self (g a) (by omega) (by omega),
      toInt64_eq_self (init + g a) (by omega) (by omega),
      ih (init + g a) (C + B) (fun k hk => hg k (List.mem_cons_of_mem _ hk)) (by omega)
        (by omega) (by omega),
      List.map_cons, List.sum_cons]
    ring

/-- The term of the loop of `nextDifficultyV3` is the term of the spec. -/
theorem solveTimeV3_term (T : Int) (hT0 : 0 ≤ T) (hT : T < 2 ^ 10) (a b : Nat) (i : Int) :
    (if (if toInt64 (toInt64 (a : Int) - toInt64 (b : Int)) > toInt64 (6 * T) then toInt64 (6 * T)
          else toInt64 (toInt64 (a : Int) - toInt64 (b : Int))) < toInt64 (-5 * T)
        then toInt64 (-5 * T)
        else (if toInt64 (toInt64 (a : Int) - toInt64 (b : Int)) > toInt64 (6 * T)
          then toInt64 (6 * T) else toInt64 (toInt64 (a : Int) - toInt64 (b : Int)))) * i =
      i * max (-5 * T) (min (6 * T) (toInt64 ((a : Int) - (b : Int)))) := by
  have h6 : toInt64 (6 * T) = 6 * T := toInt64_eq_self _ (by omega) (by omega)
  have h5 : toInt64 (-5 * T) = -5 * T := toInt64_eq_self _ (by omega) (by omega)
  have hs : toInt64 (toInt64 (a : Int) - toInt64 (b : Int)) = toInt64 ((a : Int) - (b : Int)) := by
    unfold toInt64
    omega
  rw [h6, h5, hs, Int.mul_comm]
  generalize toInt64 ((a : Int) - (b : Int)) = s
  have hc : (if (if s > 6 * T then 6 * T else s) < -5 * T then -5 * T
      else (if s > 6 * T then 6 * T else s)) = max (-5 * T) (min (6 * T) s) := by
    split <;> split <;> omega
  rw [hc]

/-- The loop of `nextDifficultyV3` computes the sum of the weighted clamped solve times: no
accumulation in `int64_t` wraps, for a target below `2^10` and at most 720 timestamps. -/
theorem weightedSolveTimesV3_eq_sum (T : Int) (hT0 : 0 ≤ T) (hT : T < 2 ^ 10)
    (timestamps : List Nat) (L : Nat) (hL : L ≤ 720) :
    weightedSolveTimesV3 T timestamps L = clampedSolveTimeSum T timestamps L := by
  unfold weightedSolveTimesV3 clampedSolveTimeSum
  have hf : (fun (weightedSolveTimes : Int) (k : Nat) =>
      let i : Int := (k : Int) + 1
      let solveTime :=
        toInt64 (toInt64 (timestamps.getD (k + 1) 0 : Nat) - toInt64 (timestamps.getD k 0 : Nat))
      let solveTime :=
        if solveTime > toInt64 (6 * T) then toInt64 (6 * T) else solveTime
      let solveTime :=
        if solveTime < toInt64 (-5 * T) then toInt64 (-5 * T) else solveTime
      toInt64 (weightedSolveTimes + toInt64 (solveTime * i))) =
      fun acc k => toInt64 (acc + toInt64 ((fun (k : Nat) =>
        ((k : Int) + 1) * max (-5 * T) (min (6 * T)
          (toInt64 ((timestamps.getD (k + 1) 0 : Int) - (timestamps.getD k 0 : Int))))) k)) := by
    funext acc k
    dsimp only
    rw [solveTimeV3_term T hT0 hT]
  rw [hf, foldl_toInt64_eq_sum _ (6138 * 720) (by norm_num) _ 0 0 ?_ (by norm_num)
    (by norm_num) ?_, Int.zero_add]
  · intro k hk
    rw [List.mem_range] at hk
    dsimp only
    generalize toInt64 ((timestamps.getD (k + 1) 0 : Int) - (timestamps.getD k 0 : Int)) = s
    have h1 : -6138 ≤ max (-5 * T) (min (6 * T) s) := by omega
    have h2 : max (-5 * T) (min (6 * T) s) ≤ 6138 := by omega
    generalize max (-5 * T) (min (6 * T) s) = m at h1 h2
    have hk1 : (0 : Int) ≤ (k : Int) + 1 := by omega
    have hk2 : (k : Int) + 1 ≤ 720 := by omega
    constructor <;> nlinarith
  · rw [List.length_range]
    have : ((L - 1 : Nat) : Int) ≤ 719 := by omega
    nlinarith

/-- An entry read with a default of 0 is below a positive bound of all the entries. -/
theorem getD_lt_of_forall (l : List Nat) (B : Nat) (hB : 0 < B) (h : ∀ t ∈ l, t < B) (k : Nat) :
    l.getD k 0 < B := by
  by_cases hk : k < l.length
  · rw [List.getD_eq_getElem _ _ hk]
    exact h _ (List.getElem_mem _)
  · rw [List.getD_eq_default _ _ (not_lt.mp hk)]
    exact hB

/-- The loop of `nextDifficultyV4` computes the sum of the weighted limited solve times when
the timestamps and the block future time limit are below `2^40`: no accumulation in
`int64_t` wraps. -/
theorem lwmaV4_eq_sum (F : Nat) (hF : F < 2 ^ 40) (timestamps : List Nat)
    (hts : ∀ t ∈ timestamps, t < 2 ^ 40) (L : Nat) (hL : L ≤ 720) :
    lwmaV4 F timestamps L = limitedSolveTimeSum F timestamps L := by
  unfold lwmaV4 limitedSolveTimeSum
  have hterm : ∀ k : Nat,
      max (toInt64 (-(F : Int)))
          (toInt64 (toInt64 (timestamps.getD (k + 1) 0 : Nat) -
            toInt64 (timestamps.getD k 0 : Nat))) * ((k : Int) + 1) =
        ((k : Int) + 1) * max (-(F : Int))
          ((timestamps.getD (k + 1) 0 : Int) - (timestamps.getD k 0 : Int)) := by
    intro k
    have h1 := getD_lt_of_forall timestamps (2 ^ 40) (by norm_num) hts (k + 1)
    have h2 := getD_lt_of_forall timestamps (2 ^ 40) (by norm_num) hts k
    have hF2 : toInt64 (-(F : Int)) = -(F : Int) := toInt64_eq_self _ (by omega) (by omega)
    have hs : toInt64 (toInt64 (timestamps.getD (k + 1) 0 : Nat) -
        toInt64 (timestamps.getD k 0 : Nat)) =
        (timestamps.getD (k + 1) 0 : Int) - (timestamps.getD k 0 : Int) := by
      unfold toInt64
      omega
    rw [hF2, hs, Int.mul_comm]
  have hf : (fun (LWMA : Int) (k : Nat) =>
      let i : Int := (k : Int) + 1
      let solveTime :=
        toInt64 (toInt64 (timestamps.getD (k + 1) 0 : Nat) - toInt64 (timestamps.getD k 0 : Nat))
      let solveTime := max (toInt64 (-(F : Int))) solveTime
      toInt64 (LWMA + toInt64 (solveTime * i))) =
      fun acc k => toInt64 (acc + toInt64 ((fun (k : Nat) =>
        ((k : Int) + 1) * max (-(F : Int))
          ((timestamps.getD (k + 1) 0 : Int) - (timestamps.getD k 0 : Int))) k)) := by
    funext acc k
    dsimp only
    rw [hterm k]
  rw [hf, foldl_toInt64_eq_sum _ (2 ^ 40 * 720) (by norm_num) _ 0 0 ?_ (by norm_num)
    (by norm_num) ?_, Int.zero_add]
  · intro k hk
    rw [List.mem_range] at hk
    dsimp only
    have h1 := getD_lt_of_forall timestamps (2 ^ 40) (by norm_num) hts (k + 1)
    have h2 := getD_lt_of_forall timestamps (2 ^ 40) (by norm_num) hts k
    have h3 : -2 ^ 40 ≤ max (-(F : Int))
        ((timestamps.getD (k + 1) 0 : Int) - (timestamps.getD k 0 : Int)) := by omega
    have h4 : max (-(F : Int))
        ((timestamps.getD (k + 1) 0 : Int) - (timestamps.getD k 0 : Int)) ≤ 2 ^ 40 := by omega
    generalize max (-(F : Int))
      ((timestamps.getD (k + 1) 0 : Int) - (timestamps.getD k 0 : Int)) = m at h3 h4
    have hk1 : (0 : Int) ≤ (k : Int) + 1 := by omega
    have hk2 : (k : Int) + 1 ≤ 720 := by omega
    constructor <;> nlinarith
  · rw [List.length_range]
    have : ((L - 1 : Nat) : Int) ≤ 719 := by omega
    nlinarith

/-- A double that converts to `uint64_t` converts to a value below `2^64`. -/
theorem F64.toUInt64_lt (x : F64) (a : Nat) (h : F64.toUInt64 x = some a) : a < 2 ^ 64 := by
  unfold F64.toUInt64 at h
  dsimp only at h
  generalize (if 0 ≤ x.e then x.m * 2 ^ x.e.toNat else x.m / 2 ^ (-x.e).toNat) = v at h
  by_cases hv : v < 2 ^ 64
  · rw [if_pos hv] at h
    rw [← Option.some.inj h]
    exact hv
  · rw [if_neg hv] at h
    exact absurd h (by simp)

/-- The aimed target is a 64-bit value. -/
theorem aimedTarget_lt (n : Nat) (T : Int) (a : Nat) (h : aimedTarget n T = some a) :
    a < 2 ^ 64 := by
  unfold aimedTarget at h
  by_cases hT : T < 0
  · rw [if_pos hT] at h
    exact absurd h (by simp)
  · rw [if_neg hT] at h
    exact F64.toUInt64_lt _ a h

/-- The limit `minWST` of `nextDifficultyV3` and its divisor, for a target in `[4, 2^10)` and
at least two timestamps. -/
theorem nextDifficultyV3_divisor (c : Currency)
    (hT4 : 4 ≤ c.m_difficultyTarget) (hT : c.m_difficultyTarget < 2 ^ 10) (version : Nat)
    (timestamps : List Nat) (h2 : 2 ≤ timestamps.length) :
    nextDifficultyV3_minWST c version timestamps =
        (c.m_difficultyTarget : Int) * (min timestamps.length 720 : Nat) *
          ((min timestamps.length 720 : Nat) + 1) / 8 ∧
      1 ≤ nextDifficultyV3_minWST c version timestamps ∧
      nextDifficultyV3_weightedSolveTimes c version timestamps =
        max (nextDifficultyV3_minWST c version timestamps)
          (weightedSolveTimesV3 (toInt64 c.m_difficultyTarget) (timestamps.take 720)
            (min timestamps.length 720)) ∧
      nextDifficultyV3_weightedSolveTimes c version timestamps < 2 ^ 63 := by
  unfold nextDifficultyV3_weightedSolveTimes nextDifficultyV3_minWST
  simp only [difficultyWindowByBlockVersion_eq, trim_eq_take 720 timestamps.length timestamps rfl]
  have hL : (timestamps.take 720).length = min timestamps.length 720 := by
    rw [List.length_take, Nat.min_comm]
  rw [hL]
  have hL2 : 2 ≤ min timestamps.length 720 := by omega
  have hL3 : min timestamps.length 720 ≤ 720 := by omega
  generalize min timestamps.length 720 = L at hL2 hL3 ⊢
  have hmin := minWST_pos c.m_difficultyTarget L (L + 1) hT4 hT hL2 hL3 (Or.inl rfl)
  have hr := weightedSolveTimesV3_range (toInt64 c.m_difficultyTarget) (timestamps.take 720) L
  have hval : toInt64 ((u64 (u64 (toU64 (toInt64 c.m_difficultyTarget) * L) * (L + 1)) / 8 : Nat)) =
      (c.m_difficultyTarget : Int) * (L : Nat) * ((L : Nat) + 1) / 8 := by
    have hT1 : toU64 (toInt64 c.m_difficultyTarget) = c.m_difficultyTarget := by
      rw [toInt64_small c.m_difficultyTarget hT]
      unfold toU64
      omega
    rw [hT1]
    have h1 : c.m_difficultyTarget * L ≤ 1023 * 720 := Nat.mul_le_mul (by omega) hL3
    have h3 : u64 (c.m_difficultyTarget * L) = c.m_difficultyTarget * L := by unfold u64; omega
    rw [h3]
    have h4 : c.m_difficultyTarget * L * (L + 1) ≤ 1023 * 720 * 721 :=
      Nat.mul_le_mul h1 (by omega)
    have h6 : u64 (c.m_difficultyTarget * L * (L + 1)) = c.m_difficultyTarget * L * (L + 1) := by
      unfold u64; omega
    rw [h6]
    have h7 : toInt64 ((c.m_difficultyTarget * L * (L + 1) / 8 : Nat) : Int) =
        ((c.m_difficultyTarget * L * (L + 1) / 8 : Nat) : Int) := by
      unfold toInt64
      omega
    rw [h7]
    push_cast
    rfl
  refine ⟨hval, hmin.1, ?_, ?_⟩
  · split <;> omega
  · split <;> omega

/-- The limit `minWST` of `nextDifficultyV4` and its divisor, for a target in `[4, 2^10)` and
at least two timestamps. -/
theorem nextDifficultyV4_divisor (c : Currency)
    (hT4 : 4 ≤ c.m_difficultyTarget) (hT : c.m_difficultyTarget < 2 ^ 10) (version : Nat)
    (timestamps : List Nat) (h2 : 2 ≤ timestamps.length) :
    nextDifficultyV4_minWST c version timestamps =
        (c.m_difficultyTarget : Int) * (min timestamps.length 720 : Nat) *
          ((min timestamps.length 720 : Nat) - 1) / 8 ∧
      1 ≤ nextDifficultyV4_minWST c version timestamps ∧
      nextDifficultyV4_LWMA c version timestamps =
        max (nextDifficultyV4_minWST c version timestamps)
          (lwmaV4 c.m_blockFutureTimeLimit (timestamps.take 720)
            (min timestamps.length 720)) ∧
      nextDifficultyV4_LWMA c version timestamps < 2 ^ 63 := by
  unfold nextDifficultyV4_LWMA nextDifficultyV4_minWST
  simp only [difficultyWindowByBlockVersion_eq, trim_eq_take 720 timestamps.length timestamps rfl]
  have hL : (timestamps.take 720).length = min timestamps.length 720 := by
    rw [List.length_take, Nat.min_comm]
  rw [hL]
  have hL2 : 2 ≤ min timestamps.length 720 := by omega
  have hL3 : min timestamps.length 720 ≤ 720 := by omega
  generalize min timestamps.length 720 = L at hL2 hL3 ⊢
  have hmin := minWST_pos c.m_difficultyTarget L (L - 1) hT4 hT hL2 hL3 (Or.inr rfl)
  have hr := lwmaV4_range c.m_blockFutureTimeLimit (timestamps.take 720) L
  have hval : toInt64 ((u64 (u64 (toU64 (toInt64 c.m_difficultyTarget) * L) * (L - 1)) / 8 : Nat)) =
      (c.m_difficultyTarget : Int) * (L : Nat) * ((L : Nat) - 1) / 8 := by
    have hT1 : toU64 (toInt64 c.m_difficultyTarget) = c.m_difficultyTarget := by
      rw [toInt64_small c.m_difficultyTarget hT]
      unfold toU64
      omega
    rw [hT1]
    have h1 : c.m_difficultyTarget * L ≤ 1023 * 720 := Nat.mul_le_mul (by omega) hL3
    have h3 : u64 (c.m_difficultyTarget * L) = c.m_difficultyTarget * L := by unfold u64; omega
    rw [h3]
    have h4 : c.m_difficultyTarget * L * (L - 1) ≤ 1023 * 720 * 721 :=
      Nat.mul_le_mul h1 (by omega)
    have h6 : u64 (c.m_difficultyTarget * L * (L - 1)) = c.m_difficultyTarget * L * (L - 1) := by
      unfold u64; omega
    rw [h6]
    have h7 : toInt64 ((c.m_difficultyTarget * L * (L - 1) / 8 : Nat) : Int) =
        ((c.m_difficultyTarget * L * (L - 1) / 8 : Nat) : Int) := by
      unfold toInt64
      omega
    rw [h7]
    have h8 : ((L - 1 : Nat) : Int) = (L : Int) - 1 := by omega
    push_cast
    rw [h8]
  refine ⟨hval, hmin.1, ?_, ?_⟩
  · split <;> omega
  · split <;> omega

/-- On equal-length vectors of at least two entries and for a target in `[4, 2^10)`,
`nextDifficultyV3` is the quotient of the low half of `totalWork · aimedTarget` by its
divisor, or 0 when the product has a high half. -/
theorem nextDifficultyV3_eq_div (c : Currency)
    (hT4 : 4 ≤ c.m_difficultyTarget) (hT : c.m_difficultyTarget < 2 ^ 10) (version : Nat)
    (timestamps cumulativeDifficulties : List Nat)
    (hlen : timestamps.length = cumulativeDifficulties.length) (h2 : 2 ≤ timestamps.length) :
    ∃ aimed, aimedTarget (min timestamps.length 720 + 1) (c.m_difficultyTarget : Int) =
        some aimed ∧
      nextDifficultyV3 c version timestamps cumulativeDifficulties =
        some (if (mul128 (subU64 ((cumulativeDifficulties.take 720).getLastD 0)
            ((cumulativeDifficulties.take 720).headD 0)) aimed).2 ≠ 0 then 0
          else (mul128 (subU64 ((cumulativeDifficulties.take 720).getLastD 0)
              ((cumulativeDifficulties.take 720).headD 0)) aimed).1 /
            toU64 (nextDifficultyV3_weightedSolveTimes c version timestamps)) := by
  obtain ⟨_, hd1, _, hd3⟩ := nextDifficultyV3_divisor c hT4 hT version timestamps h2
  have hW : toU64 (nextDifficultyV3_weightedSolveTimes c version timestamps) ≠ 0 :=
    toU64_ne_zero _ (by omega) hd3
  have hL2 : 2 ≤ min timestamps.length 720 := by omega
  have hL3 : min timestamps.length 720 ≤ 720 := by omega
  obtain ⟨a, ha⟩ := aimedTarget_isSome (min timestamps.length 720 + 1)
    (c.m_difficultyTarget : Int) (by omega) (by omega) (by omega)
  refine ⟨a, ha, ?_⟩
  have hTi := toInt64_small c.m_difficultyTarget hT
  have hL : (timestamps.take 720).length = min timestamps.length 720 := by
    rw [List.length_take, Nat.min_comm]
  generalize hWdef : nextDifficultyV3_weightedSolveTimes c version timestamps = W at hW
  unfold nextDifficultyV3_weightedSolveTimes at hWdef
  simp only [difficultyWindowByBlockVersion_eq,
    trim_eq_take 720 timestamps.length timestamps rfl] at hWdef
  unfold nextDifficultyV3
  simp only [difficultyWindowByBlockVersion_eq, trim_eq_take 720 timestamps.length timestamps rfl,
    trim_eq_take 720 timestamps.length cumulativeDifficulties hlen.symm]
  rw [hWdef, hL, hTi, ha, if_neg (by omega), Option.some_bind]
  rw [if_neg hW]
  exact (apply_ite some _ _ _).symm

/-- On equal-length vectors of at least two entries and for a target in `[4, 2^10)`,
`nextDifficultyV4` is the quotient of the low half of `totalWork · aimedTarget` by its
divisor, or 0 when the product has a high half. -/
theorem nextDifficultyV4_eq_div (c : Currency)
    (hT4 : 4 ≤ c.m_difficultyTarget) (hT : c.m_difficultyTarget < 2 ^ 10) (version : Nat)
    (timestamps cumulativeDifficulties : List Nat)
    (hlen : timestamps.length = cumulativeDifficulties.length) (h2 : 2 ≤ timestamps.length) :
    ∃ aimed, aimedTarget (min timestamps.length 720) (c.m_difficultyTarget : Int) =
        some aimed ∧
      nextDifficultyV4 c version timestamps cumulativeDifficulties =
        some (if (mul128 (subU64 ((cumulativeDifficulties.take 720).getLastD 0)
            ((cumulativeDifficulties.take 720).headD 0)) aimed).2 ≠ 0 then 0
          else (mul128 (subU64 ((cumulativeDifficulties.take 720).getLastD 0)
              ((cumulativeDifficulties.take 720).headD 0)) aimed).1 /
            toU64 (nextDifficultyV4_LWMA c version timestamps)) := by
  obtain ⟨_, hd1, _, hd3⟩ := nextDifficultyV4_divisor c hT4 hT version timestamps h2
  have hW : toU64 (nextDifficultyV4_LWMA c version timestamps) ≠ 0 :=
    toU64_ne_zero _ (by omega) hd3
  have hL2 : 2 ≤ min timestamps.length 720 := by omega
  have hL3 : min timestamps.length 720 ≤ 720 := by omega
  obtain ⟨a, ha⟩ := aimedTarget_isSome (min timestamps.length 720)
    (c.m_difficultyTarget : Int) (by omega) (by omega) (by omega)
  refine ⟨a, ha, ?_⟩
  have hTi := toInt64_small c.m_difficultyTarget hT
  have hL : (timestamps.take 720).length = min timestamps.length 720 := by
    rw [List.length_take, Nat.min_comm]
  generalize hWdef : nextDifficultyV4_LWMA c version timestamps = W at hW
  unfold nextDifficultyV4_LWMA at hWdef
  simp only [difficultyWindowByBlockVersion_eq,
    trim_eq_take 720 timestamps.length timestamps rfl] at hWdef
  unfold nextDifficultyV4
  simp only [difficultyWindowByBlockVersion_eq, trim_eq_take 720 timestamps.length timestamps rfl,
    trim_eq_take 720 timestamps.length cumulativeDifficulties hlen.symm]
  rw [hWdef, hL, hTi, ha, if_neg (by omega), Option.some_bind]
  rw [if_neg hW]
  exact (apply_ite some _ _ _).symm

/-- The test of the high half of the 128-bit product is the test whether the product of two
64-bit values fits 64 bits. -/
theorem mul128_ite (tw a W : Nat) (htw : tw < 2 ^ 64) (ha : a < 2 ^ 64) :
    (if (mul128 tw a).2 ≠ 0 then 0 else (mul128 tw a).1 / W) =
      if tw * a < 2 ^ 64 then tw * a / W else 0 := by
  unfold mul128
  dsimp only
  have hp : tw * a < 2 ^ 64 * 2 ^ 64 := by
    rcases Nat.eq_zero_or_pos a with h0 | h0
    · subst h0; norm_num
    · exact Nat.mul_lt_mul'' htw ha
  generalize tw * a = P at hp
  by_cases hlt : P < 2 ^ 64
  · rw [if_pos hlt, if_neg, Nat.mod_eq_of_lt hlt]
    rw [Nat.div_eq_of_lt hlt]
    simp
  · rw [if_neg hlt, if_pos]
    omega

/-- The method `back()` reads the entry at index `length - 1`. -/
theorem getLastD_eq_getD (l : List Nat) : l.getLastD 0 = l.getD (l.length - 1) 0 := by
  rcases List.eq_nil_or_concat' l with h | ⟨L, b, rfl⟩
  · subst h; rfl
  · rw [List.getLastD_concat, List.length_append, List.length_singleton, Nat.add_sub_cancel,
      List.getD_append_right _ _ _ _ (Nat.le_refl _), Nat.sub_self]
    rfl

/-- The method `front()` reads the entry at index 0. -/
theorem headD_eq_getD (l : List Nat) : l.headD 0 = l.getD 0 0 := by
  cases l <;> rfl

/-- A non-negative `int64_t` converts to `uint64_t` without change. -/
theorem toU64_eq_toNat (W : Int) (h1 : 0 ≤ W) (h2 : W < 2 ^ 63) : toU64 W = W.toNat := by
  unfold toU64
  omega

/-- C31: on equal-length inputs of at least two entries, with `L` the length after trimming to
the window 720 and a target in `[4, 2^10)` (60 on mainnet, 15 on testnet), `nextDifficultyV3`
returns `floor(totalWork · aimed / W)` when `totalWork · aimed` is below `2^64` and 0
otherwise, where `W = max(minW, sum over i = 1 .. L-1 of
i · clamp(timestamps[i] - timestamps[i-1], -5·target, 6·target))` with signed 64-bit solve
times, `minW = target · L · (L+1) / 8`, `totalWork` is the 64-bit difference
`cumDiff[L-1] - cumDiff[0]` and `aimed` is `0.9909 · ((L+1) / 2.0) · target` evaluated in
double precision and truncated. -/
theorem nextDifficultyV3_closed_form (c : Currency)
    (hT4 : 4 ≤ c.m_difficultyTarget) (hT : c.m_difficultyTarget < 2 ^ 10) (version : Nat)
    (timestamps cumulativeDifficulties : List Nat)
    (hlen : timestamps.length = cumulativeDifficulties.length) (h2 : 2 ≤ timestamps.length) :
    let L := min timestamps.length 720
    let target : Int := c.m_difficultyTarget
    let minW : Int := target * L * (L + 1) / 8
    let W : Int := max minW (clampedSolveTimeSum target (timestamps.take 720) L)
    let cumDiff := cumulativeDifficulties.take 720
    let totalWork := subU64 (cumDiff.getD (L - 1) 0) (cumDiff.getD 0 0)
    ∃ aimed, aimedTarget (L + 1) target = some aimed ∧ 1 ≤ minW ∧ minW ≤ W ∧
      (cumDiff.getD 0 0 ≤ cumDiff.getD (L - 1) 0 → cumDiff.getD (L - 1) 0 < 2 ^ 64 →
        totalWork = cumDiff.getD (L - 1) 0 - cumDiff.getD 0 0) ∧
      nextDifficultyV3 c version timestamps cumulativeDifficulties =
        some (if totalWork * aimed < 2 ^ 64 then totalWork * aimed / W.toNat else 0) := by
  intro L target minW W cumDiff totalWork
  obtain ⟨hm, hd1, hWeq, hd3⟩ := nextDifficultyV3_divisor c hT4 hT version timestamps h2
  obtain ⟨aimed, ha, hnd⟩ := nextDifficultyV3_eq_div c hT4 hT version timestamps
    cumulativeDifficulties hlen h2
  have hTi := toInt64_small c.m_difficultyTarget hT
  have hminW : nextDifficultyV3_minWST c version timestamps = minW := hm
  have hW : nextDifficultyV3_weightedSolveTimes c version timestamps = W := by
    rw [hWeq, hminW, hTi,
      weightedSolveTimesV3_eq_sum _ (by omega) (by omega) _ _ (by omega)]
  have hlenc : cumDiff.length = L := by
    show (cumulativeDifficulties.take 720).length = min timestamps.length 720
    rw [List.length_take, ← hlen, Nat.min_comm]
  have htw : subU64 (cumDiff.getLastD 0) (cumDiff.headD 0) = totalWork := by
    show _ = subU64 (cumDiff.getD (L - 1) 0) (cumDiff.getD 0 0)
    rw [getLastD_eq_getD, headD_eq_getD, hlenc]
  have hWpos : 1 ≤ W := by
    rw [← hW, hWeq]
    exact le_trans hd1 (le_max_left _ _)
  refine ⟨aimed, ha, by rw [← hminW]; exact hd1, le_max_left _ _,
    fun h1 h2 => subU64_eq_sub _ _ h1 h2, ?_⟩
  rw [hnd]
  show some (if (mul128 (subU64 (cumDiff.getLastD 0) (cumDiff.headD 0)) aimed).2 ≠ 0 then 0
    else (mul128 (subU64 (cumDiff.getLastD 0) (cumDiff.headD 0)) aimed).1 /
      toU64 (nextDifficultyV3_weightedSolveTimes c version timestamps)) = _
  rw [htw, hW, toU64_eq_toNat W (by omega) (by rw [← hW]; exact hd3),
    mul128_ite totalWork aimed _ (subU64_lt _ _) (aimedTarget_lt _ _ _ ha)]

theorem nextDifficultyV3_closed_form_witness :
    4 ≤ ({} : Currency).m_difficultyTarget ∧ ({} : Currency).m_difficultyTarget < 2 ^ 10 ∧
      ([0, 60, 130] : List Nat).length = ([0, 100, 250] : List Nat).length ∧
      2 ≤ ([0, 60, 130] : List Nat).length ∧
      aimedTarget 4 60 = some 118 ∧
      clampedSolveTimeSum 60 [0, 60, 130] 3 = 200 ∧
      nextDifficultyV3 {} 3 [0, 60, 130] [0, 100, 250] = some (250 * 118 / 200) := by
  refine ⟨by decide, by decide, rfl, by decide, by decide, by decide, ?_⟩
  obtain ⟨aimed, ha, _, _, _, h⟩ := nextDifficultyV3_closed_form {} (by decide) (by decide) 3
    [0, 60, 130] [0, 100, 250] rfl (by decide)
  have h118 : aimedTarget 4 60 = some 118 := by decide
  have haimed : aimed = 118 := Option.some.inj (ha.symm.trans h118)
  subst haimed
  exact h.trans (by decide)

/-- C32, amended: on equal-length inputs of at least two entries, with `L` the length after
trimming to the window 720, a target in `[4, 2^10)` (60 on mainnet, 15 on testnet), and
timestamps and a block future time limit below `2^40`, for which every solve time is the
difference itself and no signed 64-bit operation of the loop overflows, `nextDifficultyV4` returns `floor(totalWork · aimed / W)` when `totalWork · aimed`
is below `2^64` and 0 otherwise, where `W = max(minW, sum over i = 1 .. L-1 of
i · max(-blockFutureTimeLimit, timestamps[i] - timestamps[i-1]))` without an upper limit on
the solve time, `minW = target · L · (L-1) / 8`, `totalWork` is the 64-bit difference
`cumDiff[L-1] - cumDiff[0]` and `aimed` is `0.9909 · (L / 2.0) · target` evaluated in double
precision and truncated. -/
theorem nextDifficultyV4_closed_form (c : Currency)
    (hT4 : 4 ≤ c.m_difficultyTarget) (hT : c.m_difficultyTarget < 2 ^ 10)
    (hF : c.m_blockFutureTimeLimit < 2 ^ 40) (version : Nat)
    (timestamps cumulativeDifficulties : List Nat)
    (hlen : timestamps.length = cumulativeDifficulties.length) (h2 : 2 ≤ timestamps.length)
    (hts : ∀ t ∈ timestamps, t < 2 ^ 40) :
    let L := min timestamps.length 720
    let target : Int := c.m_difficultyTarget
    let minW : Int := target * L * (L - 1) / 8
    let W : Int := max minW
      (limitedSolveTimeSum c.m_blockFutureTimeLimit (timestamps.take 720) L)
    let cumDiff := cumulativeDifficulties.take 720
    let totalWork := subU64 (cumDiff.getD (L - 1) 0) (cumDiff.getD 0 0)
    ∃ aimed, aimedTarget L target = some aimed ∧ 1 ≤ minW ∧ minW ≤ W ∧
      (cumDiff.getD 0 0 ≤ cumDiff.getD (L - 1) 0 → cumDiff.getD (L - 1) 0 < 2 ^ 64 →
        totalWork = cumDiff.getD (L - 1) 0 - cumDiff.getD 0 0) ∧
      nextDifficultyV4 c version timestamps cumulativeDifficulties =
        some (if totalWork * aimed < 2 ^ 64 then totalWork * aimed / W.toNat else 0) := by
  intro L target minW W cumDiff totalWork
  obtain ⟨hm, hd1, hWeq, hd3⟩ := nextDifficultyV4_divisor c hT4 hT version timestamps h2
  obtain ⟨aimed, ha, hnd⟩ := nextDifficultyV4_eq_div c hT4 hT version timestamps
    cumulativeDifficulties hlen h2
  have hminW : nextDifficultyV4_minWST c version timestamps = minW := hm
  have hW : nextDifficultyV4_LWMA c version timestamps = W := by
    rw [hWeq, hminW, lwmaV4_eq_sum _ hF _
      (fun t ht => hts t (List.mem_of_mem_take ht)) _ (by omega)]
  have hlenc : cumDiff.length = L := by
    show (cumulativeDifficulties.take 720).length = min timestamps.length 720
    rw [List.length_take, ← hlen, Nat.min_comm]
  have htw : subU64 (cumDiff.getLastD 0) (cumDiff.headD 0) = totalWork := by
    show _ = subU64 (cumDiff.getD (L - 1) 0) (cumDiff.getD 0 0)
    rw [getLastD_eq_getD, headD_eq_getD, hlenc]
  have hWpos : 1 ≤ W := by
    rw [← hW, hWeq]
    exact le_trans hd1 (le_max_left _ _)
  refine ⟨aimed, ha, by rw [← hminW]; exact hd1, le_max_left _ _,
    fun h1 h2 => subU64_eq_sub _ _ h1 h2, ?_⟩
  rw [hnd]
  show some (if (mul128 (subU64 (cumDiff.getLastD 0) (cumDiff.headD 0)) aimed).2 ≠ 0 then 0
    else (mul128 (subU64 (cumDiff.getLastD 0) (cumDiff.headD 0)) aimed).1 /
      toU64 (nextDifficultyV4_LWMA c version timestamps)) = _
  rw [htw, hW, toU64_eq_toNat W (by omega) (by rw [← hW]; exact hd3),
    mul128_ite totalWork aimed _ (subU64_lt _ _) (aimedTarget_lt _ _ _ ha)]

theorem nextDifficultyV4_closed_form_witness :
    4 ≤ ({} : Currency).m_difficultyTarget ∧ ({} : Currency).m_difficultyTarget < 2 ^ 10 ∧
      ({} : Currency).m_blockFutureTimeLimit < 2 ^ 40 ∧
      ([0, 60, 130] : List Nat).length = ([0, 100, 250] : List Nat).length ∧
      2 ≤ ([0, 60, 130] : List Nat).length ∧
      (∀ t ∈ ([0, 60, 130] : List Nat), t < 2 ^ 40) ∧
      aimedTarget 3 60 = some 89 ∧
      limitedSolveTimeSum 7200 [0, 60, 130] 3 = 200 ∧
      nextDifficultyV4 {} 4 [0, 60, 130] [0, 100, 250] = some (250 * 89 / 200) := by
  refine ⟨by decide, by decide, by decide, rfl, by decide, by decide, by decide, by decide, ?_⟩
  obtain ⟨aimed, ha, _, _, _, h⟩ := nextDifficultyV4_closed_form {} (by decide) (by decide)
    (by decide) 4 [0, 60, 130] [0, 100, 250] rfl (by decide) (by decide)
  have h89 : aimedTarget 3 60 = some 89 := by decide
  have haimed : aimed = 89 := Option.some.inj (ha.symm.trans h89)
  subst haimed
  exact h.trans (by decide)

/-- C32, counterexample: with the timestamps `[0, 2^63]` the difference
`timestamps[1] - timestamps[0]` is `2^63` and the sum of the claim is `2^63`, so that the
claimed value is `floor(100 · 59 / 2^63) = 0`; in the code the solve time is the signed 64-bit
value `-2^63`, which is limited to `-7200`, the divisor is `minW = 15` and the function returns
`floor(5900 / 15) = 393`. No signed operation overflows on this input. -/
theorem nextDifficultyV4_signed_solve_time :
    nextDifficultyV4 {} 4 [0, 2 ^ 63] [0, 100] = some 393 ∧
      aimedTarget 2 60 = some 59 ∧
      limitedSolveTimeSum 7200 [0, 2 ^ 63] 2 = 2 ^ 63 ∧
      subU64 100 0 * 59 < 2 ^ 64 ∧
      subU64 100 0 * 59 /
        (max (60 * 2 * (2 - 1) / 8) (limitedSolveTimeSum 7200 [0, 2 ^ 63] 2)).toNat = 0 ∧
      lwmaV4 7200 [0, 2 ^ 63] 2 = -7200 ∧
      nextDifficultyV4_LWMA {} 4 [0, 2 ^ 63] = 15 := by
  decide

/-- C38: for every input of at least two entries and every target in `[4, 2^10)`, which
covers the two default targets 60 and 15, the limit `minWST` of `nextDifficultyV3` and of
`nextDifficultyV4` is at least 1, the divisor is at least `minWST` and is a positive signed
64-bit value, so that its reading as an unsigned value is not zero, and on equal-length
vectors both functions return the quotient by that divisor, or 0 when the product has a high
half: neither divides by zero or by a negative weighted solve time, whatever the timestamps
are. -/
theorem lwma_divisor_ge_minWST (c : Currency)
    (hT4 : 4 ≤ c.m_difficultyTarget) (hT : c.m_difficultyTarget < 2 ^ 10) (version : Nat)
    (timestamps cumulativeDifficulties : List Nat)
    (hlen : timestamps.length = cumulativeDifficulties.length) (h2 : 2 ≤ timestamps.length) :
    (1 ≤ nextDifficultyV3_minWST c version timestamps ∧
      nextDifficultyV3_minWST c version timestamps ≤
        nextDifficultyV3_weightedSolveTimes c version timestamps ∧
      nextDifficultyV3_weightedSolveTimes c version timestamps < 2 ^ 63 ∧
      toU64 (nextDifficultyV3_weightedSolveTimes c version timestamps) ≠ 0 ∧
      ∃ aimed, aimedTarget (min timestamps.length 720 + 1) (c.m_difficultyTarget : Int) =
          some aimed ∧
        nextDifficultyV3 c version timestamps cumulativeDifficulties =
          some (if (mul128 (subU64 ((cumulativeDifficulties.take 720).getLastD 0)
              ((cumulativeDifficulties.take 720).headD 0)) aimed).2 ≠ 0 then 0
            else (mul128 (subU64 ((cumulativeDifficulties.take 720).getLastD 0)
                ((cumulativeDifficulties.take 720).headD 0)) aimed).1 /
              toU64 (nextDifficultyV3_weightedSolveTimes c version timestamps))) ∧
    (1 ≤ nextDifficultyV4_minWST c version timestamps ∧
      nextDifficultyV4_minWST c version timestamps ≤
        nextDifficultyV4_LWMA c version timestamps ∧
      nextDifficultyV4_LWMA c version timestamps < 2 ^ 63 ∧
      toU64 (nextDifficultyV4_LWMA c version timestamps) ≠ 0 ∧
      ∃ aimed, aimedTarget (min timestamps.length 720) (c.m_difficultyTarget : Int) =
          some aimed ∧
        nextDifficultyV4 c version timestamps cumulativeDifficulties =
          some (if (mul128 (subU64 ((cumulativeDifficulties.take 720).getLastD 0)
              ((cumulativeDifficulties.take 720).headD 0)) aimed).2 ≠ 0 then 0
            else (mul128 (subU64 ((cumulativeDifficulties.take 720).getLastD 0)
                ((cumulativeDifficulties.take 720).headD 0)) aimed).1 /
              toU64 (nextDifficultyV4_LWMA c version timestamps))) := by
  obtain ⟨_, h31, h32, h33⟩ := nextDifficultyV3_divisor c hT4 hT version timestamps h2
  obtain ⟨_, h41, h42, h43⟩ := nextDifficultyV4_divisor c hT4 hT version timestamps h2
  have h3le : nextDifficultyV3_minWST c version timestamps ≤
      nextDifficultyV3_weightedSolveTimes c version timestamps := by
    rw [h32]
    exact le_max_left _ _
  have h4le : nextDifficultyV4_minWST c version timestamps ≤
      nextDifficultyV4_LWMA c version timestamps := by
    rw [h42]
    exact le_max_left _ _
  exact ⟨⟨h31, h3le, h33, toU64_ne_zero _ (le_trans h31 h3le) h33,
      nextDifficultyV3_eq_div c hT4 hT version timestamps cumulativeDifficulties hlen h2⟩,
    ⟨h41, h4le, h43, toU64_ne_zero _ (le_trans h41 h4le) h43,
      nextDifficultyV4_eq_div c hT4 hT version timestamps cumulativeDifficulties hlen h2⟩⟩

theorem lwma_divisor_ge_minWST_witness :
    (4 ≤ ({} : Currency).m_difficultyTarget ∧ ({} : Currency).m_difficultyTarget < 2 ^ 10 ∧
      ([0, 1000] : List Nat).length = ([0, 1] : List Nat).length ∧
      2 ≤ ([0, 1000] : List Nat).length ∧
      1 ≤ nextDifficultyV3_minWST {} 3 [0, 1000] ∧
      1 ≤ nextDifficultyV4_minWST {} 4 [0, 1000]) ∧
    (4 ≤ ({ m_difficultyTarget := 15 } : Currency).m_difficultyTarget ∧
      ({ m_difficultyTarget := 15 } : Currency).m_difficultyTarget < 2 ^ 10 ∧
      nextDifficultyV4_minWST { m_difficultyTarget := 15 } 4 [5, 0] = 3 ∧
      nextDifficultyV4_LWMA { m_difficultyTarget := 15 } 4 [5, 0] = 3 ∧
      1 ≤ nextDifficultyV4_minWST { m_difficultyTarget := 15 } 4 [5, 0]) :=
  ⟨⟨by decide, by decide, rfl, by decide,
      (lwma_divisor_ge_minWST {} (by decide) (by decide) 3 [0, 1000] [0, 1] rfl
        (by decide)).1.1,
      (lwma_divisor_ge_minWST {} (by decide) (by decide) 4 [0, 1000] [0, 1] rfl
        (by decide)).2.1⟩,
    ⟨by decide, by decide, by decide, by decide,
      (lwma_divisor_ge_minWST { m_difficultyTarget := 15 } (by decide) (by decide) 4 [5, 0]
        [0, 1] rfl (by decide)).2.1⟩⟩

/-! ## The table of pretty amounts -/

set_option maxRecDepth 100000 in
/-- The entries of PRETTY_AMOUNTS before the last one, by index. -/
theorem PRETTY_AMOUNTS_getD :
    ∀ i < 171, PRETTY_AMOUNTS.getD i 0 = (i % 9 + 1) * 10 ^ (i / 9) := by
  decide

set_option maxRecDepth 100000 in
/-- PRETTY_AMOUNTS is strictly increasing: each entry is below the next one. -/
theorem PRETTY_AMOUNTS_pairwise : PRETTY_AMOUNTS.Pairwise (· < ·) := by
  decide

/-- A 64-bit value of the form `d · 10^k` with a digit `d` from 1 to 9 is a member of
PRETTY_AMOUNTS. -/
theorem mem_PRETTY_AMOUNTS_of_digit (d k : Nat) (h1 : 1 ≤ d) (h9 : d ≤ 9)
    (h : d * 10 ^ k < 2 ^ 64) : d * 10 ^ k ∈ PRETTY_AMOUNTS := by
  by_cases hk : k < 19
  · exact digit_mem_PRETTY_AMOUNTS k hk d (by omega) (by omega)
  · have hk19 : 10 ^ 19 ≤ 10 ^ k := Nat.pow_le_pow_right (by norm_num) (by omega)
    by_cases hk20 : k = 19
    · subst hk20
      have hd : d = 1 := by
        by_contra hne
        have h2 : 2 ≤ d := by omega
        have := Nat.mul_le_mul_right (10 ^ 19) h2
        norm_num at this h
        omega
      subst hd
      decide
    · exfalso
      have hk20 : 10 ^ 20 ≤ 10 ^ k := Nat.pow_le_pow_right (by norm_num) (by omega)
      have : 10 ^ k ≤ d * 10 ^ k := Nat.le_mul_of_pos_left _ (by omega)
      norm_num at hk20 h
      omega

/-- A member of PRETTY_AMOUNTS is a digit from 1 to 9 times a power of ten. -/
theorem digit_of_mem_PRETTY_AMOUNTS (x : Nat) (hx : x ∈ PRETTY_AMOUNTS) :
    ∃ d k, 1 ≤ d ∧ d ≤ 9 ∧ x = d * 10 ^ k := by
  obtain ⟨i, hi, rfl⟩ := List.getElem_of_mem hx
  have hlen : PRETTY_AMOUNTS.length = 172 := rfl
  have hg : PRETTY_AMOUNTS[i] = PRETTY_AMOUNTS.getD i 0 := by
    rw [List.getD_eq_getElem _ _ hi]
  rw [hg]
  by_cases h171 : i < 171
  · refine ⟨i % 9 + 1, i / 9, by omega, by omega, PRETTY_AMOUNTS_getD i h171⟩
  · have : i = 171 := by omega
    subst this
    exact ⟨1, 19, by omega, by omega, by decide⟩

/-- C33: PRETTY_AMOUNTS has exactly 172 entries, is strictly increasing, its entry at an index
`i < 171` is `(i mod 9 + 1) · 10^(i div 9)` and its last entry is `10^19`; a 64-bit value
belongs to PRETTY_AMOUNTS if and only if it has the form `d · 10^k` with `d` from 1 to 9. -/
theorem PRETTY_AMOUNTS_shape :
    PRETTY_AMOUNTS.length = 172 ∧
      PRETTY_AMOUNTS.Pairwise (· < ·) ∧
      (∀ i, i < 171 → PRETTY_AMOUNTS.getD i 0 = (i % 9 + 1) * 10 ^ (i / 9)) ∧
      PRETTY_AMOUNTS.getD 171 0 = 10 ^ 19 ∧
      PRETTY_AMOUNTS.getLast? = some (10 ^ 19) ∧
      ∀ x, x < 2 ^ 64 → (x ∈ PRETTY_AMOUNTS ↔ ∃ d k, 1 ≤ d ∧ d ≤ 9 ∧ x = d * 10 ^ k) := by
  refine ⟨rfl, PRETTY_AMOUNTS_pairwise, PRETTY_AMOUNTS_getD,
    by decide, by decide, ?_⟩
  intro x hx
  constructor
  · exact digit_of_mem_PRETTY_AMOUNTS x
  · rintro ⟨d, k, h1, h9, rfl⟩
    exact mem_PRETTY_AMOUNTS_of_digit d k h1 h9 hx

theorem PRETTY_AMOUNTS_shape_witness :
    70 < 171 ∧ PRETTY_AMOUNTS.getD 70 0 = 80000000 ∧
      7000 < 2 ^ 64 ∧ 7000 ∈ PRETTY_AMOUNTS ∧
      11000 < 2 ^ 64 ∧ ¬ ∃ d k, 1 ≤ d ∧ d ≤ 9 ∧ 11000 = d * 10 ^ k :=
  ⟨by decide, (PRETTY_AMOUNTS_shape.2.2.1 70 (by decide)).trans (by decide),
    by decide, (PRETTY_AMOUNTS_shape.2.2.2.2.2 7000 (by decide)).mpr ⟨7, 3, by decide⟩,
    by decide,
    fun h => absurd ((PRETTY_AMOUNTS_shape.2.2.2.2.2 11000 (by decide)).mpr h) (by decide)⟩

/-! ## Invariants of the reward and of fusion transactions -/

/-- The 64-bit arithmetic behind `reward - emissionChange`: with `reward = (b + p) mod 2^64`
and `emissionChange` the signed reading of `b - (fee - p)`, the difference is congruent to
`fee`. -/
theorem reward_sub_emissionChange (b p fee : Nat) :
    (((u64 (b + p) : Nat) : Int) - toInt64 ((subU64 b (subU64 fee p) : Nat) : Int)) % 2 ^ 64 =
      (fee : Int) % 2 ^ 64 := by
  unfold u64 subU64 toInt64
  omega

/-- C36: whenever `getBlockReward` succeeds, for every block version, median size, block size,
fee and difficulty, `reward - emissionChange` is congruent to `fee` modulo `2^64`: the reward
is the emission change plus the full fee, whether or not the fee is penalized; so for a
64-bit fee the unsigned 64-bit difference is the fee itself. -/
theorem getBlockReward_reward_sub_emissionChange (blockMajorVersion medianSize currentBlockSize
    alreadyGeneratedCoins fee diff : Nat) (r : Nat × Int)
    (h : getBlockReward blockMajorVersion medianSize currentBlockSize alreadyGeneratedCoins fee
      diff = some r) :
    ((r.1 : Int) - r.2) % 2 ^ 64 = (fee : Int) % 2 ^ 64 ∧
      (fee < 2 ^ 64 → toU64 ((r.1 : Int) - r.2) = fee) := by
  have hc : ((r.1 : Int) - r.2) % 2 ^ 64 = (fee : Int) % 2 ^ 64 := by
    unfold getBlockReward at h
    dsimp only at h
    split at h
    · exact absurd h (by simp)
    · rw [Option.some.injEq] at h
      subst h
      exact reward_sub_emissionChange _ _ _
  refine ⟨hc, fun hfee => ?_⟩
  unfold toU64
  rw [hc]
  omega

theorem getBlockReward_reward_sub_emissionChange_witness :
    getBlockReward 3 0 30000 0 1000000 1000 = some (8218122351024, 8218121351024) ∧
      ((8218122351024 : Int) - 8218121351024) % 2 ^ 64 = (1000000 : Int) % 2 ^ 64 ∧
      toU64 ((8218122351024 : Int) - 8218121351024) = 1000000 :=
  ⟨by decide,
    (getBlockReward_reward_sub_emissionChange 3 0 30000 0 1000000 1000
      (8218122351024, 8218121351024) (by decide)).1,
    (getBlockReward_reward_sub_emissionChange 3 0 30000 0 1000000 1000
      (8218122351024, 8218121351024) (by decide)).2 (by decide)⟩

/-- C37: whenever `isFusionTransaction(inputs, outputs, size)` returns true, the output
amounts are in ascending order and their sum is the sum of the input amounts modulo `2^64`:
a recognised fusion transaction pays no fee. -/
theorem isFusionTransaction_outputs (c : Currency) (inputsAmounts outputsAmounts : List Nat)
    (size : Nat) (h : isFusionTransaction c inputsAmounts outputsAmounts size = true) :
    outputsAmounts.Sorted (· ≤ ·) ∧ outputsAmounts.sum = inputsAmounts.sum % 2 ^ 64 := by
  unfold isFusionTransaction at h
  rw [sumInputsAmounts_eq c inputsAmounts 0 (by norm_num), Nat.zero_add] at h
  split at h
  · exact absurd h (by simp)
  split at h
  · exact absurd h (by simp)
  split at h
  · exact absurd h (by simp)
  by_cases h4 : ∀ amount ∈ inputsAmounts, c.m_defaultDustThreshold ≤ amount
  · rw [if_pos h4] at h
    dsimp only at h
    rw [beq_iff_eq] at h
    subst h
    refine ⟨List.sorted_insertionSort _ _, ?_⟩
    rw [(List.perm_insertionSort _ _).sum_eq]
    unfold decomposeAmount
    rw [sum_decomposeFrom, sum_digitChunks _ (Nat.mod_lt _ (by norm_num)), Nat.zero_add]
  · rw [if_neg h4] at h
    exact absurd h (by simp)

theorem isFusionTransaction_outputs_witness :
    isFusionTransaction {} (List.replicate 12 (10 ^ 7)) [2 * 10 ^ 7, 10 ^ 8] 100 = true ∧
      [2 * 10 ^ 7, 10 ^ 8].Sorted (· ≤ ·) ∧
      [2 * 10 ^ 7, 10 ^ 8].sum = (List.replicate 12 (10 ^ 7)).sum % 2 ^ 64 :=
  ⟨by decide,
    isFusionTransaction_outputs {} (List.replicate 12 (10 ^ 7)) [2 * 10 ^ 7, 10 ^ 8] 100
      (by decide)⟩

/-! ## Monotonicity of the fixed-point logarithm -/

/-- One iteration of the `for` loop of `log2_fix` on a value below `2^21`, the bit `b` being
`2^n` when `n` iterations remain after it: the square fits 64 bits. -/
theorem log2_fix_for_succ (n z y : Nat) (hz : z < 2 ^ 21) :
    log2_fix_for (n + 1) z y (2 ^ (n + 1) / 2) =
      if z * z / 2 ^ 20 ≥ 2 ^ 21 then
        log2_fix_for n (z * z / 2 ^ 20 / 2) (u64 (y + 2 ^ n)) (2 ^ n / 2)
      else log2_fix_for n (z * z / 2 ^ 20) y (2 ^ n / 2) := by
  have h21 : u64 (2 <<< log_fix_precision) = 2 ^ 21 := by decide
  have hzz : z * z < 2 ^ 42 := by nlinarith
  have hz1eq : u64 (z * z) >>> log_fix_precision = z * z / 2 ^ 20 := by
    unfold u64 log_fix_precision
    rw [Nat.shiftRight_eq_div_pow, Nat.mod_eq_of_lt (by omega)]
  have hb : 2 ^ (n + 1) / 2 = 2 ^ n := by
    rw [pow_succ, Nat.mul_div_cancel _ (by norm_num : 0 < 2)]
  have hb2 : (2 ^ n) >>> 1 = 2 ^ n / 2 := by
    rw [Nat.shiftRight_eq_div_pow, pow_one]
  have hs : ∀ w : Nat, w >>> 1 = w / 2 := by
    intro w
    rw [Nat.shiftRight_eq_div_pow, pow_one]
  rw [log2_fix_for, hz1eq, h21, hb, hb2, hs]

/-- The `for` loop of `log2_fix`, started on any value below `2^21` with `n` iterations left,
adds less than `2^n` to `y`. -/
theorem log2_fix_for_range (n : Nat) :
    ∀ z y : Nat, z < 2 ^ 21 → y + 2 ^ n ≤ 2 ^ 64 →
      y ≤ log2_fix_for n z y (2 ^ n / 2) ∧ log2_fix_for n z y (2 ^ n / 2) < y + 2 ^ n := by
  induction n with
  | zero =>
    intro z y hz hy
    unfold log2_fix_for
    exact ⟨le_refl _, by omega⟩
  | succ n ih =>
    intro z y hz hy
    have hzz : z * z < 2 ^ 42 := by nlinarith
    have hpow : 2 ^ (n + 1) = 2 ^ n + 2 ^ n := by
      rw [pow_succ]; omega
    have hpos : 0 < 2 ^ n := Nat.pos_pow_of_pos _ (by norm_num)
    rw [hpow] at hy
    rw [log2_fix_for_succ n z y hz, hpow]
    by_cases hge : z * z / 2 ^ 20 ≥ 2 ^ 21
    · rw [if_pos hge]
      have hy2 : u64 (y + 2 ^ n) = y + 2 ^ n := Nat.mod_eq_of_lt (by omega)
      rw [hy2]
      obtain ⟨h1, h2⟩ := ih (z * z / 2 ^ 20 / 2) (y + 2 ^ n) (by omega) (by omega)
      exact ⟨by omega, by omega⟩
    · rw [if_neg hge]
      obtain ⟨h1, h2⟩ := ih (z * z / 2 ^ 20) y (by omega) (by omega)
      exact ⟨h1, by omega⟩

/-- The `for` loop of `log2_fix` is monotone in the value it starts on. -/
theorem log2_fix_for_mono (n : Nat) :
    ∀ z z' y : Nat, z ≤ z' → z' < 2 ^ 21 → y + 2 ^ n ≤ 2 ^ 64 →
      log2_fix_for n z y (2 ^ n / 2) ≤ log2_fix_for n z' y (2 ^ n / 2) := by
  induction n with
  | zero =>
    intro z z' y hle hz hy
    unfold log2_fix_for
    exact le_refl _
  | succ n ih =>
    intro z z' y hle hz hy
    have hzz : z * z ≤ z' * z' := Nat.mul_le_mul hle hle
    have hzz2 : z' * z' < 2 ^ 42 := by nlinarith
    have hq : z * z / 2 ^ 20 ≤ z' * z' / 2 ^ 20 := Nat.div_le_div_right hzz
    have hpow : 2 ^ (n + 1) = 2 ^ n + 2 ^ n := by
      rw [pow_succ]; omega
    have hpos : 0 < 2 ^ n := Nat.pos_pow_of_pos _ (by norm_num)
    rw [hpow] at hy
    rw [log2_fix_for_succ n z y (by omega), log2_fix_for_succ n z' y hz]
    have hy2 : u64 (y + 2 ^ n) = y + 2 ^ n := Nat.mod_eq_of_lt (by omega)
    rw [hy2]
    by_cases hge : z * z / 2 ^ 20 ≥ 2 ^ 21
    · rw [if_pos hge, if_pos (le_trans hge hq)]
      exact ih _ _ _ (Nat.div_le_div_right hq) (by omega) (by omega)
    · rw [if_neg hge]
      by_cases hge2 : z' * z' / 2 ^ 20 ≥ 2 ^ 21
      · rw [if_pos hge2]
        obtain ⟨_, h2⟩ := log2_fix_for_range n (z * z / 2 ^ 20) y (by omega) (by omega)
        obtain ⟨h3, _⟩ := log2_fix_for_range n (z' * z' / 2 ^ 20 / 2) (y + 2 ^ n) (by omega)
          (by omega)
        omega
      · rw [if_neg hge2]
        exact ih _ _ _ hq (by omega) (by omega)

/-- The `while` loop of `log2_fix` adds at most `2^20` to `y` per iteration. -/
theorem log2_fix_while_snd (fuel : Nat) :
    ∀ x y : Nat, y + fuel * 2 ^ 20 < 2 ^ 64 →
      y ≤ (log2_fix_while fuel x y).2 ∧ (log2_fix_while fuel x y).2 ≤ y + fuel * 2 ^ 20 := by
  have h20 : u64 (1 <<< log_fix_precision) = 2 ^ 20 := by decide
  induction fuel with
  | zero =>
    intro x y hy
    unfold log2_fix_while
    exact ⟨le_refl _, by omega⟩
  | succ f ih =>
    intro x y hy
    have hf : (f + 1) * 2 ^ 20 = f * 2 ^ 20 + 2 ^ 20 := by ring
    rw [hf] at hy ⊢
    unfold log2_fix_while
    rw [h20]
    split
    · have hy2 : u64 (y + 2 ^ 20) = y + 2 ^ 20 := Nat.mod_eq_of_lt (by omega)
      rw [hy2]
      obtain ⟨h1, h2⟩ := ih (x >>> 1) (y + 2 ^ 20) (by omega)
      exact ⟨by omega, by omega⟩
    · exact ⟨le_refl _, by omega⟩

/-- The two loops of `log2_fix` in sequence return at least the `y` that they start on. -/
theorem log2_fix_loops_ge (fuel : Nat) (x y : Nat) (hx : x < 2 ^ (21 + fuel))
    (hy : y + fuel * 2 ^ 20 + 2 ^ 20 ≤ 2 ^ 64) :
    y ≤ log2_fix_for 20 (log2_fix_while fuel x y).1 (log2_fix_while fuel x y).2 (2 ^ 20 / 2) ∧
      log2_fix_for 20 (log2_fix_while fuel x y).1 (log2_fix_while fuel x y).2 (2 ^ 20 / 2) <
        y + fuel * 2 ^ 20 + 2 ^ 20 := by
  obtain ⟨h1, h2⟩ := log2_fix_while_snd fuel x y (by omega)
  obtain ⟨h3, h4⟩ := log2_fix_for_range 20 (log2_fix_while fuel x y).1
    (log2_fix_while fuel x y).2 (log2_fix_while_exit fuel x y hx) (by omega)
  exact ⟨by omega, by omega⟩

/-- The two loops of `log2_fix` in sequence are monotone in `x`. -/
theorem log2_fix_loops_mono (fuel : Nat) :
    ∀ x x' y : Nat, x ≤ x' → x' < 2 ^ (21 + fuel) → y + fuel * 2 ^ 20 + 2 ^ 20 ≤ 2 ^ 64 →
      log2_fix_for 20 (log2_fix_while fuel x y).1 (log2_fix_while fuel x y).2 (2 ^ 20 / 2) ≤
        log2_fix_for 20 (log2_fix_while fuel x' y).1 (log2_fix_while fuel x' y).2
          (2 ^ 20 / 2) := by
  have h21 : u64 (2 <<< log_fix_precision) = 2 ^ 21 := by decide
  have h20 : u64 (1 <<< log_fix_precision) = 2 ^ 20 := by decide
  induction fuel with
  | zero =>
    intro x x' y hle hx hy
    unfold log2_fix_while
    exact log2_fix_for_mono 20 x x' y hle (by simpa using hx) (by omega)
  | succ f ih =>
    intro x x' y hle hx hy
    have hf : (f + 1) * 2 ^ 20 = f * 2 ^ 20 + 2 ^ 20 := by ring
    have hp : 2 ^ (21 + (f + 1)) = 2 ^ (21 + f) * 2 := by
      rw [← Nat.add_assoc, Nat.pow_succ]
    rw [hf] at hy
    rw [hp] at hx
    have hs : ∀ w : Nat, w >>> 1 = w / 2 := by
      intro w
      rw [Nat.shiftRight_eq_div_pow, pow_one]
    have hy2 : u64 (y + 2 ^ 20) = y + 2 ^ 20 := Nat.mod_eq_of_lt (by omega)
    have hstep : ∀ w : Nat, log2_fix_while (f + 1) w y =
        if w ≥ 2 ^ 21 then log2_fix_while f (w / 2) (y + 2 ^ 20) else (w, y) := by
      intro w
      rw [log2_fix_while, h21, h20, hy2, hs]
    rw [hstep x, hstep x']
    by_cases hge : x ≥ 2 ^ 21
    · rw [if_pos hge, if_pos (le_trans hge hle)]
      exact ih _ _ _ (Nat.div_le_div_right hle) (by omega) (by omega)
    · rw [if_neg hge]
      by_cases hge2 : x' ≥ 2 ^ 21
      · rw [if_pos hge2]
        obtain ⟨_, h2⟩ := log2_fix_for_range 20 x y (by omega) (by omega)
        obtain ⟨h3, _⟩ := log2_fix_loops_ge f (x' / 2) (y + 2 ^ 20) (by omega) (by omega)
        exact le_of_lt (lt_of_lt_of_le h2 h3)
      · rw [if_neg hge2]
        exact log2_fix_for_mono 20 x x' y hle (by omega) (by omega)

/-- The function `log2_fix` is its two loops in sequence, the first bit being `2^19`. -/
theorem log2_fix_eq_loops (x : Nat) :
    log2_fix x =
      log2_fix_for 20 (log2_fix_while 64 x 0).1 (log2_fix_while 64 x 0).2 (2 ^ 20 / 2) := by
  have hb : u64 (1 <<< (log_fix_precision - 1)) = 2 ^ 20 / 2 := by decide
  unfold log2_fix
  dsimp only
  rw [hb]
  rfl

/-- The result of `log2_fix` on a 64-bit value is below `65 · 2^20`. -/
theorem log2_fix_lt (x : Nat) (hx : x < 2 ^ 64) : log2_fix x < 65 * 2 ^ 20 := by
  rw [log2_fix_eq_loops]
  obtain ⟨_, h⟩ := log2_fix_loops_ge 64 x 0 (lt_of_lt_of_le hx (by norm_num)) (by norm_num)
  omega

/-- C34: `log2_fix` is monotone non-decreasing: for all non-zero 64-bit values `x ≤ x'`,
`log2_fix(x) ≤ log2_fix(x')`; hence for difficulties `1 ≤ d ≤ d' < 2^44` the base reward
`log2_fix(d << 20) << 20` of `getBlockReward` at `d` is at most the base reward at `d'`. -/
theorem log2_fix_mono :
    (∀ x x' : Nat, x ≠ 0 → x ≤ x' → x' < 2 ^ 64 → log2_fix x ≤ log2_fix x') ∧
      (∀ d d' : Nat, 1 ≤ d → d ≤ d' → d' < 2 ^ 44 →
        u64 (log2_fix (u64 (d <<< log_fix_precision)) <<< 20) ≤
          u64 (log2_fix (u64 (d' <<< log_fix_precision)) <<< 20)) := by
  have hmono : ∀ x x' : Nat, x ≤ x' → x' < 2 ^ 64 → log2_fix x ≤ log2_fix x' := by
    intro x x' hle hx
    rw [log2_fix_eq_loops, log2_fix_eq_loops]
    exact log2_fix_loops_mono 64 x x' 0 hle (lt_of_lt_of_le hx (by norm_num)) (by norm_num)
  refine ⟨fun x x' _ hle hx => hmono x x' hle hx, ?_⟩
  intro d d' h1 hle hd
  have hsh : ∀ e : Nat, e < 2 ^ 44 →
      u64 (log2_fix (u64 (e <<< log_fix_precision)) <<< 20) = log2_fix (e <<< 20) * 2 ^ 20 := by
    intro e he
    have hx : e <<< 20 < 2 ^ 64 := by
      rw [Nat.shiftLeft_eq]
      omega
    have hl := log2_fix_lt (e <<< 20) hx
    rw [u64_shiftLeft_lt e he, Nat.shiftLeft_eq]
    exact Nat.mod_eq_of_lt (by omega)
  rw [hsh d (by omega), hsh d' hd]
  apply Nat.mul_le_mul_right
  apply hmono
  · rw [Nat.shiftLeft_eq, Nat.shiftLeft_eq]
    exact Nat.mul_le_mul_right _ hle
  · rw [Nat.shiftLeft_eq]
    omega

theorem log2_fix_mono_witness :
    (35 <<< 20 ≠ 0 ∧ 35 <<< 20 ≤ 36 <<< 20 ∧ 36 <<< 20 < 2 ^ 64 ∧
      log2_fix (35 <<< 20) = 5378442 ∧ log2_fix (36 <<< 20) = 5421059 ∧
      log2_fix (35 <<< 20) ≤ log2_fix (36 <<< 20)) ∧
    (1 ≤ 35 ∧ 35 ≤ 36 ∧ 36 < 2 ^ 44 ∧
      u64 (log2_fix (u64 (35 <<< log_fix_precision)) <<< 20) ≤
        u64 (log2_fix (u64 (36 <<< log_fix_precision)) <<< 20)) :=
  ⟨⟨by decide, by decide, by decide, by decide, by decide,
      log2_fix_mono.1 (35 <<< 20) (36 <<< 20) (by decide) (by decide) (by decide)⟩,
    ⟨by decide, by decide, by decide, log2_fix_mono.2 35 36 (by decide) (by decide) (by decide)⟩⟩

/-! ## The base reward does not overflow -/

/-- The traced `for` loop computes the result of the `for` loop of `log2_fix`. -/
theorem log2_fix_for_traced_fst (n : Nat) :
    ∀ z y b : Nat, (log2_fix_for_traced n z y b).1 = log2_fix_for n z y b := by
  induction n with
  | zero =>
    intro z y b
    rfl
  | succ n ih =>
    intro z y b
    rw [log2_fix_for_traced, log2_fix_for]
    dsimp only
    split
    · exact ih _ _ _
    · exact ih _ _ _

/-- Started on a value of `[2^20, 2^21)`, the `for` loop of `log2_fix` squares one value per
iteration, and every value that it squares is in `[2^20, 2^21)`. -/
theorem log2_fix_for_traced_snd (n : Nat) :
    ∀ z y b : Nat, 2 ^ 20 ≤ z → z < 2 ^ 21 →
      (log2_fix_for_traced n z y b).2.length = n ∧
        ∀ w ∈ (log2_fix_for_traced n z y b).2, 2 ^ 20 ≤ w ∧ w < 2 ^ 21 := by
  have h21 : u64 (2 <<< log_fix_precision) = 2 ^ 21 := by decide
  induction n with
  | zero =>
    intro z y b hz1 hz2
    rw [log2_fix_for_traced]
    exact ⟨rfl, fun w hw => absurd hw (List.not_mem_nil w)⟩
  | succ n ih =>
    intro z y b hz1 hz2
    have hzz : z * z < 2 ^ 42 := by nlinarith
    have hzz2 : 2 ^ 40 ≤ z * z := by nlinarith
    have hz1eq : u64 (z * z) >>> log_fix_precision = z * z / 2 ^ 20 := by
      unfold u64 log_fix_precision
      rw [Nat.shiftRight_eq_div_pow, Nat.mod_eq_of_lt (by omega)]
    have hs : ∀ w : Nat, w >>> 1 = w / 2 := by
      intro w
      rw [Nat.shiftRight_eq_div_pow, pow_one]
    rw [log2_fix_for_traced]
    dsimp only
    rw [hz1eq, h21, hs]
    by_cases hge : z * z / 2 ^ 20 ≥ 2 ^ 21
    · rw [if_pos hge]
      obtain ⟨h1, h2⟩ := ih (z * z / 2 ^ 20 / 2) (u64 (y + b)) (b >>> 1) (by omega) (by omega)
      refine ⟨by rw [List.length_cons, h1], ?_⟩
      intro w hw
      rcases List.mem_cons.mp hw with rfl | hw
      · exact ⟨hz1, hz2⟩
      · exact h2 w hw
    · rw [if_neg hge]
      obtain ⟨h1, h2⟩ := ih (z * z / 2 ^ 20) y (b >>> 1) (by omega) (by omega)
      refine ⟨by rw [List.length_cons, h1], ?_⟩
      intro w hw
      rcases List.mem_cons.mp hw with rfl | hw
      · exact ⟨hz1, hz2⟩
      · exact h2 w hw

/-- C35: under the asserted precondition `1 ≤ d < 2^44` the computation of the base reward
never overflows 64 bits: `d << 20` loses no bits and is not zero, every value `z` that
`log2_fix` squares, one per iteration of its 20, is in `[2^20, 2^21)`, so that `z · z` is
below `2^42`, the result `y` of `log2_fix` is below `44 · 2^20`, and the base reward
`y << 20` is below `44 · 2^40`, the 64-bit base reward being `y · 2^20` itself. -/
theorem baseReward_no_overflow (d : Nat) (h1 : 1 ≤ d) (h2 : d < 2 ^ 44) :
    u64 (d <<< log_fix_precision) = d * 2 ^ 20 ∧ d * 2 ^ 20 ≠ 0 ∧
      (log2_fix_traced (d * 2 ^ 20)).1 = log2_fix (d * 2 ^ 20) ∧
      (log2_fix_traced (d * 2 ^ 20)).2.length = 20 ∧
      (∀ z ∈ (log2_fix_traced (d * 2 ^ 20)).2, 2 ^ 20 ≤ z ∧ z < 2 ^ 21 ∧ z * z < 2 ^ 42) ∧
      log2_fix (d * 2 ^ 20) < 44 * 2 ^ 20 ∧
      log2_fix (d * 2 ^ 20) <<< 20 < 44 * 2 ^ 40 ∧
      u64 (log2_fix (u64 (d <<< log_fix_precision)) <<< 20) =
        log2_fix (d * 2 ^ 20) * 2 ^ 20 := by
  have hx : u64 (d <<< log_fix_precision) = d * 2 ^ 20 := by
    rw [u64_shiftLeft_lt d h2, Nat.shiftLeft_eq]
  obtain ⟨k, hw, hz1, hz2⟩ := log2_fix_while_eq 64 (d * 2 ^ 20) 0
    (Nat.le_mul_of_pos_left _ h1)
    (lt_of_lt_of_le (Nat.mul_lt_mul_of_pos_right h2 (by norm_num)) (by norm_num))
    (by norm_num)
  obtain ⟨hk1, _⟩ := log_of_mantissa d k hz1 hz2
  have hk43 : k < 44 := by
    by_contra hc
    have hp : 2 ^ 44 ≤ 2 ^ k := Nat.pow_le_pow_right (by norm_num) (not_lt.mp hc)
    omega
  have hb : u64 (1 <<< (log_fix_precision - 1)) = 2 ^ 20 / 2 := by decide
  have hr : log2_fix (d * 2 ^ 20) =
      log2_fix_for 20 (d * 2 ^ 20 / 2 ^ k) (k * 2 ^ 20) (2 ^ 20 / 2) := by
    unfold log2_fix
    dsimp only
    rw [hw, hb, Nat.zero_add]
    rfl
  have ht : log2_fix_traced (d * 2 ^ 20) =
      log2_fix_for_traced 20 (d * 2 ^ 20 / 2 ^ k) (k * 2 ^ 20) (2 ^ 20 / 2) := by
    unfold log2_fix_traced
    dsimp only
    rw [hw, hb, Nat.zero_add]
    rfl
  obtain ⟨_, hlt⟩ := log2_fix_for_range 20 (d * 2 ^ 20 / 2 ^ k) (k * 2 ^ 20) hz2 (by omega)
  obtain ⟨hlen, hmem⟩ := log2_fix_for_traced_snd 20 (d * 2 ^ 20 / 2 ^ k) (k * 2 ^ 20)
    (2 ^ 20 / 2) hz1 hz2
  have hy : log2_fix (d * 2 ^ 20) < 44 * 2 ^ 20 := by
    rw [hr]
    omega
  refine ⟨hx, by omega, ?_, ?_, ?_, hy, ?_, ?_⟩
  · rw [ht, hr, log2_fix_for_traced_fst]
  · rw [ht]
    exact hlen
  · rw [ht]
    intro z hz
    obtain ⟨hz3, hz4⟩ := hmem z hz
    exact ⟨hz3, hz4, by nlinarith⟩
  · rw [Nat.shiftLeft_eq]
    omega
  · rw [hx, Nat.shiftLeft_eq]
    exact Nat.mod_eq_of_lt (by omega)

theorem baseReward_no_overflow_witness :
    1 ≤ 35 ∧ 35 < 2 ^ 44 ∧
      log2_fix_traced (35 * 2 ^ 20) =
        (5378442, [1146880, 1254400, 1500625, 1073777, 1099583, 1153071, 1267979, 1533289,
          1121032, 1198494, 1369846, 1789548, 1527062, 1111945, 1179143, 1325967, 1676739,
          1340605, 1713964, 1400791]) ∧
      log2_fix (35 * 2 ^ 20) <<< 20 = 5639705198592 ∧
      u64 (log2_fix (u64 (35 <<< log_fix_precision)) <<< 20) = 5378442 * 2 ^ 20 ∧
      (∀ z ∈ (log2_fix_traced (35 * 2 ^ 20)).2, 2 ^ 20 ≤ z ∧ z < 2 ^ 21 ∧ z * z < 2 ^ 42) :=
  ⟨by decide, by decide, by decide, by decide, by decide,
    (baseReward_no_overflow 35 (by decide) (by decide)).2.2.2.2.1⟩

end CryptoNote
